import Mathlib

/-!
Shallow embedding of the financial-crime graph analysis engine.

This file embeds the transaction-graph analysis pipeline
(`analyzeTransactions` and its helpers) and proves the specification
claims about it.

Modelling conventions:
* JS `number` amounts and scores are embedded as `ℚ`; the specification
  fixes real-valued arithmetic with explicit rounding at output.
* A transaction's `timestamp` string is represented by the result of
  `new Date(s).getTime()`: `some t` for a finite epoch-millisecond value,
  `none` when parsing yields `NaN`.  Every comparison involving `none`
  is false, matching `NaN` comparison semantics.
* JS `Map` / `Set` are insertion-ordered; they are embedded as
  association lists / duplicate-free lists that append new keys at the
  end, so all iteration orders are preserved.
* `Array.prototype.sort` is a stable sort under a total comparator, whose
  output is uniquely determined; it is embedded as a stable insertion
  sort with the same comparator.
* JS string comparison (`<`, default sort order) is UTF-16 code-unit
  lexicographic; it is embedded as code-point lexicographic order on the
  character list, which agrees on the basic multilingual plane.
-/

attribute [local semireducible] Rat.add Rat.sub Rat.mul Rat.inv

/-- Input transaction record.  `timestamp` holds the parsed epoch moment
(`none` when `new Date(...)` yields `NaN`). -/
structure Tx where
  transaction_id : String
  sender_id : String
  receiver_id : String
  amount : ℚ
  timestamp : Option ℤ
  deriving DecidableEq, Repr

/-- JS `Set.add`: append the element if not already present
(insertion-ordered set). -/
def insertSet [DecidableEq α] (l : List α) (x : α) : List α :=
  if x ∈ l then l else l ++ [x]

/-- Insertion-ordered set built from a list (JS `new Set(list)`). -/
def listToSet [DecidableEq α] (l : List α) : List α :=
  l.foldl insertSet []

/-- JS `Map.get`: first-occurrence lookup in an insertion-ordered
association list. -/
def getA [DecidableEq α] : List (α × β) → α → Option β
  | [], _ => none
  | (k, v) :: t, a => if a = k then some v else getA t a

/-- JS `Map.set`: overwrite the first occurrence in place, else append. -/
def setA [DecidableEq α] : List (α × β) → α → β → List (α × β)
  | [], a, b => [(a, b)]
  | (k, v) :: t, a, b => if a = k then (a, b) :: t else (k, v) :: setA t a b

/-- The `getOrCreate`-then-mutate idiom on a JS `Map`: read the entry
(defaulting to `d`), apply `f`, store the result. -/
def updA [DecidableEq α] (l : List (α × β)) (a : α) (d : β) (f : β → β) :
    List (α × β) :=
  setA l a (f ((getA l a).getD d))

/-- UTF-16 code-unit lexicographic comparison of JS strings, on the
character lists. -/
def charListLt : List Char → List Char → Bool
  | [], [] => false
  | [], _ :: _ => true
  | _ :: _, [] => false
  | a :: as, b :: bs => if a < b then true else if b < a then false else charListLt as bs

/-- JS `a < b` on strings. -/
def strLt (a b : String) : Bool := charListLt a.data b.data

/-- Stable insertion of `x` after every already-placed element `y` with
`le y x`. -/
def insertSorted (le : α → α → Bool) (x : α) : List α → List α
  | [] => [x]
  | y :: t => if le y x then y :: insertSorted le x t else x :: y :: t

/-- Stable sort under a total comparator, the semantics of
`Array.prototype.sort`. -/
def sortBy (le : α → α → Bool) (l : List α) : List α :=
  l.foldl (fun acc x => insertSorted le x acc) []

/-- `pre` is a prefix of `s` (character lists). -/
def prefixCheck : List Char → List Char → Bool
  | [], _ => true
  | _ :: _, [] => false
  | a :: as, b :: bs => a = b && prefixCheck as bs

/-- `pat` occurs as a contiguous substring of `s`
(JS `String.prototype.includes`). -/
def containsSub (pat : List Char) : List Char → Bool
  | [] => pat.isEmpty
  | c :: t => prefixCheck pat (c :: t) || containsSub pat t

/-- JS `toUpperCase` (ASCII range; account identifiers are ASCII). -/
def toUpperCase (s : String) : String :=
  ⟨s.data.map (fun c => if 'a' ≤ c ∧ c ≤ 'z' then Char.ofNat (c.toNat - 32) else c)⟩

-- =====================================================
-- Legitimate business account detection
-- =====================================================

/-- Per-account data gathered by `detectLegitimateAccounts`. -/
structure LegitData where
  sent : List Tx
  received : List Tx
  uniqueSenders : List String
  uniqueReceivers : List String
  totalSent : ℚ
  totalReceived : ℚ
  deriving DecidableEq, Repr

def LegitData.empty : LegitData := ⟨[], [], [], [], 0, 0⟩

/-- One transaction's contribution to the per-account classification data. -/
def legitStep (m : List (String × LegitData)) (tx : Tx) : List (String × LegitData) :=
  let m1 := updA m tx.sender_id LegitData.empty (fun s =>
    { s with sent := s.sent ++ [tx]
             uniqueReceivers := insertSet s.uniqueReceivers tx.receiver_id
             totalSent := s.totalSent + tx.amount })
  updA m1 tx.receiver_id LegitData.empty (fun r =>
    { r with received := r.received ++ [tx]
             uniqueSenders := insertSet r.uniqueSenders tx.sender_id
             totalReceived := r.totalReceived + tx.amount })

def businessKeywords : List String :=
  ["COMPANY", "CORP", "INC", "LLC", "LTD", "ENTERPRISE",
   "PAYROLL", "SALARY", "WAGE", "HR_", "HUMAN_RESOURCE",
   "RENT", "LANDLORD", "PROPERTY", "REALTY", "HOUSING",
   "VENDOR", "SUPPLIER", "SUPPLY", "WHOLESALE",
   "GROCERY", "STORE", "SHOP", "MARKET", "RETAIL",
   "UTILITY", "ELECTRIC", "WATER", "GAS_CO", "POWER",
   "INSURANCE", "INSURE",
   "BANK", "CREDIT_UNION", "MORTGAGE",
   "GOVERNMENT", "GOV_", "TAX_", "IRS",
   "SCHOOL", "UNIVERSITY", "COLLEGE",
   "HOSPITAL", "CLINIC", "MEDICAL", "HEALTH",
   "TELECOM", "PHONE", "MOBILE", "INTERNET",
   "SUBSCRIPTION", "NETFLIX", "SPOTIFY"]

def hasBusinessName (accountId : String) : Bool :=
  businessKeywords.any (fun kw => containsSub kw.data (toUpperCase accountId).data)

/-- Models `Math.sqrt(variance) / mean < 0.3` in exact arithmetic.
For `mean > 0` this is equivalent to `variance < 0.09 * mean ^ 2`; for
`mean < 0` the JS quotient is `≤ 0 < 0.3`, hence true; `mean = 0` returns
false before the quotient is formed; an empty list makes every JS
aggregate `NaN`, so every comparison is false. -/
def cvBelow (amounts : List ℚ) : Bool :=
  let n : ℚ := amounts.length
  if amounts.length = 0 then false
  else
    let mean := amounts.sum / n
    if mean = 0 then false
    else if mean < 0 then true
    else
      let variance := (amounts.map (fun b => (b - mean) ^ 2)).sum / n
      decide (variance < (3 / 10 : ℚ) ^ 2 * mean ^ 2)

/-- Flow ratio: 0 when either side is not positive, else
`min(sent, received) / max(sent, received)`. -/
def flowRatio (totalSent totalReceived : ℚ) : ℚ :=
  if 0 < totalSent ∧ 0 < totalReceived then
    min totalSent totalReceived / max totalSent totalReceived
  else 0

/-- Classification of one account from its gathered data. -/
def isLegitAccount (accountId : String) (data : LegitData) : Bool :=
  let isPayrollLike := decide (5 ≤ data.uniqueReceivers.length) &&
    decide (5 ≤ data.sent.length) && cvBelow (data.sent.map (·.amount))
  let isRentCollector := decide (5 ≤ data.uniqueSenders.length) &&
    decide (5 ≤ data.received.length) && cvBelow (data.received.map (·.amount))
  let isMerchant := decide (8 ≤ data.uniqueSenders.length) &&
    decide (data.uniqueReceivers.length ≤ 3) &&
    decide (data.totalSent * 5 < data.totalReceived)
  let isPurePayer := decide (5 ≤ data.uniqueReceivers.length) &&
    decide (data.uniqueSenders.length ≤ 1) &&
    decide (data.totalReceived * 5 < data.totalSent)
  let isOneDirectional := decide (flowRatio data.totalSent data.totalReceived < 3 / 20)
  hasBusinessName accountId || (isPayrollLike && isOneDirectional) ||
    (isRentCollector && isOneDirectional) || isMerchant || isPurePayer

/-- Accounts classified as legitimate businesses (insertion order of the
per-account map). -/
def detectLegitimateAccounts (transactions : List Tx) : List String :=
  let accountTxs := transactions.foldl legitStep []
  accountTxs.foldl (fun legit p =>
    if isLegitAccount p.1 p.2 then insertSet legit p.1 else legit) []

/-- Remove every transaction touching a legitimate account. -/
def removeLegitimateTransactions (transactions : List Tx)
    (legitimateAccounts : List String) : List Tx :=
  if legitimateAccounts = [] then transactions
  else transactions.filter (fun tx =>
    decide (tx.sender_id ∉ legitimateAccounts ∧ tx.receiver_id ∉ legitimateAccounts))

-- =====================================================
-- Indexing and aggregate statistics
-- =====================================================

/-- Adjacency index `sender → receiver → transaction list`. -/
def adjStep (adj : List (String × List (String × List Tx))) (tx : Tx) :
    List (String × List (String × List Tx)) :=
  updA adj tx.sender_id [] (fun m => updA m tx.receiver_id [] (fun l => l ++ [tx]))

def buildAdjacencyList (transactions : List Tx) :
    List (String × List (String × List Tx)) :=
  transactions.foldl adjStep []

/-- Outgoing neighbors of `a`, in insertion order. -/
def adjNeighbors (adj : List (String × List (String × List Tx))) (a : String) :
    List String :=
  ((getA adj a).getD []).map Prod.fst

/-- All account identifiers appearing as sender or receiver, in first
occurrence order. -/
def getAllAccounts (transactions : List Tx) : List String :=
  transactions.foldl (fun acc tx =>
    insertSet (insertSet acc tx.sender_id) tx.receiver_id) []

/-- Per-account aggregate statistics. -/
structure AccStats where
  totalSent : ℚ
  totalReceived : ℚ
  sendCount : ℕ
  receiveCount : ℕ
  senders : List String
  receivers : List String
  transactionTimestamps : List (Option ℤ)
  totalTransactions : ℕ
  deriving DecidableEq, Repr

def AccStats.empty : AccStats := ⟨0, 0, 0, 0, [], [], [], 0⟩

/-- One transaction's contribution to the statistics table (sender entry
first, then receiver entry; a self-loop hits the same entry twice). -/
def statStep (stats : List (String × AccStats)) (tx : Tx) :
    List (String × AccStats) :=
  let stats1 := updA stats tx.sender_id AccStats.empty (fun s =>
    { s with totalSent := s.totalSent + tx.amount
             sendCount := s.sendCount + 1
             receivers := insertSet s.receivers tx.receiver_id
             transactionTimestamps := s.transactionTimestamps ++ [tx.timestamp]
             totalTransactions := s.totalTransactions + 1 })
  updA stats1 tx.receiver_id AccStats.empty (fun r =>
    { r with totalReceived := r.totalReceived + tx.amount
             receiveCount := r.receiveCount + 1
             senders := insertSet r.senders tx.sender_id
             transactionTimestamps := r.transactionTimestamps ++ [tx.timestamp]
             totalTransactions := r.totalTransactions + 1 })

def computeAccountStats (transactions : List Tx) : List (String × AccStats) :=
  transactions.foldl statStep []

-- =====================================================
-- Ring deduplication key
-- =====================================================

/-- `patternType ++ "::" ++ sorted(members).join(",")`. -/
def makeRingDeduplicationKey (members : List String) (patternType : String) :
    String :=
  let sorted := sortBy (fun a b => !strLt b a) members
  patternType ++ "::" ++ String.intercalate "," sorted

-- =====================================================
-- Pattern 1: cycles of length 3-5
-- =====================================================

/-- The bounded-depth DFS of `detectCycles`.  `path2 = path ++ [current]`
is the current path, `depth` its (1-based) length; a neighbor equal to the
start at depth ≥ 3 records the path as a cycle; an unvisited neighbor at
depth < 5 is explored.  `fuel` only serves termination: the start call
passes 6 and recursion stops at depth 5, so fuel never runs out. -/
def cycleDfs (adj : List (String × List (String × List Tx))) (startNode : String) :
    ℕ → String → List String → List String → ℕ → List (List String)
  | 0, _, _, _, _ => []
  | fuel + 1, current, visited, path, depth =>
    if 5 < depth then [] else
    let path2 := path ++ [current]
    let visited2 := insertSet visited current
    (adjNeighbors adj current).flatMap (fun neighbor =>
      if neighbor = startNode ∧ 3 ≤ depth then [path2]
      else if neighbor ∉ visited2 ∧ depth < 5 then
        cycleDfs adj startNode fuel neighbor visited2 path2 (depth + 1)
      else [])

/-- `cycle.reduce((a, b) => (a < b ? a : b))`: the smallest member. -/
def minString : List String → String
  | [] => ""
  | h :: t => t.foldl (fun a b => if strLt a b then a else b) h

/-- Rotate the cycle so that its lexicographically smallest member is
first. -/
def normalizeCycle (cycle : List String) : List String :=
  let minIdx := cycle.findIdx (fun x => x = minString cycle)
  cycle.drop minIdx ++ cycle.take minIdx

/-- Deduplicate discovered cycles by the joined canonical rotation. -/
def dedupCycles (cycles : List (List String)) : List (List String) :=
  (cycles.foldl (fun (acc : List String × List (List String)) cycle =>
    let normalized := normalizeCycle cycle
    let key := String.intercalate "|" normalized
    if key ∈ acc.1 then acc else (acc.1 ++ [key], acc.2 ++ [normalized]))
    ([], [])).2

def detectCycles (adj : List (String × List (String × List Tx)))
    (allAccounts : List String) : List (List String) :=
  let cycles := allAccounts.flatMap (fun startNode =>
    cycleDfs adj startNode 6 startNode [] [] 1)
  dedupCycles cycles

-- =====================================================
-- Pattern 2: smurfing (fan-in / fan-out)
-- =====================================================

def WINDOW_MS : ℤ := 72 * 60 * 60 * 1000

def MIN_CONNECTIONS : ℕ := 10

/-- `anchor ≤ ts ≤ anchor + 72h`, false whenever either timestamp is
`NaN`. -/
def inWindow (ts anchor : Option ℤ) : Bool :=
  match ts, anchor with
  | some x, some a => decide (a ≤ x ∧ x ≤ a + WINDOW_MS)
  | _, _ => false

/-- The 72-hour clustering scan.  The source sorts the timestamp list and
breaks at the first successful anchor; only the existence of a successful
anchor is observed, and every timestamp of the group is tried as an
anchor, so the scan is invariant under the ordering (which is just as
well, because a JS sort whose comparator returns `NaN` leaves the order
unspecified). -/
def temporalClusterB (txs : List Tx) (party : Tx → String) : Bool :=
  (txs.map (·.timestamp)).any (fun t =>
    decide (MIN_CONNECTIONS ≤
      (listToSet ((txs.filter (fun tx2 => inWindow tx2.timestamp t)).map party)).length))

structure FanInData where
  senders : List String
  temporal : Bool
  deriving DecidableEq, Repr

structure FanOutData where
  receivers : List String
  temporal : Bool
  deriving DecidableEq, Repr

/-- Fan-in and fan-out hub discovery (run on the unfiltered batch by the
caller). -/
def detectSmurfing (transactions : List Tx) :
    List (String × FanInData) × List (String × FanOutData) :=
  let byReceiver := transactions.foldl
    (fun m tx => updA m tx.receiver_id [] (fun l => l ++ [tx])) []
  let bySender := transactions.foldl
    (fun m tx => updA m tx.sender_id [] (fun l => l ++ [tx])) []
  let fanInAccounts := byReceiver.foldl (fun acc p =>
    let uniqueSenders := listToSet (p.2.map (·.sender_id))
    if MIN_CONNECTIONS ≤ uniqueSenders.length then
      acc ++ [(p.1, ⟨uniqueSenders, temporalClusterB p.2 (·.sender_id)⟩)]
    else acc) []
  let fanOutAccounts := bySender.foldl (fun acc p =>
    let uniqueReceivers := listToSet (p.2.map (·.receiver_id))
    if MIN_CONNECTIONS ≤ uniqueReceivers.length then
      acc ++ [(p.1, ⟨uniqueReceivers, temporalClusterB p.2 (·.receiver_id)⟩)]
    else acc) []
  (fanInAccounts, fanOutAccounts)

-- =====================================================
-- Pattern 3: layered shell networks
-- =====================================================

/-- `totalTransactions` of an account under the given statistics table,
0 when absent. -/
def totalTxOf (accountStats : List (String × AccStats)) (a : String) : ℕ :=
  ((getA accountStats a).map (·.totalTransactions)).getD 0

/-- The chain DFS of `detectShellNetworks`.  A neighbor extends the path
when it is unvisited, not a cycle node and has 2-3 total transactions;
after extending, every unvisited non-cycle next hop whose transaction
count is outside 2-3 closes a terminal chain, and the path itself is
recorded once it has 3 nodes.  `fuel` only serves termination: each
recursion appends a fresh node to `visited`, so the caller's fuel (one
more than the total number of adjacency entries) never runs out. -/
def shellDfs (adj : List (String × List (String × List Tx)))
    (accountStats : List (String × AccStats)) (cycleNodes : List String) :
    ℕ → String → List String → List String → List (List String)
  | 0, _, _, _ => []
  | fuel + 1, current, visited, path =>
    (adjNeighbors adj current).flatMap (fun neighbor =>
      if neighbor ∈ visited then []
      else if neighbor ∈ cycleNodes then []
      else
        let totalTx := totalTxOf accountStats neighbor
        if 2 ≤ totalTx ∧ totalTx ≤ 3 then
          let path2 := path ++ [neighbor]
          let visited2 := visited ++ [neighbor]
          let termChains := (adjNeighbors adj neighbor).flatMap (fun nn =>
            if nn ∉ visited2 ∧ nn ∉ cycleNodes then
              let nnTx := totalTxOf accountStats nn
              if 2 ≤ nnTx ∧ nnTx ≤ 3 then []
              else if 2 ≤ path2.length then [path2 ++ [nn]] else []
            else [])
          termChains ++ (if 3 ≤ path2.length then [path2] else []) ++
            shellDfs adj accountStats cycleNodes fuel neighbor visited2 path2
        else [])

/-- Fuel bound for the shell DFS: every appended path node is a distinct
receiver key of the adjacency, so one more than the total entry count
suffices. -/
def shellFuel (adj : List (String × List (String × List Tx))) : ℕ :=
  adj.foldl (fun n p => n + p.2.length) 0 + 1

/-- Chains with low-degree interiors, subset-eliminated from longest to
shortest. -/
def detectShellNetworks (adj : List (String × List (String × List Tx)))
    (accountStats : List (String × AccStats)) (cycleNodes : List String) :
    List (List String) :=
  let allNodes := adj.map Prod.fst
  let chains := allNodes.flatMap (fun startNode =>
    if startNode ∈ cycleNodes then []
    else shellDfs adj accountStats cycleNodes (shellFuel adj) startNode
      [startNode] [startNode])
  let sortedChains := sortBy (fun a b => decide (b.length ≤ a.length)) chains
  sortedChains.foldl (fun uniqueChains chain =>
    if uniqueChains.any (fun existing => chain.all (fun node => node ∈ existing))
    then uniqueChains
    else uniqueChains ++ [chain]) []

-- =====================================================
-- Suspicion score
-- =====================================================

/-- `Math.round(x * 10) / 10`. -/
def roundTo1 (q : ℚ) : ℚ := ((round (q * 10) : ℤ) : ℚ) / 10

/-- Composite per-account suspicion score.  The `_isSmurfHub` and
`_isShellNode` parameters are declared by the source but unused by its
body. -/
def calculateSuspicionScore (accountId : String) (patterns : List String)
    (accountStats : List (String × AccStats)) (cycleCount : ℕ)
    (_isSmurfHub : Bool) (_isShellNode : Bool) (temporalFlag : Bool) : ℚ :=
  let score1 : ℚ :=
    if patterns.any (fun p => prefixCheck "cycle_length_".data p.data)
    then 35 + min ((cycleCount : ℚ) - 1) 3 * 10 else 0
  let score2 := score1 + (if "fan_in" ∈ patterns then (25 : ℚ) else 0)
  let score3 := score2 + (if "fan_out" ∈ patterns then (25 : ℚ) else 0)
  let score4 := score3 + (if "shell_network" ∈ patterns then (20 : ℚ) else 0)
  let score5 := score4 + (if temporalFlag then (15 : ℚ) else 0)
  let score6 := score5 +
    (match getA accountStats accountId with
     | none => 0
     | some stats =>
       if 0 < stats.totalSent + stats.totalReceived then
         if 0 < max stats.totalSent stats.totalReceived then
           let fr := min stats.totalSent stats.totalReceived /
             max stats.totalSent stats.totalReceived
           if 7 / 10 < fr ∧ fr < 1 then 10 else 0
         else 0
       else 0)
  roundTo1 (min score6 100)

-- =====================================================
-- Result records
-- =====================================================

structure SuspiciousAccount where
  account_id : String
  suspicion_score : ℚ
  detected_patterns : List String
  ring_id : String
  deriving DecidableEq, Repr

structure FraudRing where
  ring_id : String
  member_accounts : List String
  pattern_type : String
  risk_score : ℚ
  deriving DecidableEq, Repr

structure GraphNode where
  id : String
  suspicious : Bool
  ring_ids : List String
  patterns : List String
  total_sent : ℚ
  total_received : ℚ
  transaction_count : ℕ
  suspicion_score : ℚ
  deriving DecidableEq, Repr

structure GraphEdge where
  source : String
  target : String
  amount : ℚ
  timestamp : Option ℤ
  transaction_id : String
  deriving DecidableEq, Repr

/-- Summary counters.  The wall-clock `processing_time_seconds` field is
not modelled (fixed to 0). -/
structure AnalysisSummary where
  total_accounts_analyzed : ℕ
  suspicious_accounts_flagged : ℕ
  fraud_rings_detected : ℕ
  legitimate_accounts_filtered : ℕ
  processing_time_seconds : ℚ
  deriving DecidableEq, Repr

structure AnalysisResult where
  suspicious_accounts : List SuspiciousAccount
  fraud_rings : List FraudRing
  summary : AnalysisSummary
  nodes : List GraphNode
  edges : List GraphEdge
  deriving DecidableEq, Repr

-- =====================================================
-- Ring assembly
-- =====================================================

/-- Mutable state of the ring-assembly phase of `analyzeTransactions`. -/
structure AsmSt where
  accountPatterns : List (String × List String)
  accountRings : List (String × List String)
  fraudRings : List FraudRing
  ringDeduplicationSet : List String
  ringCounter : ℕ
  accountCycleCounts : List (String × ℕ)
  cycleNodes : List String
  deriving DecidableEq, Repr

def AsmSt.init : AsmSt := ⟨[], [], [], [], 1, [], []⟩

/-- `String(n).padStart(3, "0")`. -/
def padStart3 (s : String) : String :=
  if 3 ≤ s.data.length then s
  else ⟨List.replicate (3 - s.data.length) '0'⟩ ++ s

/-- The ring identifier produced for counter value `n`. -/
def ringIdOf (n : ℕ) : String := "RING_" ++ padStart3 (toString n)

def addPattern (st : AsmSt) (accountId pattern : String) : AsmSt :=
  { st with
    accountPatterns :=
      updA st.accountPatterns accountId [] (fun ps => insertSet ps pattern) }

def addRing (st : AsmSt) (accountId ringId : String) : AsmSt :=
  { st with
    accountRings :=
      updA st.accountRings accountId [] (fun rs => insertSet rs ringId) }

/-- Per-member bookkeeping of the cycle loop: pattern label, ring
membership, cycle count and cycle-node set. -/
def cycleMemberStep (cycleLen : ℕ) (ringId : String) (s : AsmSt)
    (account : String) : AsmSt :=
  let s2 := addRing (addPattern s account ("cycle_length_" ++ toString cycleLen))
    account ringId
  { s2 with
    accountCycleCounts :=
      setA s2.accountCycleCounts account
        (((getA s2.accountCycleCounts account).getD 0) + 1)
    cycleNodes := insertSet s2.cycleNodes account }

/-- Per-member bookkeeping of the fan-in / fan-out / shell loops. -/
def taggedMemberStep (pattern ringId : String) (s : AsmSt)
    (account : String) : AsmSt :=
  addRing (addPattern s account pattern) account ringId

/-- Accept one deduplicated cycle as a ring. -/
def cycleStep (st : AsmSt) (cycle : List String) : AsmSt :=
  if makeRingDeduplicationKey cycle "cycle" ∈ st.ringDeduplicationSet then st else
  let ringId := ringIdOf st.ringCounter
  let st1 := cycle.foldl (cycleMemberStep cycle.length ringId) st
  let riskScore := min (70 + (cycle.length : ℚ) * 5) 100
  { st1 with
    ringDeduplicationSet :=
      st1.ringDeduplicationSet ++ [makeRingDeduplicationKey cycle "cycle"]
    ringCounter := st1.ringCounter + 1
    fraudRings := st1.fraudRings ++
      [⟨ringId, cycle, "cycle", roundTo1 riskScore⟩] }

/-- Accept one fan-in hub as a ring. -/
def fanInStep (st : AsmSt) (p : String × FanInData) : AsmSt :=
  if makeRingDeduplicationKey (p.1 :: p.2.senders) "fan_in" ∈
      st.ringDeduplicationSet then st else
  let ringId := ringIdOf st.ringCounter
  let st1 := taggedMemberStep "fan_in" ringId st p.1
  let st2 := p.2.senders.foldl (taggedMemberStep "fan_in" ringId) st1
  let riskScore :=
    min (60 + (if p.2.temporal then (25 : ℚ) else 10) +
      (p.2.senders.length : ℚ) * (1 / 2)) 100
  { st2 with
    ringDeduplicationSet := st2.ringDeduplicationSet ++
      [makeRingDeduplicationKey (p.1 :: p.2.senders) "fan_in"]
    ringCounter := st2.ringCounter + 1
    fraudRings := st2.fraudRings ++
      [⟨ringId, p.1 :: p.2.senders, "fan_in", roundTo1 riskScore⟩] }

/-- Accept one fan-out hub as a ring. -/
def fanOutStep (st : AsmSt) (p : String × FanOutData) : AsmSt :=
  if makeRingDeduplicationKey (p.1 :: p.2.receivers) "fan_out" ∈
      st.ringDeduplicationSet then st else
  let ringId := ringIdOf st.ringCounter
  let st1 := taggedMemberStep "fan_out" ringId st p.1
  let st2 := p.2.receivers.foldl (taggedMemberStep "fan_out" ringId) st1
  let riskScore :=
    min (60 + (if p.2.temporal then (25 : ℚ) else 10) +
      (p.2.receivers.length : ℚ) * (1 / 2)) 100
  { st2 with
    ringDeduplicationSet := st2.ringDeduplicationSet ++
      [makeRingDeduplicationKey (p.1 :: p.2.receivers) "fan_out"]
    ringCounter := st2.ringCounter + 1
    fraudRings := st2.fraudRings ++
      [⟨ringId, p.1 :: p.2.receivers, "fan_out", roundTo1 riskScore⟩] }

/-- Accept one shell chain as a ring. -/
def shellStep (st : AsmSt) (chain : List String) : AsmSt :=
  if makeRingDeduplicationKey chain "shell_network" ∈
      st.ringDeduplicationSet then st else
  let ringId := ringIdOf st.ringCounter
  let st1 := chain.foldl (taggedMemberStep "shell_network" ringId) st
  let riskScore := min (50 + (chain.length : ℚ) * 8) 100
  { st1 with
    ringDeduplicationSet :=
      st1.ringDeduplicationSet ++ [makeRingDeduplicationKey chain "shell_network"]
    ringCounter := st1.ringCounter + 1
    fraudRings := st1.fraudRings ++
      [⟨ringId, chain, "shell_network", roundTo1 riskScore⟩] }

/-- One pattern-map entry's contribution to the suspicious-account list:
skipped when the account has no ring, otherwise scored and appended. -/
def suspiciousStep (st : AsmSt) (fanInAccounts : List (String × FanInData))
    (fanOutAccounts : List (String × FanOutData))
    (accountStats : List (String × AccStats))
    (acc : List SuspiciousAccount) (p : String × List String) :
    List SuspiciousAccount :=
  match getA st.accountRings p.1 with
  | none => acc
  | some rings =>
    if rings.isEmpty then acc else
    let isFanIn := (getA fanInAccounts p.1).isSome
    let isFanOut := (getA fanOutAccounts p.1).isSome
    let temporalFlag :=
      ((getA fanInAccounts p.1).map (·.temporal)).getD false ||
      ((getA fanOutAccounts p.1).map (·.temporal)).getD false
    let score := calculateSuspicionScore p.1 p.2 accountStats
      ((getA st.accountCycleCounts p.1).getD 0) (isFanIn || isFanOut)
      (decide ("shell_network" ∈ p.2)) temporalFlag
    acc ++ [⟨p.1, score, p.2, rings.headD ""⟩]

/-- Build the suspicious-account records from the per-account pattern and
ring maps (pattern-map iteration order, before the score sort). -/
def buildSuspicious (st : AsmSt) (fanInAccounts : List (String × FanInData))
    (fanOutAccounts : List (String × FanOutData))
    (accountStats : List (String × AccStats)) : List SuspiciousAccount :=
  st.accountPatterns.foldl
    (suspiciousStep st fanInAccounts fanOutAccounts accountStats) []

/-- Stable sort by `suspicion_score` descending. -/
def sortByScoreDesc (l : List SuspiciousAccount) : List SuspiciousAccount :=
  sortBy (fun a b => decide (b.suspicion_score ≤ a.suspicion_score)) l

/-- One graph node per pre-filter account, statistics taken from the
unfiltered batch. -/
def buildNodes (transactions : List Tx)
    (allAccountsBeforeFilter legitimateAccounts : List String) (st : AsmSt)
    (suspiciousAccounts : List SuspiciousAccount) : List GraphNode :=
  let allOriginalStats := computeAccountStats transactions
  allAccountsBeforeFilter.map (fun accountId =>
    let stats := getA allOriginalStats accountId
    { id := accountId
      suspicious := suspiciousAccounts.any (fun a => a.account_id = accountId)
      ring_ids := (getA st.accountRings accountId).getD []
      patterns :=
        if accountId ∈ legitimateAccounts then ["legitimate_business"]
        else (getA st.accountPatterns accountId).getD []
      total_sent := ((stats).map (·.totalSent)).getD 0
      total_received := ((stats).map (·.totalReceived)).getD 0
      transaction_count := ((stats).map (·.totalTransactions)).getD 0
      suspicion_score :=
        ((suspiciousAccounts.find? (fun a => a.account_id = accountId)).map
          (·.suspicion_score)).getD 0 })

/-- The echoed edge list. -/
def buildEdges (transactions : List Tx) : List GraphEdge :=
  transactions.map (fun tx =>
    ⟨tx.sender_id, tx.receiver_id, tx.amount, tx.timestamp, tx.transaction_id⟩)

-- =====================================================
-- Main analysis function
-- =====================================================

/-- The empty-result early return taken when filtering removes every
transaction: every pre-filter account becomes an untagged (or
`legitimate_business`-tagged) node with zeroed statistics. -/
def emptyResult (transactions : List Tx)
    (allAccountsBeforeFilter legitimateAccounts : List String) : AnalysisResult :=
  { suspicious_accounts := []
    fraud_rings := []
    summary := ⟨allAccountsBeforeFilter.length, 0, 0,
      legitimateAccounts.length, 0⟩
    nodes := allAccountsBeforeFilter.map (fun id =>
      { id := id
        suspicious := false
        ring_ids := []
        patterns :=
          if id ∈ legitimateAccounts then ["legitimate_business"] else []
        total_sent := 0
        total_received := 0
        transaction_count := 0
        suspicion_score := 0 })
    edges := buildEdges transactions }

/-- Detection plus ring assembly: cycles, then fan-in, then fan-out
(smurfing runs on the unfiltered batch), then shell networks. -/
def asmState (transactions filteredTransactions : List Tx) : AsmSt :=
  let adj := buildAdjacencyList filteredTransactions
  let accountStats := computeAccountStats filteredTransactions
  let uniqueCycles := detectCycles adj (getAllAccounts filteredTransactions)
  let st1 := uniqueCycles.foldl cycleStep AsmSt.init
  let smurf := detectSmurfing transactions
  let st2 := smurf.1.foldl fanInStep st1
  let st3 := smurf.2.foldl fanOutStep st2
  let shellChains := detectShellNetworks adj accountStats st3.cycleNodes
  shellChains.foldl shellStep st3

/-- The main branch of `analyzeTransactions`. -/
def mainResult (transactions : List Tx)
    (allAccountsBeforeFilter legitimateAccounts : List String)
    (filteredTransactions : List Tx) : AnalysisResult :=
  let st4 := asmState transactions filteredTransactions
  let smurf := detectSmurfing transactions
  let suspiciousAccounts := sortByScoreDesc
    (buildSuspicious st4 smurf.1 smurf.2 (computeAccountStats filteredTransactions))
  { suspicious_accounts := suspiciousAccounts
    fraud_rings := st4.fraudRings
    summary := ⟨allAccountsBeforeFilter.length, suspiciousAccounts.length,
      st4.fraudRings.length, legitimateAccounts.length, 0⟩
    nodes := buildNodes transactions allAccountsBeforeFilter
      legitimateAccounts st4 suspiciousAccounts
    edges := buildEdges transactions }

def analyzeTransactions (transactions : List Tx) : AnalysisResult :=
  let allAccountsBeforeFilter := getAllAccounts transactions
  let legitimateAccounts := detectLegitimateAccounts transactions
  let filteredTransactions :=
    removeLegitimateTransactions transactions legitimateAccounts
  if filteredTransactions.isEmpty then
    emptyResult transactions allAccountsBeforeFilter legitimateAccounts
  else
    mainResult transactions allAccountsBeforeFilter legitimateAccounts
      filteredTransactions

-- =====================================================
-- Basic container lemmas
-- =====================================================

theorem getA_setA [DecidableEq α] (l : List (α × β)) (k a : α) (v : β) :
    getA (setA l k v) a = if a = k then some v else getA l a := by
  induction l with
  | nil => simp [setA, getA]
  | cons p t ih =>
    obtain ⟨k', v'⟩ := p
    by_cases hk : k = k'
    · subst hk
      by_cases ha : a = k <;> simp [setA, getA, ha]
    · by_cases ha : a = k'
      · subst ha
        have hak : ¬a = k := fun h => hk h.symm
        simp [setA, getA, hk, hak]
      · simp [setA, getA, hk, ha, ih]

theorem getA_updA [DecidableEq α] (l : List (α × β)) (k a : α) (d : β)
    (f : β → β) :
    getA (updA l k d f) a =
      if a = k then some (f ((getA l k).getD d)) else getA l a := by
  unfold updA
  exact getA_setA l k a _

theorem map_fst_setA [DecidableEq α] (l : List (α × β)) (k : α) (v : β) :
    (setA l k v).map Prod.fst =
      if k ∈ l.map Prod.fst then l.map Prod.fst else l.map Prod.fst ++ [k] := by
  induction l with
  | nil => simp [setA]
  | cons p t ih =>
    obtain ⟨k', v'⟩ := p
    by_cases hk : k = k'
    · subst hk
      simp [setA]
    · simp only [setA, List.map_cons, if_neg hk, ih]
      by_cases hmem : k ∈ t.map Prod.fst
      · simp [hmem, hk]
      · simp [hmem, hk]

theorem map_fst_updA [DecidableEq α] (l : List (α × β)) (k : α) (d : β)
    (f : β → β) :
    (updA l k d f).map Prod.fst =
      if k ∈ l.map Prod.fst then l.map Prod.fst else l.map Prod.fst ++ [k] := by
  unfold updA
  exact map_fst_setA l k _

theorem getA_isSome_iff_mem [DecidableEq α] (l : List (α × β)) (a : α) :
    (getA l a).isSome = true ↔ a ∈ l.map Prod.fst := by
  induction l with
  | nil => simp [getA]
  | cons p t ih =>
    obtain ⟨k', v'⟩ := p
    by_cases ha : a = k' <;> simp [getA, ha, ih]

theorem mem_insertSet [DecidableEq α] (l : List α) (x y : α) :
    x ∈ insertSet l y ↔ x ∈ l ∨ x = y := by
  unfold insertSet
  split
  · rename_i h
    constructor
    · exact Or.inl
    · rintro (hx | rfl)
      · exact hx
      · exact h
  · simp

theorem nodup_insertSet [DecidableEq α] (l : List α) (y : α) (h : l.Nodup) :
    (insertSet l y).Nodup := by
  unfold insertSet
  split
  · exact h
  · rename_i hy
    simpa [List.nodup_append, h] using hy

theorem mem_listToSet [DecidableEq α] (l : List α) (x : α) :
    x ∈ listToSet l ↔ x ∈ l := by
  have key : ∀ (l acc : List α),
      x ∈ l.foldl insertSet acc ↔ x ∈ acc ∨ x ∈ l := by
    intro l
    induction l with
    | nil => simp
    | cons h t ih =>
      intro acc
      rw [List.foldl_cons, ih, mem_insertSet]
      constructor
      · rintro ((hx | rfl) | hx)
        · exact Or.inl hx
        · exact Or.inr (List.mem_cons_self _ _)
        · exact Or.inr (List.mem_cons_of_mem _ hx)
      · rintro (hx | hx)
        · exact Or.inl (Or.inl hx)
        · rcases List.mem_cons.mp hx with rfl | hx
          · exact Or.inl (Or.inr rfl)
          · exact Or.inr hx
  simpa [listToSet] using (key l [])

theorem nodup_listToSet [DecidableEq α] (l : List α) : (listToSet l).Nodup := by
  have key : ∀ (l acc : List α), acc.Nodup → (l.foldl insertSet acc).Nodup := by
    intro l
    induction l with
    | nil => intro acc h; simpa using h
    | cons h t ih =>
      intro acc hacc
      exact ih _ (nodup_insertSet _ _ hacc)
  exact key l [] List.nodup_nil

theorem insertSorted_perm (le : α → α → Bool) (x : α) (l : List α) :
    (insertSorted le x l).Perm (x :: l) := by
  induction l with
  | nil => simp [insertSorted]
  | cons y t ih =>
    unfold insertSorted
    split
    · exact ((ih.cons y).trans (List.Perm.swap x y t))
    · exact List.Perm.refl _

theorem sortBy_perm (le : α → α → Bool) (l : List α) : (sortBy le l).Perm l := by
  have key : ∀ (l acc : List α),
      (l.foldl (fun acc x => insertSorted le x acc) acc).Perm (acc ++ l) := by
    intro l
    induction l with
    | nil => simp
    | cons h t ih =>
      intro acc
      rw [List.foldl_cons]
      refine (ih _).trans ?_
      exact (List.Perm.append_right t (insertSorted_perm le h acc)).trans
        List.perm_middle.symm
  simpa [sortBy] using key l []

theorem mem_sortBy (le : α → α → Bool) (l : List α) (x : α) :
    x ∈ sortBy le l ↔ x ∈ l :=
  (sortBy_perm le l).mem_iff

-- =====================================================
-- Characterization of the aggregate statistics
-- =====================================================

/-- Sum of the amounts of `a`'s outgoing transactions. -/
def sentSum (txs : List Tx) (a : String) : ℚ :=
  ((txs.filter (fun t => decide (t.sender_id = a))).map (·.amount)).sum

/-- Sum of the amounts of `a`'s incoming transactions. -/
def receivedSum (txs : List Tx) (a : String) : ℚ :=
  ((txs.filter (fun t => decide (t.receiver_id = a))).map (·.amount)).sum

/-- Number of `a`'s outgoing transactions. -/
def sentCount (txs : List Tx) (a : String) : ℕ :=
  (txs.filter (fun t => decide (t.sender_id = a))).length

/-- Number of `a`'s incoming transactions. -/
def receivedCount (txs : List Tx) (a : String) : ℕ :=
  (txs.filter (fun t => decide (t.receiver_id = a))).length

/-- Number of transaction endpoints at `a` (a self-loop contributes two). -/
def endpointCount (txs : List Tx) (a : String) : ℕ :=
  sentCount txs a + receivedCount txs a

/-- Distinct senders of `a`'s incoming transactions, in first-observation
order. -/
def incomingSenders (txs : List Tx) (a : String) : List String :=
  listToSet ((txs.filter (fun t => decide (t.receiver_id = a))).map (·.sender_id))

/-- Distinct receivers of `a`'s outgoing transactions, in first-observation
order. -/
def outgoingReceivers (txs : List Tx) (a : String) : List String :=
  listToSet ((txs.filter (fun t => decide (t.sender_id = a))).map (·.receiver_id))

/-- The statistics entry of `a` (the empty entry when absent). -/
def statOf (stats : List (String × AccStats)) (a : String) : AccStats :=
  (getA stats a).getD AccStats.empty

theorem statOf_updA (l : List (String × AccStats)) (k a : String)
    (f : AccStats → AccStats) :
    statOf (updA l k AccStats.empty f) a =
      if a = k then f (statOf l k) else statOf l a := by
  simp only [statOf, getA_updA]
  split <;> rfl

theorem statOf_statStep_totalSent (stats : List (String × AccStats)) (t : Tx)
    (a : String) :
    (statOf (statStep stats t) a).totalSent =
      (statOf stats a).totalSent + (if t.sender_id = a then t.amount else 0) := by
  simp only [statStep, statOf_updA]
  by_cases h1 : a = t.receiver_id <;> by_cases h2 : a = t.sender_id <;>
    simp [h1, h2] <;> simp_all [eq_comm]

theorem statOf_statStep_totalReceived (stats : List (String × AccStats)) (t : Tx)
    (a : String) :
    (statOf (statStep stats t) a).totalReceived =
      (statOf stats a).totalReceived + (if t.receiver_id = a then t.amount else 0) := by
  simp only [statStep, statOf_updA]
  by_cases h1 : a = t.receiver_id <;> by_cases h2 : a = t.sender_id <;>
    simp [h1, h2] <;> simp_all [eq_comm]

theorem statOf_statStep_totalTransactions (stats : List (String × AccStats))
    (t : Tx) (a : String) :
    (statOf (statStep stats t) a).totalTransactions =
      (statOf stats a).totalTransactions +
        ((if t.sender_id = a then 1 else 0) + (if t.receiver_id = a then 1 else 0)) := by
  simp only [statStep, statOf_updA]
  by_cases h1 : a = t.receiver_id <;> by_cases h2 : a = t.sender_id <;>
    simp [h1, h2] <;> simp_all [eq_comm] <;> omega

theorem statOf_statStep_sendCount (stats : List (String × AccStats)) (t : Tx)
    (a : String) :
    (statOf (statStep stats t) a).sendCount =
      (statOf stats a).sendCount + (if t.sender_id = a then 1 else 0) := by
  simp only [statStep, statOf_updA]
  by_cases h1 : a = t.receiver_id <;> by_cases h2 : a = t.sender_id <;>
    simp [h1, h2] <;> simp_all [eq_comm]

theorem statOf_statStep_receiveCount (stats : List (String × AccStats)) (t : Tx)
    (a : String) :
    (statOf (statStep stats t) a).receiveCount =
      (statOf stats a).receiveCount + (if t.receiver_id = a then 1 else 0) := by
  simp only [statStep, statOf_updA]
  by_cases h1 : a = t.receiver_id <;> by_cases h2 : a = t.sender_id <;>
    simp [h1, h2] <;> simp_all [eq_comm]

theorem statOf_statStep_senders (stats : List (String × AccStats)) (t : Tx)
    (a : String) :
    (statOf (statStep stats t) a).senders =
      if t.receiver_id = a then insertSet (statOf stats a).senders t.sender_id
      else (statOf stats a).senders := by
  simp only [statStep, statOf_updA]
  by_cases h1 : a = t.receiver_id <;> by_cases h2 : a = t.sender_id <;>
    simp [h1, h2] <;> simp_all [eq_comm]

theorem statOf_statStep_receivers (stats : List (String × AccStats)) (t : Tx)
    (a : String) :
    (statOf (statStep stats t) a).receivers =
      if t.sender_id = a then insertSet (statOf stats a).receivers t.receiver_id
      else (statOf stats a).receivers := by
  simp only [statStep, statOf_updA]
  by_cases h1 : a = t.receiver_id <;> by_cases h2 : a = t.sender_id <;>
    simp [h1, h2] <;> simp_all [eq_comm]

theorem statOf_foldl_totalSent (txs : List Tx) (acc : List (String × AccStats))
    (a : String) :
    (statOf (txs.foldl statStep acc) a).totalSent =
      (statOf acc a).totalSent + sentSum txs a := by
  induction txs generalizing acc with
  | nil => simp [sentSum]
  | cons t ts ih =>
    rw [List.foldl_cons, ih, statOf_statStep_totalSent]
    simp only [sentSum, List.filter_cons]
    split <;> simp_all [sentSum] <;> ring

theorem statOf_foldl_totalReceived (txs : List Tx)
    (acc : List (String × AccStats)) (a : String) :
    (statOf (txs.foldl statStep acc) a).totalReceived =
      (statOf acc a).totalReceived + receivedSum txs a := by
  induction txs generalizing acc with
  | nil => simp [receivedSum]
  | cons t ts ih =>
    rw [List.foldl_cons, ih, statOf_statStep_totalReceived]
    simp only [receivedSum, List.filter_cons]
    split <;> simp_all [receivedSum] <;> ring

theorem statOf_foldl_totalTransactions (txs : List Tx)
    (acc : List (String × AccStats)) (a : String) :
    (statOf (txs.foldl statStep acc) a).totalTransactions =
      (statOf acc a).totalTransactions + endpointCount txs a := by
  induction txs generalizing acc with
  | nil => simp [endpointCount, sentCount, receivedCount]
  | cons t ts ih =>
    rw [List.foldl_cons, ih, statOf_statStep_totalTransactions]
    simp only [endpointCount, sentCount, receivedCount, List.filter_cons]
    split <;> split <;> simp_all [endpointCount, sentCount, receivedCount] <;> omega

theorem statOf_foldl_sendCount (txs : List Tx) (acc : List (String × AccStats))
    (a : String) :
    (statOf (txs.foldl statStep acc) a).sendCount =
      (statOf acc a).sendCount + sentCount txs a := by
  induction txs generalizing acc with
  | nil => simp [sentCount]
  | cons t ts ih =>
    rw [List.foldl_cons, ih, statOf_statStep_sendCount]
    simp only [sentCount, List.filter_cons]
    split <;> simp_all [sentCount] <;> omega

theorem statOf_foldl_receiveCount (txs : List Tx)
    (acc : List (String × AccStats)) (a : String) :
    (statOf (txs.foldl statStep acc) a).receiveCount =
      (statOf acc a).receiveCount + receivedCount txs a := by
  induction txs generalizing acc with
  | nil => simp [receivedCount]
  | cons t ts ih =>
    rw [List.foldl_cons, ih, statOf_statStep_receiveCount]
    simp only [receivedCount, List.filter_cons]
    split <;> simp_all [receivedCount] <;> omega

theorem statOf_foldl_senders (txs : List Tx) (acc : List (String × AccStats))
    (a : String) :
    (statOf (txs.foldl statStep acc) a).senders =
      ((txs.filter (fun t => decide (t.receiver_id = a))).map
        (·.sender_id)).foldl insertSet (statOf acc a).senders := by
  induction txs generalizing acc with
  | nil => simp
  | cons t ts ih =>
    rw [List.foldl_cons, ih, statOf_statStep_senders]
    simp only [List.filter_cons]
    split <;> simp_all

theorem statOf_foldl_receivers (txs : List Tx) (acc : List (String × AccStats))
    (a : String) :
    (statOf (txs.foldl statStep acc) a).receivers =
      ((txs.filter (fun t => decide (t.sender_id = a))).map
        (·.receiver_id)).foldl insertSet (statOf acc a).receivers := by
  induction txs generalizing acc with
  | nil => simp
  | cons t ts ih =>
    rw [List.foldl_cons, ih, statOf_statStep_receivers]
    simp only [List.filter_cons]
    split <;> simp_all

/-- `totalSent` of the statistics table is the outgoing amount sum. -/
theorem computeAccountStats_totalSent (txs : List Tx) (a : String) :
    (statOf (computeAccountStats txs) a).totalSent = sentSum txs a := by
  simpa [statOf, getA, AccStats.empty] using statOf_foldl_totalSent txs [] a

/-- `totalReceived` of the statistics table is the incoming amount sum. -/
theorem computeAccountStats_totalReceived (txs : List Tx) (a : String) :
    (statOf (computeAccountStats txs) a).totalReceived = receivedSum txs a := by
  simpa [statOf, getA, AccStats.empty] using statOf_foldl_totalReceived txs [] a

/-- `totalTransactions` of the statistics table is the endpoint count. -/
theorem computeAccountStats_totalTransactions (txs : List Tx) (a : String) :
    (statOf (computeAccountStats txs) a).totalTransactions = endpointCount txs a := by
  simpa [statOf, getA, AccStats.empty] using statOf_foldl_totalTransactions txs [] a

theorem computeAccountStats_sendCount (txs : List Tx) (a : String) :
    (statOf (computeAccountStats txs) a).sendCount = sentCount txs a := by
  simpa [statOf, getA, AccStats.empty] using statOf_foldl_sendCount txs [] a

theorem computeAccountStats_receiveCount (txs : List Tx) (a : String) :
    (statOf (computeAccountStats txs) a).receiveCount = receivedCount txs a := by
  simpa [statOf, getA, AccStats.empty] using statOf_foldl_receiveCount txs [] a

theorem computeAccountStats_senders (txs : List Tx) (a : String) :
    (statOf (computeAccountStats txs) a).senders = incomingSenders txs a := by
  simpa [statOf, getA, AccStats.empty, incomingSenders, listToSet] using
    statOf_foldl_senders txs [] a

theorem computeAccountStats_receivers (txs : List Tx) (a : String) :
    (statOf (computeAccountStats txs) a).receivers = outgoingReceivers txs a := by
  simpa [statOf, getA, AccStats.empty, outgoingReceivers, listToSet] using
    statOf_foldl_receivers txs [] a

/-- The statistics table has exactly the input's accounts as keys, in
first-occurrence order. -/
theorem map_fst_computeAccountStats (txs : List Tx) :
    (computeAccountStats txs).map Prod.fst = getAllAccounts txs := by
  have key : ∀ (txs : List Tx) (acc : List (String × AccStats)),
      (txs.foldl statStep acc).map Prod.fst =
        txs.foldl (fun ks tx => insertSet (insertSet ks tx.sender_id) tx.receiver_id)
          (acc.map Prod.fst) := by
    intro txs
    induction txs with
    | nil => simp
    | cons t ts ih =>
      intro acc
      rw [List.foldl_cons, ih, List.foldl_cons]
      congr 1
      simp only [statStep]
      rw [map_fst_updA, map_fst_updA]
      simp only [insertSet, map_fst_updA]
  simpa [computeAccountStats, getAllAccounts] using key txs []

/-- Membership in the account universe. -/
theorem mem_getAllAccounts (txs : List Tx) (x : String) :
    x ∈ getAllAccounts txs ↔ ∃ t ∈ txs, x = t.sender_id ∨ x = t.receiver_id := by
  have key : ∀ (txs : List Tx) (acc : List String),
      x ∈ txs.foldl (fun ks tx => insertSet (insertSet ks tx.sender_id) tx.receiver_id) acc ↔
        x ∈ acc ∨ ∃ t ∈ txs, x = t.sender_id ∨ x = t.receiver_id := by
    intro txs
    induction txs with
    | nil => simp
    | cons t ts ih =>
      intro acc
      rw [List.foldl_cons, ih, mem_insertSet, mem_insertSet]
      constructor
      · rintro (((hx | rfl) | rfl) | ⟨u, hu, hxu⟩)
        · exact Or.inl hx
        · exact Or.inr ⟨t, List.mem_cons_self _ _, Or.inl rfl⟩
        · exact Or.inr ⟨t, List.mem_cons_self _ _, Or.inr rfl⟩
        · exact Or.inr ⟨u, List.mem_cons_of_mem _ hu, hxu⟩
      · rintro (hx | ⟨u, hu, hxu⟩)
        · exact Or.inl (Or.inl (Or.inl hx))
        · rcases List.mem_cons.mp hu with rfl | hu
          · rcases hxu with rfl | rfl
            · exact Or.inl (Or.inl (Or.inr rfl))
            · exact Or.inl (Or.inr rfl)
          · exact Or.inr ⟨u, hu, hxu⟩
  simpa [getAllAccounts] using key txs []

theorem nodup_getAllAccounts (txs : List Tx) : (getAllAccounts txs).Nodup := by
  have key : ∀ (txs : List Tx) (acc : List String), acc.Nodup →
      (txs.foldl (fun ks tx => insertSet (insertSet ks tx.sender_id) tx.receiver_id) acc).Nodup := by
    intro txs
    induction txs with
    | nil => intro acc h; simpa using h
    | cons t ts ih =>
      intro acc hacc
      exact ih _ (nodup_insertSet _ _ (nodup_insertSet _ _ hacc))
  exact key txs [] List.nodup_nil

-- =====================================================
-- Branch lemmas for the main analysis
-- =====================================================

theorem map_comp_proj_id (l : List α) (f : α → β) (g : β → α)
    (h : ∀ x, g (f x) = x) : l.map (g ∘ f) = l := by
  induction l with
  | nil => rfl
  | cons a t ih => simp [Function.comp, h, ih]

theorem analyzeTransactions_eq_empty (transactions : List Tx)
    (h : removeLegitimateTransactions transactions
      (detectLegitimateAccounts transactions) = []) :
    analyzeTransactions transactions =
      emptyResult transactions (getAllAccounts transactions)
        (detectLegitimateAccounts transactions) := by
  simp [analyzeTransactions, h]

theorem analyzeTransactions_eq_main (transactions : List Tx)
    (h : removeLegitimateTransactions transactions
      (detectLegitimateAccounts transactions) ≠ []) :
    analyzeTransactions transactions =
      mainResult transactions (getAllAccounts transactions)
        (detectLegitimateAccounts transactions)
        (removeLegitimateTransactions transactions
          (detectLegitimateAccounts transactions)) := by
  simp only [analyzeTransactions]
  rw [if_neg]
  simpa [List.isEmpty_iff] using h

theorem getD_map_totalSent (l : List (String × AccStats)) (a : String) :
    ((getA l a).map (·.totalSent)).getD 0 = (statOf l a).totalSent := by
  cases h : getA l a <;> simp [statOf, h, AccStats.empty]

theorem getD_map_totalReceived (l : List (String × AccStats)) (a : String) :
    ((getA l a).map (·.totalReceived)).getD 0 = (statOf l a).totalReceived := by
  cases h : getA l a <;> simp [statOf, h, AccStats.empty]

theorem getD_map_totalTransactions (l : List (String × AccStats)) (a : String) :
    ((getA l a).map (·.totalTransactions)).getD 0 =
      (statOf l a).totalTransactions := by
  cases h : getA l a <;> simp [statOf, h, AccStats.empty]

-- =====================================================
-- Claim C1
-- =====================================================

/-- C1 failing input: `RENT_HUB` matches the business keyword `RENT`, so it
is classified legitimate, yet it receives from ten distinct senders; one
extra transaction between untouched accounts keeps the filtered batch
non-empty. -/
def c1FailingInput : List Tx :=
  [⟨"T1", "S1", "RENT_HUB", 100, some 0⟩,
   ⟨"T2", "S2", "RENT_HUB", 100, some 0⟩,
   ⟨"T3", "S3", "RENT_HUB", 100, some 0⟩,
   ⟨"T4", "S4", "RENT_HUB", 100, some 0⟩,
   ⟨"T5", "S5", "RENT_HUB", 100, some 0⟩,
   ⟨"T6", "S6", "RENT_HUB", 100, some 0⟩,
   ⟨"T7", "S7", "RENT_HUB", 100, some 0⟩,
   ⟨"T8", "S8", "RENT_HUB", 100, some 0⟩,
   ⟨"T9", "S9", "RENT_HUB", 100, some 0⟩,
   ⟨"T10", "S10", "RENT_HUB", 100, some 0⟩,
   ⟨"T11", "X", "Y", 100, some 0⟩]

/-- C1: the claim fails on the code.  On `c1FailingInput` the account
`RENT_HUB` is classified legitimate (keyword match), yet because smurfing
runs on the unfiltered transactions and the fan-in ring loop never
consults the legitimate set, `RENT_HUB` is emitted as a member of a
`fan_in` fraud ring — contradicting "every account classified legitimate
appears in no fraud ring's member_accounts".  (Its node's `patterns` field
is nevertheless exactly `["legitimate_business"]`, as the claim also
states.) -/
theorem c1_legitimate_account_in_ring :
    "RENT_HUB" ∈ detectLegitimateAccounts c1FailingInput ∧
    (∃ r ∈ (analyzeTransactions c1FailingInput).fraud_rings,
      r.pattern_type = "fan_in" ∧ "RENT_HUB" ∈ r.member_accounts) ∧
    (∃ n ∈ (analyzeTransactions c1FailingInput).nodes,
      n.id = "RENT_HUB" ∧ n.patterns = ["legitimate_business"]) := by
  decide

-- =====================================================
-- Claim C2
-- =====================================================

/-- C2 counterexample input: the single transaction touches the
keyword-matched account `ACME_CORP`, so the filter removes everything and
the early return emits zeroed node statistics. -/
def c2FailingInput : List Tx := [⟨"T1", "ACME_CORP", "E1", 100, some 0⟩]

/-- C2 (counterexample): on `c2FailingInput` the filter removes all
transactions, and the emitted node for `ACME_CORP` carries
`total_sent = 0` although the account's outgoing amount sum in the
original input is `100` — the claim's "including in the case where the
legitimacy filter removes all transactions" fails on the code. -/
theorem c2_counterexample :
    ∃ n ∈ (analyzeTransactions c2FailingInput).nodes,
      n.id ∈ getAllAccounts c2FailingInput ∧
      sentSum c2FailingInput n.id = 100 ∧
      n.total_sent = 0 ∧
      n.total_sent ≠ sentSum c2FailingInput n.id := by
  decide

/-- C2 (amended): whenever at least one transaction survives the
legitimacy filter, every emitted node's `total_sent`, `total_received`
and `transaction_count` are the unfiltered outgoing amount sum, incoming
amount sum and endpoint count of its account, and the node list covers
exactly the pre-filter account universe; but when the filter removes
every transaction, the early return emits all three statistics as zero. -/
theorem c2_node_statistics (transactions : List Tx) :
    ((analyzeTransactions transactions).nodes.map (fun n => n.id) =
      getAllAccounts transactions) ∧
    (removeLegitimateTransactions transactions
        (detectLegitimateAccounts transactions) ≠ [] →
      ∀ n ∈ (analyzeTransactions transactions).nodes,
        n.total_sent = sentSum transactions n.id ∧
        n.total_received = receivedSum transactions n.id ∧
        n.transaction_count = endpointCount transactions n.id) ∧
    (removeLegitimateTransactions transactions
        (detectLegitimateAccounts transactions) = [] →
      ∀ n ∈ (analyzeTransactions transactions).nodes,
        n.total_sent = 0 ∧ n.total_received = 0 ∧ n.transaction_count = 0) := by
  by_cases h : removeLegitimateTransactions transactions
      (detectLegitimateAccounts transactions) = []
  · rw [analyzeTransactions_eq_empty transactions h]
    refine ⟨?_, fun hc => absurd h hc, fun _ => ?_⟩
    · simp only [emptyResult, List.map_map]
      exact map_comp_proj_id _ _ _ (fun x => rfl)
    · intro n hn
      simp only [emptyResult, List.mem_map] at hn
      obtain ⟨a, _, rfl⟩ := hn
      exact ⟨rfl, rfl, rfl⟩
  · rw [analyzeTransactions_eq_main transactions h]
    refine ⟨?_, fun _ => ?_, fun hc => absurd hc h⟩
    · simp only [mainResult, buildNodes, List.map_map]
      exact map_comp_proj_id _ _ _ (fun x => rfl)
    · intro n hn
      simp only [mainResult, buildNodes, List.mem_map] at hn
      obtain ⟨a, _, rfl⟩ := hn
      refine ⟨?_, ?_, ?_⟩
      · rw [getD_map_totalSent]
        exact computeAccountStats_totalSent transactions a
      · rw [getD_map_totalReceived]
        exact computeAccountStats_totalReceived transactions a
      · rw [getD_map_totalTransactions]
        exact computeAccountStats_totalTransactions transactions a

/-- Witness for `c2_node_statistics` at a concrete non-empty-filter
batch. -/
theorem c2_node_statistics_witness :
    (((analyzeTransactions c1FailingInput).nodes.headD
        ⟨"", false, [], [], 0, 0, 0, 0⟩).total_sent =
      sentSum c1FailingInput
        (((analyzeTransactions c1FailingInput).nodes.headD
          ⟨"", false, [], [], 0, 0, 0, 0⟩).id)) :=
  (((c2_node_statistics c1FailingInput).2.1 (by decide) _ (by decide)).1)

-- =====================================================
-- Generic fold-invariant helpers
-- =====================================================

theorem foldl_preserve {σ α : Type _} (P : σ → Prop) (step : σ → α → σ)
    (h : ∀ s a, P s → P (step s a)) :
    ∀ (l : List α) (s : σ), P s → P (l.foldl step s) := by
  intro l
  induction l with
  | nil => intro s hs; simpa using hs
  | cons x t ih => intro s hs; exact ih _ (h s x hs)

theorem foldl_preserve_mem {σ α : Type _} (P : σ → Prop) (Q : α → Prop)
    (step : σ → α → σ) (h : ∀ s a, P s → Q a → P (step s a)) :
    ∀ (l : List α) (s : σ), (∀ a ∈ l, Q a) → P s → P (l.foldl step s) := by
  intro l
  induction l with
  | nil => intro s _ hs; simpa using hs
  | cons x t ih =>
    intro s hQ hs
    exact ih _ (fun a ha => hQ a (List.mem_cons_of_mem _ ha))
      (h s x hs (hQ x (List.mem_cons_self _ _)))

theorem foldl_fraudRings_const (f : AsmSt → α → AsmSt)
    (hf : ∀ s x, (f s x).fraudRings = s.fraudRings) :
    ∀ (l : List α) (st : AsmSt), (l.foldl f st).fraudRings = st.fraudRings := by
  intro l
  induction l with
  | nil => intro st; rfl
  | cons x t ih => intro st; rw [List.foldl_cons, ih, hf]

theorem foldl_ringCounter_const (f : AsmSt → α → AsmSt)
    (hf : ∀ s x, (f s x).ringCounter = s.ringCounter) :
    ∀ (l : List α) (st : AsmSt), (l.foldl f st).ringCounter = st.ringCounter := by
  intro l
  induction l with
  | nil => intro st; rfl
  | cons x t ih => intro st; rw [List.foldl_cons, ih, hf]

-- =====================================================
-- Claim C8
-- =====================================================

/-- The suspicion score before the pass-through bonus: pattern base
scores, cycle-multiplicity bonus and temporal bonus. -/
def preBonusScore (patterns : List String) (cycleCount : ℕ)
    (temporalFlag : Bool) : ℚ :=
  (if patterns.any (fun p => prefixCheck "cycle_length_".data p.data)
   then 35 + min ((cycleCount : ℚ) - 1) 3 * 10 else 0) +
  (if "fan_in" ∈ patterns then 25 else 0) +
  (if "fan_out" ∈ patterns then 25 else 0) +
  (if "shell_network" ∈ patterns then 20 else 0) +
  (if temporalFlag then 15 else 0)

/-- The source's nested guards (`totalFlow > 0`, `maxFlow > 0`,
`0.7 < ratio < 1.0`) are equivalent to the claim's flat condition. -/
theorem flowBonus_eq (s r : ℚ) :
    (if 0 < s + r then
      (if 0 < max s r then
        (if 7 / 10 < min s r / max s r ∧ min s r / max s r < 1
         then (10 : ℚ) else 0)
       else 0)
     else 0) =
    (if 0 < s ∧ 0 < r ∧ 7 / 10 < min s r / max s r ∧ min s r / max s r < 1
     then (10 : ℚ) else 0) := by
  by_cases hc : 0 < s ∧ 0 < r ∧ 7 / 10 < min s r / max s r ∧ min s r / max s r < 1
  · obtain ⟨hs, hr, h3, h4⟩ := hc
    have h1 : 0 < s + r := by linarith
    have h2 : 0 < max s r := lt_max_iff.mpr (Or.inl hs)
    simp [h1, h2, h3, h4, hs, hr]
  · rw [if_neg hc]
    by_cases h1 : 0 < s + r
    · by_cases h2 : 0 < max s r
      · rw [if_pos h1, if_pos h2, if_neg]
        rintro ⟨h3, h4⟩
        have hmin : 0 < min s r := by
          have h5 : 7 / 10 * max s r < min s r := (lt_div_iff h2).mp h3
          nlinarith
        exact hc ⟨(lt_min_iff.mp hmin).1, (lt_min_iff.mp hmin).2, h3, h4⟩
      · simp [h1, h2]
    · simp [h1]

/-- C8 demo: the spec's Scenario A, a pure 3-cycle with equal amounts. -/
def pure3CycleInput : List Tx :=
  [⟨"T1", "A", "B", 100, some 0⟩,
   ⟨"T2", "B", "C", 100, some 3600000⟩,
   ⟨"T3", "C", "A", 100, some 7200000⟩]

/-- The pass-through-bonus condition of the claim: both flow totals
positive and flow ratio strictly between 0.7 and 1.0. -/
def passThroughCond (s r : ℚ) : Prop :=
  0 < s ∧ 0 < r ∧ 7 / 10 < min s r / max s r ∧ min s r / max s r < 1

instance (s r : ℚ) : Decidable (passThroughCond s r) := by
  unfold passThroughCond
  infer_instance

/-- The suspicion score is the pre-bonus score plus the 10-point bonus,
added exactly under `passThroughCond`, capped and rounded. -/
theorem calculateSuspicionScore_eq (accountId : String) (patterns : List String)
    (accountStats : List (String × AccStats)) (cycleCount : ℕ)
    (hub shell temporalFlag : Bool) :
    calculateSuspicionScore accountId patterns accountStats cycleCount
        hub shell temporalFlag =
      roundTo1 (min (preBonusScore patterns cycleCount temporalFlag +
        (if passThroughCond (statOf accountStats accountId).totalSent
            (statOf accountStats accountId).totalReceived
         then (10 : ℚ) else 0)) 100) := by
  simp only [calculateSuspicionScore, preBonusScore, passThroughCond]
  cases h : getA accountStats accountId with
  | none =>
    simp [statOf, h, AccStats.empty]
  | some stats =>
    simp only [statOf, h, Option.getD_some]
    rw [← flowBonus_eq]

/-- C8: the pass-through bonus is added exactly when both flow totals are
positive and the flow ratio lies strictly between 0.7 and 1.0 (so an
exact ratio of 1.0 earns nothing), and on a pure 3-cycle with equal
amounts every member's suspicion score is 35.0. -/
theorem c8_pass_through_bonus :
    (∀ (accountId : String) (patterns : List String)
        (accountStats : List (String × AccStats)) (cycleCount : ℕ)
        (hub shell temporalFlag : Bool),
      calculateSuspicionScore accountId patterns accountStats cycleCount
          hub shell temporalFlag =
        roundTo1 (min (preBonusScore patterns cycleCount temporalFlag +
          (if 0 < (statOf accountStats accountId).totalSent ∧
              0 < (statOf accountStats accountId).totalReceived ∧
              7 / 10 < min (statOf accountStats accountId).totalSent
                  (statOf accountStats accountId).totalReceived /
                max (statOf accountStats accountId).totalSent
                  (statOf accountStats accountId).totalReceived ∧
              min (statOf accountStats accountId).totalSent
                  (statOf accountStats accountId).totalReceived /
                max (statOf accountStats accountId).totalSent
                  (statOf accountStats accountId).totalReceived < 1
           then (10 : ℚ) else 0)) 100)) ∧
    (analyzeTransactions pure3CycleInput).suspicious_accounts.map
        (fun sa => sa.suspicion_score) = [35, 35, 35] ∧
    (analyzeTransactions pure3CycleInput).fraud_rings.map
        (fun r => (r.ring_id, r.pattern_type, r.member_accounts)) =
      [("RING_001", "cycle", ["A", "B", "C"])] := by
  refine ⟨?_, by decide, by decide⟩
  intro accountId patterns accountStats cycleCount hub shell temporalFlag
  exact calculateSuspicionScore_eq accountId patterns accountStats cycleCount
    hub shell temporalFlag

-- =====================================================
-- Score bounds
-- =====================================================

theorem round_mono_rat (a b : ℚ) (hab : a ≤ b) : round a ≤ round b := by
  rw [round_eq, round_eq]
  exact Int.floor_le_floor (by linarith)

theorem roundTo1_bounds (x : ℚ) (h0 : 0 ≤ x) (h1 : x ≤ 100) :
    0 ≤ roundTo1 x ∧ roundTo1 x ≤ 100 := by
  have hl : (0 : ℤ) ≤ round (x * 10) := by
    have h := round_mono_rat 0 (x * 10) (by nlinarith)
    simpa using h
  have hu : round (x * 10) ≤ 1000 := by
    have h := round_mono_rat (x * 10) 1000 (by nlinarith)
    have h1000 : round (1000 : ℚ) = 1000 := by
      rw [round_eq]
      norm_num
    rw [h1000] at h
    exact h
  constructor
  · unfold roundTo1
    apply div_nonneg _ (by norm_num)
    exact_mod_cast hl
  · unfold roundTo1
    rw [div_le_iff (by norm_num)]
    have h' : ((round (x * 10) : ℤ) : ℚ) ≤ (1000 : ℚ) := by exact_mod_cast hu
    linarith

/-- Bounds for a capped, rounded risk score. -/
theorem riskBounds (q : ℚ) (hq : 0 ≤ q) :
    0 ≤ roundTo1 (min q 100) ∧ roundTo1 (min q 100) ≤ 100 :=
  roundTo1_bounds _ (le_min hq (by norm_num)) (min_le_right _ _)

theorem preBonusScore_nonneg (patterns : List String) (cycleCount : ℕ)
    (temporalFlag : Bool) :
    0 ≤ preBonusScore patterns cycleCount temporalFlag := by
  unfold preBonusScore
  have hm : (-1 : ℚ) ≤ min ((cycleCount : ℚ) - 1) 3 := by
    apply le_min _ (by norm_num)
    have : (0 : ℚ) ≤ (cycleCount : ℚ) := Nat.cast_nonneg _
    linarith
  have h1 : (0 : ℚ) ≤
      (if patterns.any (fun p => prefixCheck "cycle_length_".data p.data)
       then 35 + min ((cycleCount : ℚ) - 1) 3 * 10 else 0) := by
    split
    · nlinarith
    · exact le_refl 0
  have h2 : (0 : ℚ) ≤ (if "fan_in" ∈ patterns then (25 : ℚ) else 0) := by
    split <;> norm_num
  have h3 : (0 : ℚ) ≤ (if "fan_out" ∈ patterns then (25 : ℚ) else 0) := by
    split <;> norm_num
  have h4 : (0 : ℚ) ≤ (if "shell_network" ∈ patterns then (20 : ℚ) else 0) := by
    split <;> norm_num
  have h5 : (0 : ℚ) ≤ (if temporalFlag then (15 : ℚ) else 0) := by
    split <;> norm_num
  linarith

theorem calculateSuspicionScore_bounds (accountId : String)
    (patterns : List String) (accountStats : List (String × AccStats))
    (cycleCount : ℕ) (hub shell temporalFlag : Bool) :
    0 ≤ calculateSuspicionScore accountId patterns accountStats cycleCount
        hub shell temporalFlag ∧
      calculateSuspicionScore accountId patterns accountStats cycleCount
        hub shell temporalFlag ≤ 100 := by
  rw [calculateSuspicionScore_eq]
  apply riskBounds
  have h1 := preBonusScore_nonneg patterns cycleCount temporalFlag
  have h2 : (0 : ℚ) ≤
      (if passThroughCond (statOf accountStats accountId).totalSent
          (statOf accountStats accountId).totalReceived
       then (10 : ℚ) else 0) := by
    split <;> norm_num
  linarith

-- =====================================================
-- Ring-assembly invariants: risk scores and identifiers
-- =====================================================

/-- Correct per-pattern risk score, with bounds. -/
def ringRiskOk (r : FraudRing) : Prop :=
  (0 ≤ r.risk_score ∧ r.risk_score ≤ 100) ∧
  (r.pattern_type = "cycle" →
    r.risk_score = roundTo1 (min (70 + (r.member_accounts.length : ℚ) * 5) 100)) ∧
  (r.pattern_type = "shell_network" →
    r.risk_score = roundTo1 (min (50 + (r.member_accounts.length : ℚ) * 8) 100)) ∧
  (r.pattern_type = "fan_in" ∨ r.pattern_type = "fan_out" →
    ∃ temporal : Bool,
      r.risk_score = roundTo1 (min (60 + (if temporal then (25 : ℚ) else 10) +
        ((r.member_accounts.length : ℚ) - 1) * (1 / 2)) 100))


theorem foldl_field_const {σ α γ : Type _} (g : σ → γ) (f : σ → α → σ)
    (hf : ∀ s x, g (f s x) = g s) :
    ∀ (l : List α) (s : σ), g (l.foldl f s) = g s := by
  intro l
  induction l with
  | nil => intro s; rfl
  | cons x t ih => intro s; rw [List.foldl_cons, ih, hf]

theorem cycleStep_fraudRings (st : AsmSt) (c : List String) :
    (cycleStep st c).fraudRings =
      if makeRingDeduplicationKey c "cycle" ∈ st.ringDeduplicationSet
      then st.fraudRings
      else st.fraudRings ++ [⟨ringIdOf st.ringCounter, c, "cycle",
        roundTo1 (min (70 + (c.length : ℚ) * 5) 100)⟩] := by
  unfold cycleStep
  split
  · rfl
  · show (c.foldl (cycleMemberStep c.length (ringIdOf st.ringCounter)) st).fraudRings
      ++ _ = _
    rw [foldl_field_const (fun s : AsmSt => s.fraudRings)
      (cycleMemberStep c.length (ringIdOf st.ringCounter)) (fun s x => rfl)]

theorem cycleStep_ringCounter (st : AsmSt) (c : List String) :
    (cycleStep st c).ringCounter =
      if makeRingDeduplicationKey c "cycle" ∈ st.ringDeduplicationSet
      then st.ringCounter else st.ringCounter + 1 := by
  unfold cycleStep
  split
  · rfl
  · show (c.foldl (cycleMemberStep c.length (ringIdOf st.ringCounter)) st).ringCounter
      + 1 = _
    rw [foldl_field_const (fun s : AsmSt => s.ringCounter)
      (cycleMemberStep c.length (ringIdOf st.ringCounter)) (fun s x => rfl)]

theorem cycleStep_dedup (st : AsmSt) (c : List String) :
    (cycleStep st c).ringDeduplicationSet =
      if makeRingDeduplicationKey c "cycle" ∈ st.ringDeduplicationSet
      then st.ringDeduplicationSet
      else st.ringDeduplicationSet ++ [makeRingDeduplicationKey c "cycle"] := by
  unfold cycleStep
  split
  · rfl
  · show (c.foldl (cycleMemberStep c.length (ringIdOf st.ringCounter)) st).ringDeduplicationSet
      ++ _ = _
    rw [foldl_field_const (fun s : AsmSt => s.ringDeduplicationSet)
      (cycleMemberStep c.length (ringIdOf st.ringCounter)) (fun s x => rfl)]

theorem fanInStep_fraudRings (st : AsmSt) (p : String × FanInData) :
    (fanInStep st p).fraudRings =
      if makeRingDeduplicationKey (p.1 :: p.2.senders) "fan_in" ∈
          st.ringDeduplicationSet
      then st.fraudRings
      else st.fraudRings ++ [⟨ringIdOf st.ringCounter, p.1 :: p.2.senders, "fan_in",
        roundTo1 (min (60 + (if p.2.temporal then (25 : ℚ) else 10) +
          (p.2.senders.length : ℚ) * (1 / 2)) 100)⟩] := by
  unfold fanInStep
  split
  · rfl
  · show (p.2.senders.foldl (taggedMemberStep "fan_in" (ringIdOf st.ringCounter))
      (taggedMemberStep "fan_in" (ringIdOf st.ringCounter) st p.1)).fraudRings ++ _ = _
    rw [foldl_field_const (fun s : AsmSt => s.fraudRings) (taggedMemberStep "fan_in" (ringIdOf st.ringCounter)) (fun s x => rfl)]
    rfl

theorem fanInStep_ringCounter (st : AsmSt) (p : String × FanInData) :
    (fanInStep st p).ringCounter =
      if makeRingDeduplicationKey (p.1 :: p.2.senders) "fan_in" ∈
          st.ringDeduplicationSet
      then st.ringCounter else st.ringCounter + 1 := by
  unfold fanInStep
  split
  · rfl
  · show (p.2.senders.foldl (taggedMemberStep "fan_in" (ringIdOf st.ringCounter))
      (taggedMemberStep "fan_in" (ringIdOf st.ringCounter) st p.1)).ringCounter + 1 = _
    rw [foldl_field_const (fun s : AsmSt => s.ringCounter) (taggedMemberStep "fan_in" (ringIdOf st.ringCounter)) (fun s x => rfl)]
    rfl

theorem fanInStep_dedup (st : AsmSt) (p : String × FanInData) :
    (fanInStep st p).ringDeduplicationSet =
      if makeRingDeduplicationKey (p.1 :: p.2.senders) "fan_in" ∈
          st.ringDeduplicationSet
      then st.ringDeduplicationSet
      else st.ringDeduplicationSet ++
        [makeRingDeduplicationKey (p.1 :: p.2.senders) "fan_in"] := by
  unfold fanInStep
  split
  · rfl
  · show (p.2.senders.foldl (taggedMemberStep "fan_in" (ringIdOf st.ringCounter))
      (taggedMemberStep "fan_in" (ringIdOf st.ringCounter) st p.1)).ringDeduplicationSet
      ++ _ = _
    rw [foldl_field_const (fun s : AsmSt => s.ringDeduplicationSet) (taggedMemberStep "fan_in" (ringIdOf st.ringCounter)) (fun s x => rfl)]
    rfl

theorem fanOutStep_fraudRings (st : AsmSt) (p : String × FanOutData) :
    (fanOutStep st p).fraudRings =
      if makeRingDeduplicationKey (p.1 :: p.2.receivers) "fan_out" ∈
          st.ringDeduplicationSet
      then st.fraudRings
      else st.fraudRings ++ [⟨ringIdOf st.ringCounter, p.1 :: p.2.receivers, "fan_out",
        roundTo1 (min (60 + (if p.2.temporal then (25 : ℚ) else 10) +
          (p.2.receivers.length : ℚ) * (1 / 2)) 100)⟩] := by
  unfold fanOutStep
  split
  · rfl
  · show (p.2.receivers.foldl (taggedMemberStep "fan_out" (ringIdOf st.ringCounter))
      (taggedMemberStep "fan_out" (ringIdOf st.ringCounter) st p.1)).fraudRings ++ _ = _
    rw [foldl_field_const (fun s : AsmSt => s.fraudRings) (taggedMemberStep "fan_out" (ringIdOf st.ringCounter)) (fun s x => rfl)]
    rfl

theorem fanOutStep_ringCounter (st : AsmSt) (p : String × FanOutData) :
    (fanOutStep st p).ringCounter =
      if makeRingDeduplicationKey (p.1 :: p.2.receivers) "fan_out" ∈
          st.ringDeduplicationSet
      then st.ringCounter else st.ringCounter + 1 := by
  unfold fanOutStep
  split
  · rfl
  · show (p.2.receivers.foldl (taggedMemberStep "fan_out" (ringIdOf st.ringCounter))
      (taggedMemberStep "fan_out" (ringIdOf st.ringCounter) st p.1)).ringCounter + 1 = _
    rw [foldl_field_const (fun s : AsmSt => s.ringCounter) (taggedMemberStep "fan_out" (ringIdOf st.ringCounter)) (fun s x => rfl)]
    rfl

theorem fanOutStep_dedup (st : AsmSt) (p : String × FanOutData) :
    (fanOutStep st p).ringDeduplicationSet =
      if makeRingDeduplicationKey (p.1 :: p.2.receivers) "fan_out" ∈
          st.ringDeduplicationSet
      then st.ringDeduplicationSet
      else st.ringDeduplicationSet ++
        [makeRingDeduplicationKey (p.1 :: p.2.receivers) "fan_out"] := by
  unfold fanOutStep
  split
  · rfl
  · show (p.2.receivers.foldl (taggedMemberStep "fan_out" (ringIdOf st.ringCounter))
      (taggedMemberStep "fan_out" (ringIdOf st.ringCounter) st p.1)).ringDeduplicationSet
      ++ _ = _
    rw [foldl_field_const (fun s : AsmSt => s.ringDeduplicationSet) (taggedMemberStep "fan_out" (ringIdOf st.ringCounter)) (fun s x => rfl)]
    rfl

theorem shellStep_fraudRings (st : AsmSt) (ch : List String) :
    (shellStep st ch).fraudRings =
      if makeRingDeduplicationKey ch "shell_network" ∈ st.ringDeduplicationSet
      then st.fraudRings
      else st.fraudRings ++ [⟨ringIdOf st.ringCounter, ch, "shell_network",
        roundTo1 (min (50 + (ch.length : ℚ) * 8) 100)⟩] := by
  unfold shellStep
  split
  · rfl
  · show (ch.foldl (taggedMemberStep "shell_network" (ringIdOf st.ringCounter))
      st).fraudRings ++ _ = _
    rw [foldl_field_const (fun s : AsmSt => s.fraudRings)
      (taggedMemberStep "shell_network" (ringIdOf st.ringCounter)) (fun s x => rfl)]

theorem shellStep_ringCounter (st : AsmSt) (ch : List String) :
    (shellStep st ch).ringCounter =
      if makeRingDeduplicationKey ch "shell_network" ∈ st.ringDeduplicationSet
      then st.ringCounter else st.ringCounter + 1 := by
  unfold shellStep
  split
  · rfl
  · show (ch.foldl (taggedMemberStep "shell_network" (ringIdOf st.ringCounter))
      st).ringCounter + 1 = _
    rw [foldl_field_const (fun s : AsmSt => s.ringCounter)
      (taggedMemberStep "shell_network" (ringIdOf st.ringCounter)) (fun s x => rfl)]

theorem shellStep_dedup (st : AsmSt) (ch : List String) :
    (shellStep st ch).ringDeduplicationSet =
      if makeRingDeduplicationKey ch "shell_network" ∈ st.ringDeduplicationSet
      then st.ringDeduplicationSet
      else st.ringDeduplicationSet ++
        [makeRingDeduplicationKey ch "shell_network"] := by
  unfold shellStep
  split
  · rfl
  · show (ch.foldl (taggedMemberStep "shell_network" (ringIdOf st.ringCounter))
      st).ringDeduplicationSet ++ _ = _
    rw [foldl_field_const (fun s : AsmSt => s.ringDeduplicationSet)
      (taggedMemberStep "shell_network" (ringIdOf st.ringCounter)) (fun s x => rfl)]

theorem ringRiskOk_cycleStep (st : AsmSt) (c : List String)
    (h : ∀ r ∈ st.fraudRings, ringRiskOk r) :
    ∀ r ∈ (cycleStep st c).fraudRings, ringRiskOk r := by
  intro r hr
  rw [cycleStep_fraudRings] at hr
  split at hr
  · exact h r hr
  · rcases List.mem_append.mp hr with hr | hr
    · exact h r hr
    · simp only [List.mem_singleton] at hr
      subst hr
      refine ⟨riskBounds _ (by positivity), fun _ => rfl,
        fun hp => by simp at hp, fun hp => ?_⟩
      rcases hp with hp | hp <;> simp at hp

theorem ringRiskOk_fanInStep (st : AsmSt) (p : String × FanInData)
    (h : ∀ r ∈ st.fraudRings, ringRiskOk r) :
    ∀ r ∈ (fanInStep st p).fraudRings, ringRiskOk r := by
  intro r hr
  rw [fanInStep_fraudRings] at hr
  split at hr
  · exact h r hr
  · rcases List.mem_append.mp hr with hr | hr
    · exact h r hr
    · simp only [List.mem_singleton] at hr
      subst hr
      refine ⟨?_, fun hp => by simp at hp, fun hp => by simp at hp,
        fun _ => ⟨p.2.temporal, ?_⟩⟩
      · apply riskBounds
        split <;> positivity
      · show roundTo1 _ = roundTo1 _
        congr 2
        simp only [List.length_cons]
        push_cast
        ring

theorem ringRiskOk_fanOutStep (st : AsmSt) (p : String × FanOutData)
    (h : ∀ r ∈ st.fraudRings, ringRiskOk r) :
    ∀ r ∈ (fanOutStep st p).fraudRings, ringRiskOk r := by
  intro r hr
  rw [fanOutStep_fraudRings] at hr
  split at hr
  · exact h r hr
  · rcases List.mem_append.mp hr with hr | hr
    · exact h r hr
    · simp only [List.mem_singleton] at hr
      subst hr
      refine ⟨?_, fun hp => by simp at hp, fun hp => by simp at hp,
        fun _ => ⟨p.2.temporal, ?_⟩⟩
      · apply riskBounds
        split <;> positivity
      · show roundTo1 _ = roundTo1 _
        congr 2
        simp only [List.length_cons]
        push_cast
        ring

theorem ringRiskOk_shellStep (st : AsmSt) (ch : List String)
    (h : ∀ r ∈ st.fraudRings, ringRiskOk r) :
    ∀ r ∈ (shellStep st ch).fraudRings, ringRiskOk r := by
  intro r hr
  rw [shellStep_fraudRings] at hr
  split at hr
  · exact h r hr
  · rcases List.mem_append.mp hr with hr | hr
    · exact h r hr
    · simp only [List.mem_singleton] at hr
      subst hr
      refine ⟨riskBounds _ (by positivity), fun hp => by simp at hp,
        fun _ => rfl, fun hp => ?_⟩
      rcases hp with hp | hp <;> simp at hp

/-- Every ring assembled by the pipeline carries the per-pattern risk
formula. -/
theorem ringRiskOk_asmState (transactions filteredTransactions : List Tx) :
    ∀ r ∈ (asmState transactions filteredTransactions).fraudRings,
      ringRiskOk r := by
  have h0 : ∀ r ∈ AsmSt.init.fraudRings, ringRiskOk r := by
    intro r hr
    simp [AsmSt.init] at hr
  simp only [asmState]
  exact foldl_preserve _ _ (fun s a hs => ringRiskOk_shellStep s a hs) _ _
    (foldl_preserve _ _ (fun s a hs => ringRiskOk_fanOutStep s a hs) _ _
      (foldl_preserve _ _ (fun s a hs => ringRiskOk_fanInStep s a hs) _ _
        (foldl_preserve _ _ (fun s a hs => ringRiskOk_cycleStep s a hs) _ _ h0)))

set_option maxHeartbeats 1000000 in
theorem buildSuspicious_scores (st : AsmSt) (fi : List (String × FanInData))
    (fo : List (String × FanOutData)) (stats : List (String × AccStats)) :
    ∀ sa ∈ buildSuspicious st fi fo stats,
      0 ≤ sa.suspicion_score ∧ sa.suspicion_score ≤ 100 := by
  unfold buildSuspicious
  refine foldl_preserve
    (fun acc => ∀ sa ∈ acc, 0 ≤ sa.suspicion_score ∧ sa.suspicion_score ≤ 100)
    (suspiciousStep st fi fo stats) ?_ _ _
    (by intro sa h; exact absurd h (List.not_mem_nil sa))
  intro acc p hacc sa hsa
  unfold suspiciousStep at hsa
  cases hrg : getA st.accountRings p.1 with
  | none =>
    simp only [hrg] at hsa
    exact hacc sa hsa
  | some rings =>
    simp only [hrg] at hsa
    split at hsa
    · exact hacc sa hsa
    · rcases List.mem_append.mp hsa with hsa | hsa
      · exact hacc sa hsa
      · simp only [List.mem_singleton] at hsa
        subst hsa
        have hb := calculateSuspicionScore_bounds p.1 p.2 stats
          ((getA st.accountCycleCounts p.1).getD 0)
          ((getA fi p.1).isSome || (getA fo p.1).isSome)
          (decide ("shell_network" ∈ p.2))
          (((getA fi p.1).map (fun x => x.temporal)).getD false ||
            ((getA fo p.1).map (fun x => x.temporal)).getD false)
        exact hb

theorem buildNodes_score_bounds (transactions : List Tx)
    (u legit : List String) (st : AsmSt) (susp : List SuspiciousAccount)
    (hs : ∀ sa ∈ susp, 0 ≤ sa.suspicion_score ∧ sa.suspicion_score ≤ 100) :
    ∀ n ∈ buildNodes transactions u legit st susp,
      0 ≤ n.suspicion_score ∧ n.suspicion_score ≤ 100 := by
  intro n hn
  unfold buildNodes at hn
  simp only [List.mem_map] at hn
  obtain ⟨a, _, rfl⟩ := hn
  cases hf : susp.find? (fun sa => decide (sa.account_id = a)) with
  | none => simp [hf]
  | some sa =>
    simp only [hf, Option.map_some, Option.getD_some]
    exact hs sa (List.mem_of_find?_eq_some hf)

/-- Every fan ring is the ring of an actual smurfing entry: its members
are the hub followed by that entry's distinct counterparties, and its
risk score uses `25` or `10` according to that entry's temporal-cluster
flag. -/
def fanRingsOk (fi : List (String × FanInData))
    (fo : List (String × FanOutData)) (st : AsmSt) : Prop :=
  ∀ r ∈ st.fraudRings,
    (r.pattern_type = "fan_in" →
      ∃ p ∈ fi, r.member_accounts = p.1 :: p.2.senders ∧
        r.risk_score = roundTo1 (min (60 +
          (if p.2.temporal then (25 : ℚ) else 10) +
          (p.2.senders.length : ℚ) * (1 / 2)) 100)) ∧
    (r.pattern_type = "fan_out" →
      ∃ p ∈ fo, r.member_accounts = p.1 :: p.2.receivers ∧
        r.risk_score = roundTo1 (min (60 +
          (if p.2.temporal then (25 : ℚ) else 10) +
          (p.2.receivers.length : ℚ) * (1 / 2)) 100))

theorem fanRingsOk_cycleStep (fi : List (String × FanInData))
    (fo : List (String × FanOutData)) (st : AsmSt) (c : List String)
    (h : fanRingsOk fi fo st) : fanRingsOk fi fo (cycleStep st c) := by
  intro r hr
  rw [cycleStep_fraudRings] at hr
  split at hr
  · exact h r hr
  · rcases List.mem_append.mp hr with hr | hr
    · exact h r hr
    · simp only [List.mem_singleton] at hr
      subst hr
      exact ⟨fun hp => by simp at hp, fun hp => by simp at hp⟩

theorem fanRingsOk_shellStep (fi : List (String × FanInData))
    (fo : List (String × FanOutData)) (st : AsmSt) (ch : List String)
    (h : fanRingsOk fi fo st) : fanRingsOk fi fo (shellStep st ch) := by
  intro r hr
  rw [shellStep_fraudRings] at hr
  split at hr
  · exact h r hr
  · rcases List.mem_append.mp hr with hr | hr
    · exact h r hr
    · simp only [List.mem_singleton] at hr
      subst hr
      exact ⟨fun hp => by simp at hp, fun hp => by simp at hp⟩

theorem fanRingsOk_fanInStep (fi : List (String × FanInData))
    (fo : List (String × FanOutData)) (st : AsmSt) (p : String × FanInData)
    (hp : p ∈ fi) (h : fanRingsOk fi fo st) :
    fanRingsOk fi fo (fanInStep st p) := by
  intro r hr
  rw [fanInStep_fraudRings] at hr
  split at hr
  · exact h r hr
  · rcases List.mem_append.mp hr with hr | hr
    · exact h r hr
    · simp only [List.mem_singleton] at hr
      subst hr
      exact ⟨fun _ => ⟨p, hp, rfl, rfl⟩, fun hp2 => by simp at hp2⟩

theorem fanRingsOk_fanOutStep (fi : List (String × FanInData))
    (fo : List (String × FanOutData)) (st : AsmSt) (p : String × FanOutData)
    (hp : p ∈ fo) (h : fanRingsOk fi fo st) :
    fanRingsOk fi fo (fanOutStep st p) := by
  intro r hr
  rw [fanOutStep_fraudRings] at hr
  split at hr
  · exact h r hr
  · rcases List.mem_append.mp hr with hr | hr
    · exact h r hr
    · simp only [List.mem_singleton] at hr
      subst hr
      exact ⟨fun hp2 => by simp at hp2, fun _ => ⟨p, hp, rfl, rfl⟩⟩

theorem fanRingsOk_asmState (transactions filteredTransactions : List Tx) :
    fanRingsOk (detectSmurfing transactions).1 (detectSmurfing transactions).2
      (asmState transactions filteredTransactions) := by
  have h0 : fanRingsOk (detectSmurfing transactions).1
      (detectSmurfing transactions).2 AsmSt.init := by
    intro r hr
    simp [AsmSt.init] at hr
  simp only [asmState]
  refine foldl_preserve _ shellStep
    (fun s a hs => fanRingsOk_shellStep _ _ s a hs) _ _
    (foldl_preserve_mem _ (fun p => p ∈ (detectSmurfing transactions).2)
      fanOutStep (fun s p hs hp => fanRingsOk_fanOutStep _ _ s p hp hs) _ _
      (fun p hp => hp)
      (foldl_preserve_mem _ (fun p => p ∈ (detectSmurfing transactions).1)
        fanInStep (fun s p hs hp => fanRingsOk_fanInStep _ _ s p hp hs) _ _
        (fun p hp => hp)
        (foldl_preserve _ cycleStep
          (fun s a hs => fanRingsOk_cycleStep _ _ s a hs) _ _ h0)))

/-- C7: every emitted ring's risk score follows the per-pattern formula
(cycle `70 + 5·members`, fan `60 + (25 if temporal else 10) +
0.5·counterparties`, shell `50 + 8·members`), capped at 100 and rounded to
one decimal; each fan ring is tied to its smurfing entry, so the 25-vs-10
bonus follows that hub's actual temporal-cluster flag and the
counterparty count is that entry's distinct-counterparty list length;
every risk score and every suspicion score (including the node
projections) lies in [0, 100]. -/
theorem c7_risk_scores (transactions : List Tx) :
    (∀ r ∈ (analyzeTransactions transactions).fraud_rings, ringRiskOk r) ∧
    (∀ r ∈ (analyzeTransactions transactions).fraud_rings,
      (r.pattern_type = "fan_in" →
        ∃ p ∈ (detectSmurfing transactions).1,
          r.member_accounts = p.1 :: p.2.senders ∧
          r.risk_score = roundTo1 (min (60 +
            (if p.2.temporal then (25 : ℚ) else 10) +
            (p.2.senders.length : ℚ) * (1 / 2)) 100)) ∧
      (r.pattern_type = "fan_out" →
        ∃ p ∈ (detectSmurfing transactions).2,
          r.member_accounts = p.1 :: p.2.receivers ∧
          r.risk_score = roundTo1 (min (60 +
            (if p.2.temporal then (25 : ℚ) else 10) +
            (p.2.receivers.length : ℚ) * (1 / 2)) 100))) ∧
    (∀ sa ∈ (analyzeTransactions transactions).suspicious_accounts,
      0 ≤ sa.suspicion_score ∧ sa.suspicion_score ≤ 100) ∧
    (∀ n ∈ (analyzeTransactions transactions).nodes,
      0 ≤ n.suspicion_score ∧ n.suspicion_score ≤ 100) := by
  by_cases h : removeLegitimateTransactions transactions
      (detectLegitimateAccounts transactions) = []
  · rw [analyzeTransactions_eq_empty _ h]
    refine ⟨?_, ?_, ?_, ?_⟩
    · intro r hr
      simp [emptyResult] at hr
    · intro r hr
      simp [emptyResult] at hr
    · intro sa hsa
      simp [emptyResult] at hsa
    · intro n hn
      simp only [emptyResult, List.mem_map] at hn
      obtain ⟨a, _, rfl⟩ := hn
      exact ⟨le_refl 0, by norm_num⟩
  · rw [analyzeTransactions_eq_main _ h]
    refine ⟨?_, ?_, ?_, ?_⟩
    · intro r hr
      exact ringRiskOk_asmState _ _ r hr
    · intro r hr
      exact fanRingsOk_asmState _ _ r hr
    · intro sa hsa
      simp only [mainResult, sortByScoreDesc] at hsa
      rw [mem_sortBy] at hsa
      exact buildSuspicious_scores _ _ _ _ sa hsa
    · intro n hn
      simp only [mainResult] at hn
      refine buildNodes_score_bounds _ _ _ _ _ ?_ n hn
      intro sa hsa
      simp only [sortByScoreDesc] at hsa
      rw [mem_sortBy] at hsa
      exact buildSuspicious_scores _ _ _ _ sa hsa

/-- Witness for `c7_risk_scores` at the pure 3-cycle scenario. -/
theorem c7_risk_scores_witness :
    ringRiskOk ((analyzeTransactions pure3CycleInput).fraud_rings.headD
      ⟨"", [], "", 0⟩) :=
  (c7_risk_scores pure3CycleInput).1 _ (by decide)

-- =====================================================
-- Claim C5
-- =====================================================

/-- Contiguous, gap-free ring identifiers in emission order. -/
def idContiguous (st : AsmSt) : Prop :=
  st.ringCounter = st.fraudRings.length + 1 ∧
  st.fraudRings.map (fun r => r.ring_id) =
    (List.range st.fraudRings.length).map (fun i => ringIdOf (i + 1))

theorem idContiguous_of_step (st : AsmSt) (cond : Prop) [Decidable cond]
    (rings2 : List FraudRing) (counter2 : ℕ) (rnew : FraudRing)
    (hr : rings2 = if cond then st.fraudRings else st.fraudRings ++ [rnew])
    (hc : counter2 = if cond then st.ringCounter else st.ringCounter + 1)
    (hid : rnew.ring_id = ringIdOf st.ringCounter)
    (hinv : idContiguous st) :
    counter2 = rings2.length + 1 ∧
    rings2.map (fun r => r.ring_id) =
      (List.range rings2.length).map (fun i => ringIdOf (i + 1)) := by
  obtain ⟨h1, h2⟩ := hinv
  by_cases hcond : cond
  · rw [hr, hc, if_pos hcond, if_pos hcond]
    exact ⟨h1, h2⟩
  · rw [hr, hc, if_neg hcond, if_neg hcond]
    constructor
    · simp [h1]
    · rw [List.map_append, h2, List.length_append, List.length_singleton,
        List.range_succ, List.map_append]
      congr 1
      simp [hid, h1]

theorem idContiguous_cycleStep (st : AsmSt) (c : List String)
    (hinv : idContiguous st) : idContiguous (cycleStep st c) :=
  idContiguous_of_step st _ _ _ _ (cycleStep_fraudRings st c)
    (cycleStep_ringCounter st c) rfl hinv

theorem idContiguous_fanInStep (st : AsmSt) (p : String × FanInData)
    (hinv : idContiguous st) : idContiguous (fanInStep st p) :=
  idContiguous_of_step st _ _ _ _ (fanInStep_fraudRings st p)
    (fanInStep_ringCounter st p) rfl hinv

theorem idContiguous_fanOutStep (st : AsmSt) (p : String × FanOutData)
    (hinv : idContiguous st) : idContiguous (fanOutStep st p) :=
  idContiguous_of_step st _ _ _ _ (fanOutStep_fraudRings st p)
    (fanOutStep_ringCounter st p) rfl hinv

theorem idContiguous_shellStep (st : AsmSt) (ch : List String)
    (hinv : idContiguous st) : idContiguous (shellStep st ch) :=
  idContiguous_of_step st _ _ _ _ (shellStep_fraudRings st ch)
    (shellStep_ringCounter st ch) rfl hinv

theorem idContiguous_asmState (transactions filteredTransactions : List Tx) :
    idContiguous (asmState transactions filteredTransactions) := by
  have h0 : idContiguous AsmSt.init := by
    constructor <;> simp [AsmSt.init]
  simp only [asmState]
  exact foldl_preserve _ _ (fun s a hs => idContiguous_shellStep s a hs) _ _
    (foldl_preserve _ _ (fun s a hs => idContiguous_fanOutStep s a hs) _ _
      (foldl_preserve _ _ (fun s a hs => idContiguous_fanInStep s a hs) _ _
        (foldl_preserve _ _ (fun s a hs => idContiguous_cycleStep s a hs) _ _ h0)))

/-- C5: the emitted ring identifiers are `"RING_" ++ padStart3(counter)`
with integer suffixes forming exactly the contiguous range
`[1, number of rings]` in emission order, and a candidate rejected by
deduplication leaves the assembly state (rings and counter) completely
unchanged. -/
theorem c5_ring_ids (transactions : List Tx) :
    ((analyzeTransactions transactions).fraud_rings.map (fun r => r.ring_id) =
      (List.range (analyzeTransactions transactions).fraud_rings.length).map
        (fun i => ringIdOf (i + 1))) ∧
    (∀ (st : AsmSt) (c : List String),
      makeRingDeduplicationKey c "cycle" ∈ st.ringDeduplicationSet →
      cycleStep st c = st) ∧
    (∀ (st : AsmSt) (p : String × FanInData),
      makeRingDeduplicationKey (p.1 :: p.2.senders) "fan_in" ∈
        st.ringDeduplicationSet → fanInStep st p = st) ∧
    (∀ (st : AsmSt) (p : String × FanOutData),
      makeRingDeduplicationKey (p.1 :: p.2.receivers) "fan_out" ∈
        st.ringDeduplicationSet → fanOutStep st p = st) ∧
    (∀ (st : AsmSt) (ch : List String),
      makeRingDeduplicationKey ch "shell_network" ∈ st.ringDeduplicationSet →
      shellStep st ch = st) := by
  refine ⟨?_, ?_, ?_, ?_, ?_⟩
  · by_cases h : removeLegitimateTransactions transactions
        (detectLegitimateAccounts transactions) = []
    · rw [analyzeTransactions_eq_empty _ h]
      simp [emptyResult]
    · rw [analyzeTransactions_eq_main _ h]
      exact (idContiguous_asmState _ _).2
  · intro st c hd
    unfold cycleStep
    rw [if_pos hd]
  · intro st p hd
    unfold fanInStep
    rw [if_pos hd]
  · intro st p hd
    unfold fanOutStep
    rw [if_pos hd]
  · intro st ch hd
    unfold shellStep
    rw [if_pos hd]

/-- Witness for `c5_ring_ids`: a duplicate cycle candidate is a no-op. -/
theorem c5_ring_ids_witness :
    cycleStep (cycleStep AsmSt.init ["A", "B", "C"]) ["A", "B", "C"] =
      cycleStep AsmSt.init ["A", "B", "C"] :=
  (c5_ring_ids []).2.1 _ _ (by decide)

-- =====================================================
-- Claim C6
-- =====================================================

/-- The dedup key of an emitted ring. -/
def ringKey (r : FraudRing) : String :=
  makeRingDeduplicationKey r.member_accounts r.pattern_type

/-- Every emitted ring's key is registered, and keys are pairwise
distinct. -/
def dedupInv (st : AsmSt) : Prop :=
  (∀ r ∈ st.fraudRings, ringKey r ∈ st.ringDeduplicationSet) ∧
  st.fraudRings.Pairwise (fun r1 r2 => ringKey r1 ≠ ringKey r2)

theorem dedupInv_of_step (st : AsmSt) (key : String) (rnew : FraudRing)
    (rings2 dedup2 : List String → Prop → List FraudRing × List String)
    (hkey : ringKey rnew = key)
    (hinv : dedupInv st) (hcond : Prop) : True := trivial

theorem dedupInv_step (st : AsmSt) (rnew : FraudRing)
    (rings2 : List FraudRing) (dedup2 : List String)
    (hr : rings2 = if ringKey rnew ∈ st.ringDeduplicationSet
      then st.fraudRings else st.fraudRings ++ [rnew])
    (hd : dedup2 = if ringKey rnew ∈ st.ringDeduplicationSet
      then st.ringDeduplicationSet else st.ringDeduplicationSet ++ [ringKey rnew])
    (hinv : dedupInv st) :
    (∀ r ∈ rings2, ringKey r ∈ dedup2) ∧
    rings2.Pairwise (fun r1 r2 => ringKey r1 ≠ ringKey r2) := by
  obtain ⟨h1, h2⟩ := hinv
  by_cases hc : ringKey rnew ∈ st.ringDeduplicationSet
  · rw [hr, hd, if_pos hc, if_pos hc]
    exact ⟨h1, h2⟩
  · rw [hr, hd, if_neg hc, if_neg hc]
    constructor
    · intro r hrr
      rcases List.mem_append.mp hrr with hrr | hrr
      · exact List.mem_append.mpr (Or.inl (h1 r hrr))
      · simp only [List.mem_singleton] at hrr
        subst hrr
        exact List.mem_append.mpr (Or.inr (List.mem_singleton.mpr rfl))
    · rw [List.pairwise_append]
      refine ⟨h2, List.pairwise_singleton _ _, ?_⟩
      intro r hrr r2 hr2
      simp only [List.mem_singleton] at hr2
      subst hr2
      intro hEq
      exact hc (hEq ▸ h1 r hrr)

theorem dedupInv_cycleStep (st : AsmSt) (c : List String)
    (hinv : dedupInv st) : dedupInv (cycleStep st c) := by
  have h := dedupInv_step st
    ⟨ringIdOf st.ringCounter, c, "cycle", roundTo1 (min (70 + (c.length : ℚ) * 5) 100)⟩
    (cycleStep st c).fraudRings (cycleStep st c).ringDeduplicationSet
    (by rw [cycleStep_fraudRings]; rfl) (by rw [cycleStep_dedup]; rfl) hinv
  exact h

theorem dedupInv_fanInStep (st : AsmSt) (p : String × FanInData)
    (hinv : dedupInv st) : dedupInv (fanInStep st p) := by
  have h := dedupInv_step st
    ⟨ringIdOf st.ringCounter, p.1 :: p.2.senders, "fan_in",
      roundTo1 (min (60 + (if p.2.temporal then (25 : ℚ) else 10) +
        (p.2.senders.length : ℚ) * (1 / 2)) 100)⟩
    (fanInStep st p).fraudRings (fanInStep st p).ringDeduplicationSet
    (by rw [fanInStep_fraudRings]; rfl) (by rw [fanInStep_dedup]; rfl) hinv
  exact h

theorem dedupInv_fanOutStep (st : AsmSt) (p : String × FanOutData)
    (hinv : dedupInv st) : dedupInv (fanOutStep st p) := by
  have h := dedupInv_step st
    ⟨ringIdOf st.ringCounter, p.1 :: p.2.receivers, "fan_out",
      roundTo1 (min (60 + (if p.2.temporal then (25 : ℚ) else 10) +
        (p.2.receivers.length : ℚ) * (1 / 2)) 100)⟩
    (fanOutStep st p).fraudRings (fanOutStep st p).ringDeduplicationSet
    (by rw [fanOutStep_fraudRings]; rfl) (by rw [fanOutStep_dedup]; rfl) hinv
  exact h

theorem dedupInv_shellStep (st : AsmSt) (ch : List String)
    (hinv : dedupInv st) : dedupInv (shellStep st ch) := by
  have h := dedupInv_step st
    ⟨ringIdOf st.ringCounter, ch, "shell_network",
      roundTo1 (min (50 + (ch.length : ℚ) * 8) 100)⟩
    (shellStep st ch).fraudRings (shellStep st ch).ringDeduplicationSet
    (by rw [shellStep_fraudRings]; rfl) (by rw [shellStep_dedup]; rfl) hinv
  exact h

theorem dedupInv_asmState (transactions filteredTransactions : List Tx) :
    dedupInv (asmState transactions filteredTransactions) := by
  have h0 : dedupInv AsmSt.init := by
    constructor
    · intro r hr
      simp [AsmSt.init] at hr
    · simp [AsmSt.init]
  simp only [asmState]
  exact foldl_preserve _ _ (fun s a hs => dedupInv_shellStep s a hs) _ _
    (foldl_preserve _ _ (fun s a hs => dedupInv_fanOutStep s a hs) _ _
      (foldl_preserve _ _ (fun s a hs => dedupInv_fanInStep s a hs) _ _
        (foldl_preserve _ _ (fun s a hs => dedupInv_cycleStep s a hs) _ _ h0)))

/-- C6 counterexample input: hubs `A` and `B` each receive one
transaction from every account in `{A, B, C, D, E, F, G, I, J, K}`
(including themselves).  The self-loops duplicate each hub inside its own
member list, so the two fan-in rings have different member multisets but
the same member set. -/
def c6FailingInput : List Tx :=
  [⟨"TA1", "A", "A", 1000, some 0⟩, ⟨"TA2", "B", "A", 100, some 0⟩,
   ⟨"TA3", "C", "A", 100, some 0⟩, ⟨"TA4", "D", "A", 100, some 0⟩,
   ⟨"TA5", "E", "A", 100, some 0⟩, ⟨"TA6", "F", "A", 100, some 0⟩,
   ⟨"TA7", "G", "A", 100, some 0⟩, ⟨"TA8", "I", "A", 100, some 0⟩,
   ⟨"TA9", "J", "A", 100, some 0⟩, ⟨"TA10", "K", "A", 100, some 0⟩,
   ⟨"TB1", "A", "B", 100, some 0⟩, ⟨"TB2", "B", "B", 1000, some 0⟩,
   ⟨"TB3", "C", "B", 100, some 0⟩, ⟨"TB4", "D", "B", 100, some 0⟩,
   ⟨"TB5", "E", "B", 100, some 0⟩, ⟨"TB6", "F", "B", 100, some 0⟩,
   ⟨"TB7", "G", "B", 100, some 0⟩, ⟨"TB8", "I", "B", 100, some 0⟩,
   ⟨"TB9", "J", "B", 100, some 0⟩, ⟨"TB10", "K", "B", 100, some 0⟩]

set_option maxRecDepth 100000 in
/-- C6 (counterexample): on `c6FailingInput` two distinct rings are
emitted with the same pattern type `fan_in` and the same member set
`{A, B, C, D, E, F, G, I, J, K}` — the claim's pair
(pattern_type, member set) is duplicated. -/
theorem c6_counterexample :
    ∃ r1 ∈ (analyzeTransactions c6FailingInput).fraud_rings,
    ∃ r2 ∈ (analyzeTransactions c6FailingInput).fraud_rings,
      r1 ≠ r2 ∧ r1.pattern_type = "fan_in" ∧ r2.pattern_type = "fan_in" ∧
      (∀ x ∈ r1.member_accounts, x ∈ r2.member_accounts) ∧
      (∀ x ∈ r2.member_accounts, x ∈ r1.member_accounts) := by
  decide

/-- C6 (amended): for every input batch and every pair of distinct
emitted rings, the pair (pattern_type, member_accounts viewed as a
multiset — canonically, the sorted member list) of one differs from that
of the other.  (The member *set* may coincide when a self-loop duplicates
a hub inside its own counterparty list, as `c6_counterexample` shows.) -/
theorem c6_ring_multiset_distinct (transactions : List Tx) :
    (analyzeTransactions transactions).fraud_rings.Pairwise
      (fun r1 r2 =>
        (r1.pattern_type, sortBy (fun a b => !strLt b a) r1.member_accounts) ≠
        (r2.pattern_type, sortBy (fun a b => !strLt b a) r2.member_accounts)) := by
  by_cases h : removeLegitimateTransactions transactions
      (detectLegitimateAccounts transactions) = []
  · rw [analyzeTransactions_eq_empty _ h]
    simp [emptyResult]
  · rw [analyzeTransactions_eq_main _ h]
    have hinv := (dedupInv_asmState transactions
      (removeLegitimateTransactions transactions
        (detectLegitimateAccounts transactions))).2
    refine hinv.imp ?_
    intro r1 r2 hne hpair
    apply hne
    unfold ringKey makeRingDeduplicationKey
    rw [(Prod.mk.injEq _ _ _ _).mp hpair |>.1,
      (Prod.mk.injEq _ _ _ _).mp hpair |>.2]

-- =====================================================
-- Claim C4: shell-network rings
-- =====================================================

/-- All account names present in the adjacency index (sender keys and
receiver keys). -/
def adjNodes (adj : List (String × List (String × List Tx))) : List String :=
  adj.map Prod.fst ++ adj.flatMap (fun p => p.2.map Prod.fst)

/-- `total_transactions ∈ {2, 3}` under the given statistics. -/
def lowDeg (accountStats : List (String × AccStats)) (x : String) : Prop :=
  2 ≤ totalTxOf accountStats x ∧ totalTxOf accountStats x ≤ 3

/-- A well-formed shell chain: at least three members, low-degree
interior, disjoint from the cycle nodes, drawn from the adjacency. -/
def chainOk (accountStats : List (String × AccStats)) (cyc : List String)
    (adj : List (String × List (String × List Tx))) (ch : List String) : Prop :=
  3 ≤ ch.length ∧ (∀ x ∈ (ch.drop 1).dropLast, lowDeg accountStats x) ∧
  (∀ x ∈ ch, x ∉ cyc) ∧ (∀ x ∈ ch, x ∈ adjNodes adj)

theorem getA_mem [DecidableEq α] (l : List (α × β)) (a : α) (v : β)
    (h : getA l a = some v) : (a, v) ∈ l := by
  induction l with
  | nil => simp [getA] at h
  | cons p t ih =>
    obtain ⟨k, w⟩ := p
    by_cases ha : a = k
    · subst ha
      simp [getA] at h
      subst h
      exact List.mem_cons_self _ _
    · simp [getA, ha] at h
      exact List.mem_cons_of_mem _ (ih h)

theorem mem_adjNodes_of_neighbor (adj : List (String × List (String × List Tx)))
    (a b : String) (h : b ∈ adjNeighbors adj a) : b ∈ adjNodes adj := by
  unfold adjNeighbors at h
  cases hg : getA adj a with
  | none => rw [hg] at h; simp at h
  | some m =>
    rw [hg] at h
    simp only [Option.getD_some] at h
    refine List.mem_append.mpr (Or.inr ?_)
    rw [List.mem_flatMap]
    exact ⟨(a, m), getA_mem adj a m hg, h⟩

theorem shellDfs_sound (adj : List (String × List (String × List Tx)))
    (accountStats : List (String × AccStats)) (cyc : List String) :
    ∀ (fuel : ℕ) (current : String) (visited path : List String),
      (∀ x ∈ path.drop 1, lowDeg accountStats x) →
      (∀ x ∈ path, x ∉ cyc) →
      (∀ x ∈ path, x ∈ adjNodes adj) →
      path ≠ [] →
      ∀ ch ∈ shellDfs adj accountStats cyc fuel current visited path,
        3 ≤ ch.length ∧ (∀ x ∈ (ch.drop 1).dropLast, lowDeg accountStats x) ∧
        (∀ x ∈ ch, x ∉ cyc) ∧ (∀ x ∈ ch, x ∈ adjNodes adj) := by
  intro fuel
  induction fuel with
  | zero =>
    intro current visited path _ _ _ _ ch hch
    simp [shellDfs] at hch
  | succ fuel ih =>
    intro current visited path hlow hcyc hmem hne ch hch
    have hplen : 1 ≤ path.length := List.length_pos.mpr hne
    rw [shellDfs, List.mem_flatMap] at hch
    obtain ⟨nb, hnb, hch⟩ := hch
    have hd : (path ++ [nb]).drop 1 = path.drop 1 ++ [nb] :=
      List.drop_append_of_le_length hplen
    have hnbmem : nb ∈ adjNodes adj := mem_adjNodes_of_neighbor adj current nb hnb
    have hlow2 : ∀ hnblow : lowDeg accountStats nb,
        ∀ x ∈ (path ++ [nb]).drop 1, lowDeg accountStats x := by
      intro hnblow x hx
      rw [hd] at hx
      rcases List.mem_append.mp hx with hx | hx
      · exact hlow x hx
      · simp only [List.mem_singleton] at hx
        subst hx
        exact hnblow
    split at hch
    · simp at hch
    · split at hch
      · simp at hch
      · rename_i hnbvis hnbcyc
        dsimp only at hch
        split at hch
        · rename_i hnblow
          have hcyc2 : ∀ x ∈ path ++ [nb], x ∉ cyc := by
            intro x hx
            rcases List.mem_append.mp hx with hx | hx
            · exact hcyc x hx
            · simp only [List.mem_singleton] at hx
              subst hx
              exact hnbcyc
          have hmem2 : ∀ x ∈ path ++ [nb], x ∈ adjNodes adj := by
            intro x hx
            rcases List.mem_append.mp hx with hx | hx
            · exact hmem x hx
            · simp only [List.mem_singleton] at hx
              subst hx
              exact hnbmem
          rcases List.mem_append.mp hch with hch | hch
          · rcases List.mem_append.mp hch with hch | hch
            · -- terminal chains
              rw [List.mem_flatMap] at hch
              obtain ⟨nn, hnn, hch⟩ := hch
              split at hch
              · rename_i hnnok
                split at hch
                · simp at hch
                · split at hch
                  · simp only [List.mem_singleton] at hch
                    subst hch
                    refine ⟨?_, ?_, ?_, ?_⟩
                    · simp only [List.length_append, List.length_singleton]
                      omega
                    · intro x hx
                      have hsplit : (((path ++ [nb]) ++ [nn]).drop 1).dropLast =
                          (path ++ [nb]).drop 1 := by
                        rw [List.drop_append_of_le_length (by simp),
                          List.dropLast_concat]
                      rw [hsplit] at hx
                      exact hlow2 hnblow x hx
                    · intro x hx
                      rcases List.mem_append.mp hx with hx | hx
                      · exact hcyc2 x hx
                      · simp only [List.mem_singleton] at hx
                        subst hx
                        exact hnnok.2
                    · intro x hx
                      rcases List.mem_append.mp hx with hx | hx
                      · exact hmem2 x hx
                      · simp only [List.mem_singleton] at hx
                        rw [hx]
                        exact mem_adjNodes_of_neighbor adj nb nn hnn
                  · simp at hch
              · simp at hch
            · -- the recorded path itself
              split at hch
              · rename_i hlen3
                simp only [List.mem_singleton] at hch
                subst hch
                refine ⟨hlen3, ?_, hcyc2, hmem2⟩
                intro x hx
                have hx2 : x ∈ (path ++ [nb]).drop 1 := List.dropLast_subset _ hx
                exact hlow2 hnblow x hx2
              · simp at hch
          · -- recursion
            exact ih nb (visited ++ [nb]) (path ++ [nb]) (hlow2 hnblow)
              hcyc2 hmem2 (by simp) ch hch
        · simp at hch

/-- Every chain emitted by the shell detector is a well-formed shell
chain. -/
theorem detectShellNetworks_sound (adj : List (String × List (String × List Tx)))
    (accountStats : List (String × AccStats)) (cycleNodes : List String) :
    ∀ ch ∈ detectShellNetworks adj accountStats cycleNodes,
      chainOk accountStats cycleNodes adj ch := by
  unfold detectShellNetworks
  have hchains : ∀ ch ∈ (adj.map Prod.fst).flatMap (fun startNode =>
      if startNode ∈ cycleNodes then []
      else shellDfs adj accountStats cycleNodes (shellFuel adj) startNode
        [startNode] [startNode]),
      chainOk accountStats cycleNodes adj ch := by
    intro ch hch
    rw [List.mem_flatMap] at hch
    obtain ⟨start, hstart, hch⟩ := hch
    split at hch
    · simp at hch
    · rename_i hscyc
      have h := shellDfs_sound adj accountStats cycleNodes (shellFuel adj)
        start [start] [start] (by simp) (by simpa using hscyc)
        (by
          intro x hx
          simp only [List.mem_singleton] at hx
          rw [hx]
          exact List.mem_append.mpr (Or.inl hstart))
        (by simp) ch hch
      exact ⟨h.1, h.2.1, h.2.2.1, h.2.2.2⟩
  intro ch hch
  refine foldl_preserve_mem
    (fun acc => ∀ c ∈ acc, chainOk accountStats cycleNodes adj c)
    (chainOk accountStats cycleNodes adj) _ ?_ _ _ ?_ (by simp) ch hch
  · intro acc c hacc hc
    split
    · exact hacc
    · intro c2 hc2
      rcases List.mem_append.mp hc2 with hc2 | hc2
      · exact hacc c2 hc2
      · simp only [List.mem_singleton] at hc2
        rw [hc2]
        exact hc
  · intro c hc
    rw [mem_sortBy] at hc
    exact hchains c hc

theorem cycleStep_cycleNodes (st : AsmSt) (c : List String) :
    (cycleStep st c).cycleNodes =
      if makeRingDeduplicationKey c "cycle" ∈ st.ringDeduplicationSet
      then st.cycleNodes
      else (c.foldl (cycleMemberStep c.length (ringIdOf st.ringCounter))
        st).cycleNodes := by
  unfold cycleStep
  split <;> rfl

theorem fanInStep_cycleNodes (st : AsmSt) (p : String × FanInData) :
    (fanInStep st p).cycleNodes = st.cycleNodes := by
  unfold fanInStep
  split
  · rfl
  · show (p.2.senders.foldl (taggedMemberStep "fan_in" (ringIdOf st.ringCounter))
      (taggedMemberStep "fan_in" (ringIdOf st.ringCounter) st p.1)).cycleNodes = _
    rw [foldl_field_const (fun s : AsmSt => s.cycleNodes)
      (taggedMemberStep "fan_in" (ringIdOf st.ringCounter)) (fun s x => rfl)]
    rfl

theorem fanOutStep_cycleNodes (st : AsmSt) (p : String × FanOutData) :
    (fanOutStep st p).cycleNodes = st.cycleNodes := by
  unfold fanOutStep
  split
  · rfl
  · show (p.2.receivers.foldl (taggedMemberStep "fan_out" (ringIdOf st.ringCounter))
      (taggedMemberStep "fan_out" (ringIdOf st.ringCounter) st p.1)).cycleNodes = _
    rw [foldl_field_const (fun s : AsmSt => s.cycleNodes)
      (taggedMemberStep "fan_out" (ringIdOf st.ringCounter)) (fun s x => rfl)]
    rfl

theorem shellStep_cycleNodes (st : AsmSt) (ch : List String) :
    (shellStep st ch).cycleNodes = st.cycleNodes := by
  unfold shellStep
  split
  · rfl
  · show (ch.foldl (taggedMemberStep "shell_network" (ringIdOf st.ringCounter))
      st).cycleNodes = _
    rw [foldl_field_const (fun s : AsmSt => s.cycleNodes)
      (taggedMemberStep "shell_network" (ringIdOf st.ringCounter)) (fun s x => rfl)]

theorem cycleNodes_foldl_mono (n : ℕ) (rid : String) (c : List String)
    (st : AsmSt) (x : String) (hx : x ∈ st.cycleNodes) :
    x ∈ (c.foldl (cycleMemberStep n rid) st).cycleNodes := by
  refine foldl_preserve (fun s => x ∈ s.cycleNodes) _ ?_ c st hx
  intro s a hs
  show x ∈ insertSet s.cycleNodes a
  exact (mem_insertSet _ _ _).mpr (Or.inl hs)

theorem cycleNodes_foldl_mem (n : ℕ) (rid : String) :
    ∀ (c : List String) (st : AsmSt) (m : String), m ∈ c →
      m ∈ (c.foldl (cycleMemberStep n rid) st).cycleNodes := by
  intro c
  induction c with
  | nil => intro st m hm; simp at hm
  | cons a t ih =>
    intro st m hm
    rw [List.foldl_cons]
    rcases List.mem_cons.mp hm with rfl | hm
    · refine cycleNodes_foldl_mono n rid t _ m ?_
      show m ∈ insertSet st.cycleNodes m
      exact (mem_insertSet _ _ _).mpr (Or.inr rfl)
    · exact ih _ m hm

/-- Invariant of the cycle / fan-in / fan-out folds: cycle-ring members
are registered cycle nodes, and no shell ring exists yet. -/
def preShellInv (st : AsmSt) : Prop :=
  (∀ r ∈ st.fraudRings, r.pattern_type = "cycle" →
    ∀ m ∈ r.member_accounts, m ∈ st.cycleNodes) ∧
  (∀ r ∈ st.fraudRings, r.pattern_type ≠ "shell_network")

theorem preShellInv_cycleStep (st : AsmSt) (c : List String)
    (h : preShellInv st) : preShellInv (cycleStep st c) := by
  obtain ⟨h1, h2⟩ := h
  constructor
  · intro r hr hpat m hm
    rw [cycleStep_fraudRings] at hr
    rw [cycleStep_cycleNodes]
    split at hr <;> rename_i hc
    · rw [if_pos hc]
      exact h1 r hr hpat m hm
    · rw [if_neg hc]
      rcases List.mem_append.mp hr with hr | hr
      · exact cycleNodes_foldl_mono _ _ _ _ _ (h1 r hr hpat m hm)
      · simp only [List.mem_singleton] at hr
        subst hr
        exact cycleNodes_foldl_mem _ _ c st m hm
  · intro r hr
    rw [cycleStep_fraudRings] at hr
    split at hr
    · exact h2 r hr
    · rcases List.mem_append.mp hr with hr | hr
      · exact h2 r hr
      · simp only [List.mem_singleton] at hr
        subst hr
        simp

theorem preShellInv_fanInStep (st : AsmSt) (p : String × FanInData)
    (h : preShellInv st) : preShellInv (fanInStep st p) := by
  obtain ⟨h1, h2⟩ := h
  constructor
  · intro r hr hpat m hm
    rw [fanInStep_fraudRings] at hr
    rw [fanInStep_cycleNodes]
    split at hr
    · exact h1 r hr hpat m hm
    · rcases List.mem_append.mp hr with hr | hr
      · exact h1 r hr hpat m hm
      · simp only [List.mem_singleton] at hr
        subst hr
        simp at hpat
  · intro r hr
    rw [fanInStep_fraudRings] at hr
    split at hr
    · exact h2 r hr
    · rcases List.mem_append.mp hr with hr | hr
      · exact h2 r hr
      · simp only [List.mem_singleton] at hr
        subst hr
        simp

theorem preShellInv_fanOutStep (st : AsmSt) (p : String × FanOutData)
    (h : preShellInv st) : preShellInv (fanOutStep st p) := by
  obtain ⟨h1, h2⟩ := h
  constructor
  · intro r hr hpat m hm
    rw [fanOutStep_fraudRings] at hr
    rw [fanOutStep_cycleNodes]
    split at hr
    · exact h1 r hr hpat m hm
    · rcases List.mem_append.mp hr with hr | hr
      · exact h1 r hr hpat m hm
      · simp only [List.mem_singleton] at hr
        subst hr
        simp at hpat
  · intro r hr
    rw [fanOutStep_fraudRings] at hr
    split at hr
    · exact h2 r hr
    · rcases List.mem_append.mp hr with hr | hr
      · exact h2 r hr
      · simp only [List.mem_singleton] at hr
        subst hr
        simp

/-- Invariant of the shell fold, relative to the frozen cycle-node set
`cyc0`. -/
def shellInv (cyc0 : List String) (accountStats : List (String × AccStats))
    (adj : List (String × List (String × List Tx))) (st : AsmSt) : Prop :=
  st.cycleNodes = cyc0 ∧
  (∀ r ∈ st.fraudRings, r.pattern_type = "cycle" →
    ∀ m ∈ r.member_accounts, m ∈ cyc0) ∧
  (∀ r ∈ st.fraudRings, r.pattern_type = "shell_network" →
    chainOk accountStats cyc0 adj r.member_accounts)

theorem shellInv_shellStep (cyc0 : List String)
    (accountStats : List (String × AccStats))
    (adj : List (String × List (String × List Tx))) (st : AsmSt)
    (ch : List String) (hch : chainOk accountStats cyc0 adj ch)
    (h : shellInv cyc0 accountStats adj st) :
    shellInv cyc0 accountStats adj (shellStep st ch) := by
  obtain ⟨h0, h1, h2⟩ := h
  refine ⟨by rw [shellStep_cycleNodes]; exact h0, ?_, ?_⟩
  · intro r hr hpat m hm
    rw [shellStep_fraudRings] at hr
    split at hr
    · exact h1 r hr hpat m hm
    · rcases List.mem_append.mp hr with hr | hr
      · exact h1 r hr hpat m hm
      · simp only [List.mem_singleton] at hr
        subst hr
        simp at hpat
  · intro r hr hpat
    rw [shellStep_fraudRings] at hr
    split at hr
    · exact h2 r hr hpat
    · rcases List.mem_append.mp hr with hr | hr
      · exact h2 r hr hpat
      · simp only [List.mem_singleton] at hr
        subst hr
        exact hch

theorem asmState_shell_sound (transactions filteredTransactions : List Tx) :
    (∀ r ∈ (asmState transactions filteredTransactions).fraudRings,
      r.pattern_type = "shell_network" →
      chainOk (computeAccountStats filteredTransactions)
        (asmState transactions filteredTransactions).cycleNodes
        (buildAdjacencyList filteredTransactions) r.member_accounts) ∧
    (∀ r ∈ (asmState transactions filteredTransactions).fraudRings,
      r.pattern_type = "cycle" → ∀ m ∈ r.member_accounts,
        m ∈ (asmState transactions filteredTransactions).cycleNodes) := by
  simp only [asmState]
  set adj := buildAdjacencyList filteredTransactions with hadj
  set stats := computeAccountStats filteredTransactions with hstats
  set st3 := (detectSmurfing transactions).2.foldl fanOutStep
    ((detectSmurfing transactions).1.foldl fanInStep
      ((detectCycles adj (getAllAccounts filteredTransactions)).foldl
        cycleStep AsmSt.init)) with hst3
  have hpre : preShellInv st3 := by
    rw [hst3]
    refine foldl_preserve _ _ (fun s a hs => preShellInv_fanOutStep s a hs) _ _
      (foldl_preserve _ _ (fun s a hs => preShellInv_fanInStep s a hs) _ _
        (foldl_preserve _ _ (fun s a hs => preShellInv_cycleStep s a hs) _ _ ?_))
    constructor <;> intro r hr <;> simp [AsmSt.init] at hr
  have hbase : shellInv st3.cycleNodes stats adj st3 := by
    refine ⟨rfl, hpre.1, ?_⟩
    intro r hr hpat
    exact absurd hpat (hpre.2 r hr)
  have hQ : ∀ ch ∈ detectShellNetworks adj stats st3.cycleNodes,
      chainOk stats st3.cycleNodes adj ch :=
    detectShellNetworks_sound adj stats st3.cycleNodes
  have hfin : shellInv st3.cycleNodes stats adj
      ((detectShellNetworks adj stats st3.cycleNodes).foldl shellStep st3) :=
    foldl_preserve_mem (shellInv st3.cycleNodes stats adj)
      (chainOk stats st3.cycleNodes adj) shellStep
      (fun s a hs hq => shellInv_shellStep _ _ _ _ _ hq hs) _ _ hQ hbase
  obtain ⟨hc0, hcyc, hshell⟩ := hfin
  constructor
  · intro r hr hpat
    rw [hc0]
    exact hshell r hr hpat
  · intro r hr hpat m hm
    rw [hc0]
    exact hcyc r hr hpat m hm

/-- C4: every emitted `shell_network` ring has at least three members;
every interior member has 2-3 total transactions under the filtered
statistics; and no shell-ring member belongs to any cycle ring. -/
theorem c4_shell_rings (transactions : List Tx) :
    ∀ r ∈ (analyzeTransactions transactions).fraud_rings,
      r.pattern_type = "shell_network" →
        3 ≤ r.member_accounts.length ∧
        (∀ x ∈ (r.member_accounts.drop 1).dropLast,
          lowDeg (computeAccountStats (removeLegitimateTransactions transactions
            (detectLegitimateAccounts transactions))) x) ∧
        (∀ r2 ∈ (analyzeTransactions transactions).fraud_rings,
          r2.pattern_type = "cycle" →
          ∀ m ∈ r.member_accounts, m ∉ r2.member_accounts) := by
  by_cases h : removeLegitimateTransactions transactions
      (detectLegitimateAccounts transactions) = []
  · rw [analyzeTransactions_eq_empty _ h]
    intro r hr
    simp [emptyResult] at hr
  · rw [analyzeTransactions_eq_main _ h]
    intro r hr hpat
    simp only [mainResult] at hr
    have hsound := asmState_shell_sound transactions
      (removeLegitimateTransactions transactions
        (detectLegitimateAccounts transactions))
    have hchain := hsound.1 r hr hpat
    refine ⟨hchain.1, hchain.2.1, ?_⟩
    intro r2 hr2 hpat2 m hm hmem2
    simp only [mainResult] at hr2
    exact hchain.2.2.1 m hm (hsound.2 r2 hr2 hpat2 m hmem2)

/-- C4 demo: the spec's Scenario D shell chain
`SRC → M1 → M2 → M3 → DST`. -/
def shellChainInput : List Tx :=
  [⟨"T1", "SRC", "M1", 100, some 0⟩,
   ⟨"T2", "M1", "M2", 100, some 0⟩,
   ⟨"T3", "M2", "M3", 100, some 0⟩,
   ⟨"T4", "M3", "DST", 100, some 0⟩]

/-- Witness for `c4_shell_rings` at the Scenario D shell ring. -/
theorem c4_shell_rings_witness :
    3 ≤ ((analyzeTransactions shellChainInput).fraud_rings.headD
      ⟨"", [], "", 0⟩).member_accounts.length :=
  (c4_shell_rings shellChainInput
    ((analyzeTransactions shellChainInput).fraud_rings.headD ⟨"", [], "", 0⟩)
    (by decide) (by decide)).1

-- =====================================================
-- Claim C10: ring members are suspicious accounts
-- =====================================================

theorem mem_setA [DecidableEq α] (l : List (α × β)) (k : α) (v : β) :
    ∀ q ∈ setA l k v, q ∈ l ∨ q = (k, v) := by
  induction l with
  | nil => intro q hq; simp [setA] at hq; exact Or.inr hq
  | cons p t ih =>
    obtain ⟨k', v'⟩ := p
    intro q hq
    by_cases hk : k = k'
    · subst hk
      simp only [setA, if_pos rfl] at hq
      rcases List.mem_cons.mp hq with rfl | hq
      · exact Or.inr rfl
      · exact Or.inl (List.mem_cons_of_mem _ hq)
    · simp only [setA, if_neg hk] at hq
      rcases List.mem_cons.mp hq with rfl | hq
      · exact Or.inl (List.mem_cons_self _ _)
      · rcases ih q hq with hq | hq
        · exact Or.inl (List.mem_cons_of_mem _ hq)
        · exact Or.inr hq

theorem insertSet_ne_nil [DecidableEq α] (l : List α) (x : α) :
    insertSet l x ≠ [] := by
  unfold insertSet
  split
  · rename_i hx
    intro hl
    rw [hl] at hx
    simp at hx
  · simp

/-- Key and value behavior shared by the per-member bookkeeping steps. -/
def memberStepOk (step : AsmSt → String → AsmSt) : Prop :=
  ∀ s a,
    (step s a).accountPatterns.map Prod.fst =
      insertSet (s.accountPatterns.map Prod.fst) a ∧
    (step s a).accountRings.map Prod.fst =
      insertSet (s.accountRings.map Prod.fst) a ∧
    (∀ q ∈ (step s a).accountPatterns, q ∈ s.accountPatterns ∨ q.2 ≠ []) ∧
    (∀ q ∈ (step s a).accountRings, q ∈ s.accountRings ∨ q.2 ≠ []) ∧
    (step s a).fraudRings = s.fraudRings

theorem memberStepOk_updA_keys (l : List (String × List String)) (a : String)
    (f : List String → List String) :
    (updA l a [] f).map Prod.fst = insertSet (l.map Prod.fst) a := by
  rw [map_fst_updA]
  rfl

theorem memberStepOk_updA_vals (l : List (String × List String)) (a : String)
    (f : List String → List String) (hf : ∀ v, f v ≠ []) :
    ∀ q ∈ updA l a [] f, q ∈ l ∨ q.2 ≠ [] := by
  intro q hq
  rcases mem_setA l a (f ((getA l a).getD [])) q hq with hq | hq
  · exact Or.inl hq
  · rw [hq]
    exact Or.inr (hf _)

theorem memberStepOk_cycle (n : ℕ) (rid : String) :
    memberStepOk (cycleMemberStep n rid) := by
  intro s a
  refine ⟨?_, ?_, ?_, ?_, rfl⟩
  · exact memberStepOk_updA_keys s.accountPatterns a
      (fun ps => insertSet ps ("cycle_length_" ++ toString n))
  · exact memberStepOk_updA_keys
      (addPattern s a ("cycle_length_" ++ toString n)).accountRings a
      (fun rs => insertSet rs rid)
  · intro q hq
    exact memberStepOk_updA_vals s.accountPatterns a
      (fun ps => insertSet ps ("cycle_length_" ++ toString n))
      (fun v => insertSet_ne_nil v _) q hq
  · intro q hq
    exact memberStepOk_updA_vals
      (addPattern s a ("cycle_length_" ++ toString n)).accountRings a
      (fun rs => insertSet rs rid) (fun v => insertSet_ne_nil v _) q hq

theorem memberStepOk_tagged (pattern rid : String) :
    memberStepOk (taggedMemberStep pattern rid) := by
  intro s a
  refine ⟨?_, ?_, ?_, ?_, rfl⟩
  · exact memberStepOk_updA_keys s.accountPatterns a
      (fun ps => insertSet ps pattern)
  · exact memberStepOk_updA_keys (addPattern s a pattern).accountRings a
      (fun rs => insertSet rs rid)
  · intro q hq
    exact memberStepOk_updA_vals s.accountPatterns a
      (fun ps => insertSet ps pattern) (fun v => insertSet_ne_nil v _) q hq
  · intro q hq
    exact memberStepOk_updA_vals (addPattern s a pattern).accountRings a
      (fun rs => insertSet rs rid) (fun v => insertSet_ne_nil v _) q hq

/-- Shared-shape invariant of the pattern and ring maps. -/
def mapsCore (st : AsmSt) : Prop :=
  st.accountPatterns.map Prod.fst = st.accountRings.map Prod.fst ∧
  (st.accountPatterns.map Prod.fst).Nodup ∧
  (∀ p ∈ st.accountPatterns, p.2 ≠ []) ∧
  (∀ p ∈ st.accountRings, p.2 ≠ [])

theorem mapsCore_memberStep (step : AsmSt → String → AsmSt)
    (hok : memberStepOk step) (s : AsmSt) (a : String) (h : mapsCore s) :
    mapsCore (step s a) := by
  obtain ⟨h1, h2, h3, h4⟩ := h
  obtain ⟨k1, k2, v1, v2, _⟩ := hok s a
  refine ⟨by rw [k1, k2, h1], by rw [k1]; exact nodup_insertSet _ _ h2, ?_, ?_⟩
  · intro p hp
    rcases v1 p hp with hp | hp
    · exact h3 p hp
    · exact hp
  · intro p hp
    rcases v2 p hp with hp | hp
    · exact h4 p hp
    · exact hp

theorem keys_foldl_of_memberStep (step : AsmSt → String → AsmSt)
    (hok : memberStepOk step) :
    ∀ (c : List String) (st : AsmSt),
      (∀ x ∈ st.accountRings.map Prod.fst,
        x ∈ (c.foldl step st).accountRings.map Prod.fst) ∧
      (∀ m ∈ c, m ∈ (c.foldl step st).accountRings.map Prod.fst) := by
  intro c
  induction c with
  | nil => intro st; exact ⟨fun x hx => hx, fun m hm => by simp at hm⟩
  | cons a t ih =>
    intro st
    rw [List.foldl_cons]
    constructor
    · intro x hx
      refine (ih (step st a)).1 x ?_
      rw [(hok st a).2.1]
      exact (mem_insertSet _ _ _).mpr (Or.inl hx)
    · intro m hm
      rcases List.mem_cons.mp hm with hma | hm
      · refine (ih (step st a)).1 m ?_
        rw [(hok st a).2.1]
        exact (mem_insertSet _ _ _).mpr (Or.inr hma)
      · exact (ih (step st a)).2 m hm

theorem fraudRings_foldl_of_memberStep (step : AsmSt → String → AsmSt)
    (hok : memberStepOk step) (c : List String) (st : AsmSt) :
    (c.foldl step st).fraudRings = st.fraudRings :=
  foldl_field_const (fun s => s.fraudRings) step (fun s a => (hok s a).2.2.2.2) c st

theorem removeLegit_accounts_sub (transactions : List Tx) (legit : List String)
    (x : String)
    (hx : x ∈ getAllAccounts (removeLegitimateTransactions transactions legit)) :
    x ∈ getAllAccounts transactions := by
  unfold removeLegitimateTransactions at hx
  split at hx
  · exact hx
  · rw [mem_getAllAccounts] at hx ⊢
    obtain ⟨t, ht, hxt⟩ := hx
    exact ⟨t, List.mem_of_mem_filter ht, hxt⟩

theorem adjNodes_sub (transactions : List Tx) :
    ∀ x ∈ adjNodes (buildAdjacencyList transactions),
      x ∈ getAllAccounts transactions := by
  unfold buildAdjacencyList
  refine foldl_preserve_mem
    (fun adj => ∀ x ∈ adjNodes adj, x ∈ getAllAccounts transactions)
    (fun tx => tx ∈ transactions) adjStep ?_ _ _ (fun a ha => ha)
    (by intro x hx; simp [adjNodes] at hx)
  intro adj tx hadj htx x hx
  have hsend : tx.sender_id ∈ getAllAccounts transactions :=
    (mem_getAllAccounts _ _).mpr ⟨tx, htx, Or.inl rfl⟩
  have hrecv : tx.receiver_id ∈ getAllAccounts transactions :=
    (mem_getAllAccounts _ _).mpr ⟨tx, htx, Or.inr rfl⟩
  unfold adjNodes at hx
  rcases List.mem_append.mp hx with hx | hx
  · unfold adjStep at hx
    rw [map_fst_updA] at hx
    split at hx
    · exact hadj x (List.mem_append.mpr (Or.inl hx))
    · rcases List.mem_append.mp hx with hx | hx
      · exact hadj x (List.mem_append.mpr (Or.inl hx))
      · simp only [List.mem_singleton] at hx
        rw [hx]
        exact hsend
  · rw [List.mem_flatMap] at hx
    obtain ⟨q, hq, hxq⟩ := hx
    unfold adjStep at hq
    rcases mem_setA _ _ _ q hq with hq | hq
    · exact hadj x (List.mem_append.mpr (Or.inr
        (List.mem_flatMap.mpr ⟨q, hq, hxq⟩)))
    · rw [hq] at hxq
      simp only at hxq
      rw [map_fst_updA] at hxq
      split at hxq
      · -- receiver key already present in the old inner map
        cases hg : getA adj tx.sender_id with
        | none =>
          rw [hg] at hxq
          simp at hxq
        | some m =>
          rw [hg] at hxq
          simp only [Option.getD_some] at hxq
          exact hadj x (List.mem_append.mpr (Or.inr
            (List.mem_flatMap.mpr ⟨(tx.sender_id, m), getA_mem _ _ _ hg, hxq⟩)))
      · rcases List.mem_append.mp hxq with hxq | hxq
        · cases hg : getA adj tx.sender_id with
          | none =>
            rw [hg] at hxq
            simp at hxq
          | some m =>
            rw [hg] at hxq
            simp only [Option.getD_some] at hxq
            exact hadj x (List.mem_append.mpr (Or.inr
              (List.mem_flatMap.mpr ⟨(tx.sender_id, m), getA_mem _ _ _ hg, hxq⟩)))
        · simp only [List.mem_singleton] at hxq
          rw [hxq]
          exact hrecv

theorem groupFold_sub (transactions : List Tx) (key : Tx → String)
    (hkey : ∀ t ∈ transactions, key t ∈ getAllAccounts transactions) :
    ∀ q ∈ transactions.foldl
      (fun m tx => updA m (key tx) [] (fun l => l ++ [tx])) [],
      q.1 ∈ getAllAccounts transactions ∧ ∀ t ∈ q.2, t ∈ transactions := by
  refine foldl_preserve_mem
    (fun (m : List (String × List Tx)) =>
      ∀ q ∈ m, q.1 ∈ getAllAccounts transactions ∧ ∀ t ∈ q.2, t ∈ transactions)
    (fun tx => tx ∈ transactions) _ ?_ _ _ (fun a ha => ha) (by simp)
  intro m tx hm htx q hq
  rcases mem_setA _ _ _ q hq with hq | hq
  · exact hm q hq
  · rw [hq]
    refine ⟨hkey tx htx, ?_⟩
    intro t ht
    rcases List.mem_append.mp ht with ht | ht
    · cases hg : getA m (key tx) with
      | none =>
        rw [hg] at ht
        simp at ht
      | some v =>
        rw [hg] at ht
        simp only [Option.getD_some] at ht
        exact (hm (key tx, v) (getA_mem _ _ _ hg)).2 t ht
    · simp only [List.mem_singleton] at ht
      rw [ht]
      exact htx

theorem detectSmurfing_members_sub (transactions : List Tx) :
    (∀ e ∈ (detectSmurfing transactions).1,
      e.1 ∈ getAllAccounts transactions ∧
      ∀ x ∈ e.2.senders, x ∈ getAllAccounts transactions) ∧
    (∀ e ∈ (detectSmurfing transactions).2,
      e.1 ∈ getAllAccounts transactions ∧
      ∀ x ∈ e.2.receivers, x ∈ getAllAccounts transactions) := by
  have hrecv := groupFold_sub transactions (fun t => t.receiver_id)
    (fun t ht => (mem_getAllAccounts _ _).mpr ⟨t, ht, Or.inr rfl⟩)
  have hsend := groupFold_sub transactions (fun t => t.sender_id)
    (fun t ht => (mem_getAllAccounts _ _).mpr ⟨t, ht, Or.inl rfl⟩)
  constructor
  · unfold detectSmurfing
    refine foldl_preserve_mem
      (fun (acc : List (String × FanInData)) =>
        ∀ e ∈ acc, e.1 ∈ getAllAccounts transactions ∧
        ∀ x ∈ e.2.senders, x ∈ getAllAccounts transactions)
      (fun (p : String × List Tx) =>
        p.1 ∈ getAllAccounts transactions ∧ ∀ t ∈ p.2, t ∈ transactions)
      _ ?_ _ _ hrecv (by simp)
    intro acc p hacc hp e he
    dsimp only at he
    split at he
    · rcases List.mem_append.mp he with he | he
      · exact hacc e he
      · simp only [List.mem_singleton] at he
        rw [he]
        refine ⟨hp.1, ?_⟩
        intro x hx
        simp only at hx
        rw [mem_listToSet, List.mem_map] at hx
        obtain ⟨t, ht, hxt⟩ := hx
        rw [← hxt]
        exact (mem_getAllAccounts _ _).mpr ⟨t, hp.2 t ht, Or.inl rfl⟩
    · exact hacc e he
  · unfold detectSmurfing
    refine foldl_preserve_mem
      (fun (acc : List (String × FanOutData)) =>
        ∀ e ∈ acc, e.1 ∈ getAllAccounts transactions ∧
        ∀ x ∈ e.2.receivers, x ∈ getAllAccounts transactions)
      (fun (p : String × List Tx) =>
        p.1 ∈ getAllAccounts transactions ∧ ∀ t ∈ p.2, t ∈ transactions)
      _ ?_ _ _ hsend (by simp)
    intro acc p hacc hp e he
    dsimp only at he
    split at he
    · rcases List.mem_append.mp he with he | he
      · exact hacc e he
      · simp only [List.mem_singleton] at he
        rw [he]
        refine ⟨hp.1, ?_⟩
        intro x hx
        simp only at hx
        rw [mem_listToSet, List.mem_map] at hx
        obtain ⟨t, ht, hxt⟩ := hx
        rw [← hxt]
        exact (mem_getAllAccounts _ _).mpr ⟨t, hp.2 t ht, Or.inr rfl⟩
    · exact hacc e he

theorem cycleDfs_members_sub (adj : List (String × List (String × List Tx)))
    (S : List String) (hadj : ∀ x ∈ adjNodes adj, x ∈ S) (startNode : String) :
    ∀ (fuel : ℕ) (current : String) (visited path : List String) (depth : ℕ),
      (∀ x ∈ path, x ∈ S) → current ∈ S →
      ∀ L ∈ cycleDfs adj startNode fuel current visited path depth,
        ∀ x ∈ L, x ∈ S := by
  intro fuel
  induction fuel with
  | zero => intro current visited path depth _ _ L hL; simp [cycleDfs] at hL
  | succ fuel ih =>
    intro current visited path depth hpath hcur L hL
    unfold cycleDfs at hL
    split at hL
    · simp at hL
    · dsimp only at hL
      rw [List.mem_flatMap] at hL
      obtain ⟨nb, hnb, hL⟩ := hL
      have hnbS : nb ∈ S := hadj nb (mem_adjNodes_of_neighbor adj current nb hnb)
      split at hL
      · simp only [List.mem_singleton] at hL
        rw [hL]
        intro x hx
        rcases List.mem_append.mp hx with hx | hx
        · exact hpath x hx
        · simp only [List.mem_singleton] at hx
          rw [hx]
          exact hcur
      · split at hL
        · refine ih nb _ _ _ ?_ hnbS L hL
          intro x hx
          rcases List.mem_append.mp hx with hx | hx
          · exact hpath x hx
          · simp only [List.mem_singleton] at hx
            rw [hx]
            exact hcur
        · simp at hL

theorem mem_normalizeCycle_sub (c : List String) :
    ∀ x ∈ normalizeCycle c, x ∈ c := by
  intro x hx
  unfold normalizeCycle at hx
  rcases List.mem_append.mp hx with hx | hx
  · exact List.mem_of_mem_drop hx
  · exact List.mem_of_mem_take hx

theorem dedupCycles_members_sub (cycles : List (List String)) (S : List String)
    (h : ∀ c ∈ cycles, ∀ x ∈ c, x ∈ S) :
    ∀ L ∈ dedupCycles cycles, ∀ x ∈ L, x ∈ S := by
  unfold dedupCycles
  have := foldl_preserve_mem
    (fun (acc : List String × List (List String)) =>
      ∀ L ∈ acc.2, ∀ x ∈ L, x ∈ S)
    (fun c => ∀ x ∈ c, x ∈ S)
    (fun acc cycle =>
      let normalized := normalizeCycle cycle
      let key := String.intercalate "|" normalized
      if key ∈ acc.1 then acc else (acc.1 ++ [key], acc.2 ++ [normalized]))
    ?_ cycles ([], []) h (by simp)
  · exact this
  · intro acc c hacc hc L hL
    dsimp only at hL
    split at hL
    · exact hacc L hL
    · simp only at hL
      rcases List.mem_append.mp hL with hL | hL
      · exact hacc L hL
      · simp only [List.mem_singleton] at hL
        rw [hL]
        intro x hx
        exact hc x (mem_normalizeCycle_sub c x hx)

theorem detectCycles_members_sub (adj : List (String × List (String × List Tx)))
    (allAccounts S : List String)
    (hadj : ∀ x ∈ adjNodes adj, x ∈ S) (hacc : ∀ x ∈ allAccounts, x ∈ S) :
    ∀ L ∈ detectCycles adj allAccounts, ∀ x ∈ L, x ∈ S := by
  unfold detectCycles
  refine dedupCycles_members_sub _ S ?_
  intro c hc
  rw [List.mem_flatMap] at hc
  obtain ⟨startNode, hs, hc⟩ := hc
  exact cycleDfs_members_sub adj S hadj startNode 6 startNode [] [] 1
    (by simp) (hacc startNode hs) c hc

/-- Joint characterisation of one cycle-ring emission: either the dedup
key is already present and the state is unchanged, or the maps are those
of the member fold and exactly one ring over the cycle is appended. -/
theorem cycleStep_char (st : AsmSt) (c : List String) :
    cycleStep st c = st ∨
    ((cycleStep st c).accountPatterns =
        (c.foldl (cycleMemberStep c.length (ringIdOf st.ringCounter)) st).accountPatterns ∧
      (cycleStep st c).accountRings =
        (c.foldl (cycleMemberStep c.length (ringIdOf st.ringCounter)) st).accountRings ∧
      (cycleStep st c).fraudRings = st.fraudRings ++
        [⟨ringIdOf st.ringCounter, c, "cycle",
          roundTo1 (min (70 + (c.length : ℚ) * 5) 100)⟩]) := by
  unfold cycleStep
  split
  · exact Or.inl rfl
  · refine Or.inr ⟨rfl, rfl, ?_⟩
    show (c.foldl (cycleMemberStep c.length (ringIdOf st.ringCounter)) st).fraudRings
      ++ _ = _
    rw [fraudRings_foldl_of_memberStep _ (memberStepOk_cycle _ _)]

theorem fanInStep_char (st : AsmSt) (p : String × FanInData) :
    fanInStep st p = st ∨
    ((fanInStep st p).accountPatterns =
        ((p.1 :: p.2.senders).foldl
          (taggedMemberStep "fan_in" (ringIdOf st.ringCounter)) st).accountPatterns ∧
      (fanInStep st p).accountRings =
        ((p.1 :: p.2.senders).foldl
          (taggedMemberStep "fan_in" (ringIdOf st.ringCounter)) st).accountRings ∧
      (fanInStep st p).fraudRings = st.fraudRings ++
        [⟨ringIdOf st.ringCounter, p.1 :: p.2.senders, "fan_in",
          roundTo1 (min (60 + (if p.2.temporal then (25 : ℚ) else 10) +
            (p.2.senders.length : ℚ) * (1 / 2)) 100)⟩]) := by
  unfold fanInStep
  split
  · exact Or.inl rfl
  · rw [List.foldl_cons]
    refine Or.inr ⟨rfl, rfl, ?_⟩
    show (p.2.senders.foldl (taggedMemberStep "fan_in" (ringIdOf st.ringCounter))
      (taggedMemberStep "fan_in" (ringIdOf st.ringCounter) st p.1)).fraudRings
      ++ _ = _
    rw [fraudRings_foldl_of_memberStep _ (memberStepOk_tagged _ _)]
    rfl

theorem fanOutStep_char (st : AsmSt) (p : String × FanOutData) :
    fanOutStep st p = st ∨
    ((fanOutStep st p).accountPatterns =
        ((p.1 :: p.2.receivers).foldl
          (taggedMemberStep "fan_out" (ringIdOf st.ringCounter)) st).accountPatterns ∧
      (fanOutStep st p).accountRings =
        ((p.1 :: p.2.receivers).foldl
          (taggedMemberStep "fan_out" (ringIdOf st.ringCounter)) st).accountRings ∧
      (fanOutStep st p).fraudRings = st.fraudRings ++
        [⟨ringIdOf st.ringCounter, p.1 :: p.2.receivers, "fan_out",
          roundTo1 (min (60 + (if p.2.temporal then (25 : ℚ) else 10) +
            (p.2.receivers.length : ℚ) * (1 / 2)) 100)⟩]) := by
  unfold fanOutStep
  split
  · exact Or.inl rfl
  · rw [List.foldl_cons]
    refine Or.inr ⟨rfl, rfl, ?_⟩
    show (p.2.receivers.foldl (taggedMemberStep "fan_out" (ringIdOf st.ringCounter))
      (taggedMemberStep "fan_out" (ringIdOf st.ringCounter) st p.1)).fraudRings
      ++ _ = _
    rw [fraudRings_foldl_of_memberStep _ (memberStepOk_tagged _ _)]
    rfl

theorem shellStep_char (st : AsmSt) (ch : List String) :
    shellStep st ch = st ∨
    ((shellStep st ch).accountPatterns =
        (ch.foldl (taggedMemberStep "shell_network" (ringIdOf st.ringCounter))
          st).accountPatterns ∧
      (shellStep st ch).accountRings =
        (ch.foldl (taggedMemberStep "shell_network" (ringIdOf st.ringCounter))
          st).accountRings ∧
      (shellStep st ch).fraudRings = st.fraudRings ++
        [⟨ringIdOf st.ringCounter, ch, "shell_network",
          roundTo1 (min (50 + (ch.length : ℚ) * 8) 100)⟩]) := by
  unfold shellStep
  split
  · exact Or.inl rfl
  · refine Or.inr ⟨rfl, rfl, ?_⟩
    show (ch.foldl (taggedMemberStep "shell_network" (ringIdOf st.ringCounter))
      st).fraudRings ++ _ = _
    rw [fraudRings_foldl_of_memberStep _ (memberStepOk_tagged _ _)]

/-- Invariant for C10: the pattern and ring maps stay well-formed and
every ring member is a key of the ring map and lies in the account
universe `U`. -/
def ringsOk (U : List String) (st : AsmSt) : Prop :=
  mapsCore st ∧
  ∀ r ∈ st.fraudRings, ∀ m ∈ r.member_accounts,
    m ∈ st.accountRings.map Prod.fst ∧ m ∈ U

theorem ringsOk_of_char (U : List String) (st st' : AsmSt)
    (step : AsmSt → String → AsmSt) (hok : memberStepOk step)
    (members : List String) (ring : FraudRing)
    (hchar : st' = st ∨
      (st'.accountPatterns = (members.foldl step st).accountPatterns ∧
       st'.accountRings = (members.foldl step st).accountRings ∧
       st'.fraudRings = st.fraudRings ++ [ring]))
    (hring : ring.member_accounts = members)
    (hU : ∀ x ∈ members, x ∈ U)
    (h : ringsOk U st) : ringsOk U st' := by
  rcases hchar with rfl | ⟨hP, hR, hF⟩
  · exact h
  · have hfold : mapsCore (members.foldl step st) :=
      foldl_preserve mapsCore step
        (fun s a hs => mapsCore_memberStep step hok s a hs) members st h.1
    have hkeys := keys_foldl_of_memberStep step hok members st
    constructor
    · unfold mapsCore
      rw [hP, hR]
      exact hfold
    · intro r hr m hm
      rw [hF] at hr
      rw [hR]
      rcases List.mem_append.mp hr with hr | hr
      · obtain ⟨hk, hu⟩ := h.2 r hr m hm
        exact ⟨hkeys.1 m hk, hu⟩
      · simp only [List.mem_singleton] at hr
        rw [hr, hring] at hm
        exact ⟨hkeys.2 m hm, hU m hm⟩

theorem ringsOk_cycleStep (U : List String) (st : AsmSt) (c : List String)
    (hU : ∀ x ∈ c, x ∈ U) (h : ringsOk U st) : ringsOk U (cycleStep st c) :=
  ringsOk_of_char U st _ _ (memberStepOk_cycle c.length (ringIdOf st.ringCounter))
    c _ (cycleStep_char st c) rfl hU h

theorem ringsOk_fanInStep (U : List String) (st : AsmSt) (p : String × FanInData)
    (hU : ∀ x ∈ p.1 :: p.2.senders, x ∈ U) (h : ringsOk U st) :
    ringsOk U (fanInStep st p) :=
  ringsOk_of_char U st _ _ (memberStepOk_tagged "fan_in" (ringIdOf st.ringCounter))
    (p.1 :: p.2.senders) _ (fanInStep_char st p) rfl hU h

theorem ringsOk_fanOutStep (U : List String) (st : AsmSt) (p : String × FanOutData)
    (hU : ∀ x ∈ p.1 :: p.2.receivers, x ∈ U) (h : ringsOk U st) :
    ringsOk U (fanOutStep st p) :=
  ringsOk_of_char U st _ _ (memberStepOk_tagged "fan_out" (ringIdOf st.ringCounter))
    (p.1 :: p.2.receivers) _ (fanOutStep_char st p) rfl hU h

theorem ringsOk_shellStep (U : List String) (st : AsmSt) (ch : List String)
    (hU : ∀ x ∈ ch, x ∈ U) (h : ringsOk U st) : ringsOk U (shellStep st ch) :=
  ringsOk_of_char U st _ _
    (memberStepOk_tagged "shell_network" (ringIdOf st.ringCounter))
    ch _ (shellStep_char st ch) rfl hU h

theorem ringsOk_asmState (transactions filteredTransactions : List Tx)
    (U : List String)
    (hU1 : ∀ x ∈ getAllAccounts filteredTransactions, x ∈ U)
    (hU2 : ∀ x ∈ getAllAccounts transactions, x ∈ U) :
    ringsOk U (asmState transactions filteredTransactions) := by
  have hadjU : ∀ x ∈ adjNodes (buildAdjacencyList filteredTransactions), x ∈ U :=
    fun x hx => hU1 x (adjNodes_sub filteredTransactions x hx)
  have h0 : ringsOk U AsmSt.init := by
    refine ⟨⟨rfl, List.nodup_nil, ?_, ?_⟩, ?_⟩ <;>
      simp [AsmSt.init, mapsCore]
  simp only [asmState]
  refine foldl_preserve_mem (ringsOk U)
    (fun ch => ∀ x ∈ ch, x ∈ U) shellStep
    (fun s ch hs hch => ringsOk_shellStep U s ch hch hs) _ _ ?_
    (foldl_preserve_mem (ringsOk U)
      (fun p => ∀ x ∈ p.1 :: p.2.receivers, x ∈ U) fanOutStep
      (fun s p hs hp => ringsOk_fanOutStep U s p hp hs) _ _ ?_
      (foldl_preserve_mem (ringsOk U)
        (fun p => ∀ x ∈ p.1 :: p.2.senders, x ∈ U) fanInStep
        (fun s p hs hp => ringsOk_fanInStep U s p hp hs) _ _ ?_
        (foldl_preserve_mem (ringsOk U)
          (fun c => ∀ x ∈ c, x ∈ U) cycleStep
          (fun s c hs hc => ringsOk_cycleStep U s c hc hs) _ _ ?_ h0)))
  · intro ch hch x hx
    have hok := detectShellNetworks_sound _ _ _ ch hch
    exact hadjU x (hok.2.2.2 x hx)
  · intro p hp x hx
    have := ((detectSmurfing_members_sub transactions).2 p hp)
    rcases List.mem_cons.mp hx with hx | hx
    · rw [hx]; exact hU2 _ this.1
    · exact hU2 x (this.2 x hx)
  · intro p hp x hx
    have := ((detectSmurfing_members_sub transactions).1 p hp)
    rcases List.mem_cons.mp hx with hx | hx
    · rw [hx]; exact hU2 _ this.1
    · exact hU2 x (this.2 x hx)
  · intro c hc x hx
    exact detectCycles_members_sub _ _ U hadjU hU1 c hc x hx

/-- Under `mapsCore`, every pattern-map entry emits exactly one
suspicious-account record: the ring lookup succeeds with a non-empty
list, so the `continue` branches are never taken. -/
theorem suspiciousStep_emits (st : AsmSt) (fi : List (String × FanInData))
    (fo : List (String × FanOutData)) (stats : List (String × AccStats))
    (hcore : mapsCore st) (p : String × List String)
    (hp : p ∈ st.accountPatterns) :
    ∃ e : SuspiciousAccount,
      (∀ acc, suspiciousStep st fi fo stats acc p = acc ++ [e]) ∧
      e.account_id = p.1 ∧ e.detected_patterns = p.2 := by
  have hkey : p.1 ∈ st.accountRings.map Prod.fst := by
    rw [← hcore.1]
    exact List.mem_map.mpr ⟨p, hp, rfl⟩
  have hsome : (getA st.accountRings p.1).isSome :=
    (getA_isSome_iff_mem _ _).mpr hkey
  cases hg : getA st.accountRings p.1 with
  | none => rw [hg] at hsome; simp at hsome
  | some rings =>
    have hne : rings ≠ [] := hcore.2.2.2 (p.1, rings) (getA_mem _ _ _ hg)
    refine ⟨⟨p.1, calculateSuspicionScore p.1 p.2 stats
      ((getA st.accountCycleCounts p.1).getD 0)
      ((getA fi p.1).isSome || (getA fo p.1).isSome)
      (decide ("shell_network" ∈ p.2))
      (((getA fi p.1).map (fun d => d.temporal)).getD false ||
        ((getA fo p.1).map (fun d => d.temporal)).getD false),
      p.2, rings.headD ""⟩, ?_, rfl, rfl⟩
    intro acc
    unfold suspiciousStep
    rw [hg]
    dsimp only
    rw [if_neg (by simp [List.isEmpty_iff, hne])]

theorem buildSuspicious_fold_shape (st : AsmSt) (fi : List (String × FanInData))
    (fo : List (String × FanOutData)) (stats : List (String × AccStats))
    (hcore : mapsCore st) :
    ∀ (l : List (String × List String)), (∀ p ∈ l, p ∈ st.accountPatterns) →
    ∀ (acc : List SuspiciousAccount),
      ((l.foldl (suspiciousStep st fi fo stats) acc).map
        (fun sa => sa.account_id) =
        acc.map (fun sa => sa.account_id) ++ l.map Prod.fst) ∧
      (∀ sa ∈ l.foldl (suspiciousStep st fi fo stats) acc,
        sa ∈ acc ∨ sa.detected_patterns ≠ []) := by
  intro l
  induction l with
  | nil =>
    intro _ acc
    exact ⟨by simp, fun sa hsa => Or.inl (by simpa using hsa)⟩
  | cons p t ih =>
    intro hl acc
    obtain ⟨e, he, hid, hpat⟩ :=
      suspiciousStep_emits st fi fo stats hcore p (hl p (List.mem_cons_self _ _))
    rw [List.foldl_cons, he acc]
    obtain ⟨ih1, ih2⟩ := ih (fun q hq => hl q (List.mem_cons_of_mem _ hq)) (acc ++ [e])
    constructor
    · rw [ih1, List.map_append, List.map_cons]
      simp [hid]
    · intro sa hsa
      rcases ih2 sa hsa with hsa | hsa
      · rcases List.mem_append.mp hsa with hsa | hsa
        · exact Or.inl hsa
        · simp only [List.mem_singleton] at hsa
          rw [hsa]
          refine Or.inr ?_
          rw [hpat]
          exact hcore.2.2.1 p (hl p (List.mem_cons_self _ _))
      · exact Or.inr hsa

/-- Under `mapsCore`, the suspicious-account ids (pre-sort) are exactly
the pattern-map keys, and every record has a non-empty pattern list. -/
theorem buildSuspicious_shape (st : AsmSt) (fi : List (String × FanInData))
    (fo : List (String × FanOutData)) (stats : List (String × AccStats))
    (hcore : mapsCore st) :
    (buildSuspicious st fi fo stats).map (fun sa => sa.account_id) =
      st.accountPatterns.map Prod.fst ∧
    ∀ sa ∈ buildSuspicious st fi fo stats, sa.detected_patterns ≠ [] := by
  obtain ⟨h1, h2⟩ := buildSuspicious_fold_shape st fi fo stats hcore
    st.accountPatterns (fun p hp => hp) []
  refine ⟨by simpa using h1, ?_⟩
  intro sa hsa
  rcases h2 sa hsa with hsa | hsa
  · simp at hsa
  · exact hsa

/-- A list whose projected keys are distinct has exactly one element with
a given present key. -/
theorem filter_key_length {α γ : Type _} [DecidableEq γ] (l : List α)
    (idOf : α → γ) (m : γ) (hnd : (l.map idOf).Nodup) (hm : m ∈ l.map idOf) :
    (l.filter (fun x => decide (idOf x = m))).length = 1 := by
  induction l with
  | nil => simp at hm
  | cons a t ih =>
    rw [List.map_cons, List.nodup_cons] at hnd
    rw [List.filter_cons]
    by_cases ha : idOf a = m
    · rw [if_pos (by simp [ha])]
      have htail : t.filter (fun x => decide (idOf x = m)) = [] := by
        rw [List.filter_eq_nil]
        intro x hx
        simp only [decide_eq_true_eq]
        intro hxm
        exact hnd.1 (by rw [← ha] at hxm; rw [← hxm]; exact List.mem_map_of_mem idOf hx)
      rw [htail]
      rfl
    · rw [if_neg (by simp [ha])]
      have hmt : m ∈ t.map idOf := by
        rcases List.mem_map.mp hm with ⟨x, hx, hxm⟩
        rcases List.mem_cons.mp hx with h | h
        · exact absurd (by rw [h] at hxm; exact hxm) ha
        · exact List.mem_map.mpr ⟨x, h, hxm⟩
      exact ih hnd.2 hmt

/-- Mapping a projection over the single filtered hit. -/
theorem map_filter_eq_single {α β γ : Type _} [DecidableEq γ]
    (u : List γ) (f : γ → α) (idOf : α → γ) (valOf : α → β) (m : γ) (b : β)
    (hid : ∀ a, idOf (f a) = a) (hval : valOf (f m) = b)
    (hu : u.Nodup) (hm : m ∈ u) :
    ((u.map f).filter (fun x => decide (idOf x = m))).map valOf = [b] := by
  induction u with
  | nil => simp at hm
  | cons a t ih =>
    rw [List.nodup_cons] at hu
    rw [List.map_cons, List.filter_cons]
    by_cases ha : a = m
    · rw [if_pos (by simp [hid, ha])]
      have htail : (t.map f).filter (fun x => decide (idOf x = m)) = [] := by
        rw [List.filter_eq_nil]
        intro x hx
        simp only [decide_eq_true_eq]
        rcases List.mem_map.mp hx with ⟨c, hc, hcx⟩
        rw [← hcx, hid]
        intro hcm
        exact hu.1 (by rw [hcm, ← ha] at hc; exact (by rw [ha] at hc ⊢; exact hc))
      rw [htail, List.map_cons, List.map_nil, ha, hval]
    · rw [if_neg (by simp [hid, ha])]
      rcases List.mem_cons.mp hm with h | h
      · exact absurd h.symm ha
      · exact ih hu.2 h

/-- The node whose id is `m` (unique, since the account universe has no
duplicates) carries `suspicious = true` as soon as some suspicious
account record bears that id. -/
theorem buildNodes_filter_suspicious (transactions : List Tx)
    (u legit : List String) (st : AsmSt) (susp : List SuspiciousAccount)
    (m : String) (hu : u.Nodup) (hm : m ∈ u)
    (hsa : ∃ sa ∈ susp, sa.account_id = m) :
    ((buildNodes transactions u legit st susp).filter
      (fun n => decide (n.id = m))).map (fun n => n.suspicious) = [true] := by
  obtain ⟨sa, hsamem, hsaid⟩ := hsa
  unfold buildNodes
  dsimp only
  refine map_filter_eq_single u _ (fun (n : GraphNode) => n.id)
    (fun (n : GraphNode) => n.suspicious) m true
    (fun a => rfl) ?_ hu hm
  show susp.any (fun a => decide (a.account_id = m)) = true
  exact List.any_eq_true.mpr ⟨sa, hsamem, decide_eq_true hsaid⟩

/-- C10: every account `m` appearing in an emitted fraud ring's
`member_accounts` has exactly one `suspicious_accounts` entry, every
entry bearing its id has a non-empty `detected_patterns` list, and the
unique graph node with that id carries `suspicious = true`. -/
theorem c10_ring_members_suspicious (transactions : List Tx) :
    ∀ r ∈ (analyzeTransactions transactions).fraud_rings,
      ∀ m ∈ r.member_accounts,
        ((analyzeTransactions transactions).suspicious_accounts.filter
          (fun sa => decide (sa.account_id = m))).length = 1 ∧
        (∀ sa ∈ (analyzeTransactions transactions).suspicious_accounts,
          sa.account_id = m → sa.detected_patterns ≠ []) ∧
        (((analyzeTransactions transactions).nodes.filter
          (fun n => decide (n.id = m))).map (fun n => n.suspicious)) = [true] := by
  by_cases hfil : removeLegitimateTransactions transactions
      (detectLegitimateAccounts transactions) = []
  · rw [analyzeTransactions_eq_empty transactions hfil]
    intro r hr
    simp [emptyResult] at hr
  · rw [analyzeTransactions_eq_main transactions hfil]
    simp only [mainResult]
    set ftx := removeLegitimateTransactions transactions
      (detectLegitimateAccounts transactions) with hftx
    set st4 := asmState transactions ftx with hst4
    set B := buildSuspicious st4 (detectSmurfing transactions).1
      (detectSmurfing transactions).2 (computeAccountStats ftx) with hB
    intro r hr m hm
    have hU1 : ∀ x ∈ getAllAccounts ftx, x ∈ getAllAccounts transactions :=
      fun x hx => removeLegit_accounts_sub transactions _ x hx
    have hOk : ringsOk (getAllAccounts transactions) st4 := by
      rw [hst4]
      exact ringsOk_asmState transactions ftx
        (getAllAccounts transactions) hU1 (fun x hx => hx)
    obtain ⟨hk, hu⟩ := hOk.2 r hr m hm
    have hcore := hOk.1
    obtain ⟨hids, hpat⟩ := buildSuspicious_shape st4 (detectSmurfing transactions).1
      (detectSmurfing transactions).2 (computeAccountStats ftx) hcore
    rw [← hB] at hids hpat
    have hperm : (sortByScoreDesc B).Perm B := sortBy_perm _ _
    have hmB : m ∈ B.map (fun sa => sa.account_id) := by
      rw [hids, hcore.1]
      exact hk
    have hndB : (B.map (fun sa => sa.account_id)).Nodup := by
      rw [hids]
      exact hcore.2.1
    refine ⟨?_, ?_, ?_⟩
    · rw [List.Perm.length_eq (List.Perm.filter _ hperm)]
      exact filter_key_length B (fun sa => sa.account_id) m hndB hmB
    · intro sa hsa _
      exact hpat sa (hperm.mem_iff.mp hsa)
    · refine buildNodes_filter_suspicious transactions _ _ _ _ m
        (nodup_getAllAccounts transactions) hu ?_
      have hms : m ∈ (sortByScoreDesc B).map (fun sa => sa.account_id) :=
        ((hperm.map _).mem_iff).mpr hmB
      rcases List.mem_map.mp hms with ⟨sa, hsa, hid⟩
      exact ⟨sa, hsa, hid⟩

/-- Witness for `c10_ring_members_suspicious`: member `A` of the cycle
ring of the pure 3-cycle scenario. -/
theorem c10_ring_members_suspicious_witness :
    ((analyzeTransactions pure3CycleInput).suspicious_accounts.filter
      (fun sa => decide (sa.account_id = "A"))).length = 1 ∧
    (∀ sa ∈ (analyzeTransactions pure3CycleInput).suspicious_accounts,
      sa.account_id = "A" → sa.detected_patterns ≠ []) ∧
    (((analyzeTransactions pure3CycleInput).nodes.filter
      (fun n => decide (n.id = "A"))).map (fun n => n.suspicious)) = [true] :=
  c10_ring_members_suspicious pure3CycleInput
    ((analyzeTransactions pure3CycleInput).fraud_rings.headD ⟨"", [], "", 0⟩)
    (by decide) "A" (by decide)

-- Claim C9: unparseable timestamps

/-- Replace every timestamp (e.g. by the `NaN` marker `none`), keeping
ids, endpoints and amounts. -/
def retime (g : Tx → Option ℤ) (tx : Tx) : Tx :=
  { tx with timestamp := g tx }

/-- Map a function over the values of an association list. -/
def mapVal (h : β → γ) (l : List (α × β)) : List (α × γ) :=
  l.map (fun p => (p.1, h p.2))

theorem getA_mapVal [DecidableEq α] (h : β → γ) (l : List (α × β)) (a : α) :
    getA (mapVal h l) a = (getA l a).map h := by
  induction l with
  | nil => rfl
  | cons p t ih =>
    obtain ⟨k, v⟩ := p
    by_cases ha : a = k
    · simp [mapVal, getA, ha]
    · simp only [mapVal, List.map_cons, getA, if_neg ha]
      exact ih

theorem setA_mapVal [DecidableEq α] (h : β → γ) (l : List (α × β)) (a : α)
    (b : β) : setA (mapVal h l) a (h b) = mapVal h (setA l a b) := by
  induction l with
  | nil => rfl
  | cons p t ih =>
    obtain ⟨k, v⟩ := p
    by_cases ha : a = k
    · simp [mapVal, setA, ha]
    · simp only [mapVal, List.map_cons, setA, if_neg ha]
      show (k, h v) :: setA (mapVal h t) a (h b) =
        (k, h v) :: mapVal h (setA t a b)
      rw [ih]

theorem updA_mapVal [DecidableEq α] (h : β → γ) (l : List (α × β)) (a : α)
    (d : β) (u : β → β) (u' : γ → γ) (hcomm : ∀ v, u' (h v) = h (u v)) :
    updA (mapVal h l) a (h d) u' = mapVal h (updA l a d u) := by
  unfold updA
  rw [getA_mapVal]
  have hgd : (Option.map h (getA l a)).getD (h d) = h ((getA l a).getD d) := by
    cases getA l a <;> rfl
  rw [hgd, hcomm, setA_mapVal]

/-- Grouping by a timestamp-independent key commutes with retiming: the
groups carry the same keys and retimed member lists. -/
theorem groupFold_retime (g : Tx → Option ℤ) (key : Tx → String)
    (hkey : ∀ tx, key (retime g tx) = key tx) (txs : List Tx) :
    (txs.map (retime g)).foldl
      (fun m tx => updA m (key tx) [] (fun l => l ++ [tx])) [] =
      mapVal (List.map (retime g))
        (txs.foldl (fun m tx => updA m (key tx) [] (fun l => l ++ [tx])) []) := by
  have key1 : ∀ (m : List (String × List Tx)) (tx : Tx),
      updA (mapVal (List.map (retime g)) m) (key (retime g tx)) []
        (fun l => l ++ [retime g tx]) =
      mapVal (List.map (retime g)) (updA m (key tx) [] (fun l => l ++ [tx])) := by
    intro m tx
    rw [hkey]
    have := updA_mapVal (List.map (retime g)) m (key tx) []
      (fun l => l ++ [tx]) (fun l => l ++ [retime g tx])
      (fun v => by simp)
    simpa using this
  have main : ∀ (txs : List Tx) (m : List (String × List Tx)),
      (txs.map (retime g)).foldl
        (fun m tx => updA m (key tx) [] (fun l => l ++ [tx]))
        (mapVal (List.map (retime g)) m) =
      mapVal (List.map (retime g))
        (txs.foldl (fun m tx => updA m (key tx) [] (fun l => l ++ [tx])) m) := by
    intro txs
    induction txs with
    | nil => intro m; rfl
    | cons t ts ih =>
      intro m
      rw [List.map_cons, List.foldl_cons, List.foldl_cons, key1 m t, ih]
  have h0 : (mapVal (List.map (retime g)) ([] : List (String × List Tx))) = [] := rfl
  have hmain := main txs []
  rw [h0] at hmain
  exact hmain

/-- One adjacency insertion adds exactly the edge endpoint pair. -/
theorem adjNeighbors_adjStep (adj : List (String × List (String × List Tx)))
    (t : Tx) (a b : String) :
    (b ∈ adjNeighbors (adjStep adj t) a) ↔
      (b ∈ adjNeighbors adj a ∨ (a = t.sender_id ∧ b = t.receiver_id)) := by
  unfold adjNeighbors adjStep
  rw [getA_updA]
  by_cases ha : a = t.sender_id
  · rw [if_pos ha, ha]
    simp only [Option.getD_some]
    rw [map_fst_updA]
    constructor
    · intro hb
      split at hb
      · exact Or.inl hb
      · rcases List.mem_append.mp hb with hb | hb
        · exact Or.inl hb
        · simp only [List.mem_singleton] at hb
          exact Or.inr ⟨by trivial, hb⟩
    · intro hb
      split
      · rcases hb with hb | ⟨_, hb⟩
        · exact hb
        · rw [hb]; assumption
      · rcases hb with hb | ⟨_, hb⟩
        · exact List.mem_append.mpr (Or.inl hb)
        · exact List.mem_append.mpr (Or.inr (by simp [hb]))
  · rw [if_neg ha]
    constructor
    · exact fun hb => Or.inl hb
    · intro hb
      rcases hb with hb | ⟨hb, _⟩
      · exact hb
      · exact absurd hb ha

theorem adjNeighbors_fold_char (txs : List Tx) :
    ∀ (adj : List (String × List (String × List Tx))) (a b : String),
      b ∈ adjNeighbors (txs.foldl adjStep adj) a ↔
        (b ∈ adjNeighbors adj a ∨
          ∃ t ∈ txs, a = t.sender_id ∧ b = t.receiver_id) := by
  induction txs with
  | nil => intro adj a b; simp
  | cons t ts ih =>
    intro adj a b
    rw [List.foldl_cons, ih (adjStep adj t) a b, adjNeighbors_adjStep]
    constructor
    · intro h
      rcases h with (h | h) | h
      · exact Or.inl h
      · exact Or.inr ⟨t, List.mem_cons_self _ _, h⟩
      · obtain ⟨u, hu, hab⟩ := h
        exact Or.inr ⟨u, List.mem_cons_of_mem _ hu, hab⟩
    · intro h
      rcases h with h | ⟨u, hu, hab⟩
      · exact Or.inl (Or.inl h)
      · rcases List.mem_cons.mp hu with hu | hu
        · exact Or.inl (Or.inr (by rw [hu] at hab; exact hab))
        · exact Or.inr ⟨u, hu, hab⟩

/-- The adjacency index records exactly the sender-to-receiver edges,
irrespective of timestamps. -/
theorem buildAdjacencyList_char (txs : List Tx) (a b : String) :
    b ∈ adjNeighbors (buildAdjacencyList txs) a ↔
      ∃ t ∈ txs, a = t.sender_id ∧ b = t.receiver_id := by
  unfold buildAdjacencyList
  rw [adjNeighbors_fold_char txs [] a b]
  simp [adjNeighbors, getA]

theorem inWindow_isSome (ts anchor : Option ℤ) (h : inWindow ts anchor = true) :
    ts.isSome = true := by
  cases ts with
  | none => cases anchor <;> simp [inWindow] at h
  | some x => rfl

theorem inWindow_none_anchor (ts : Option ℤ) : inWindow ts none = false := by
  cases ts <;> rfl

theorem any_filter_of_false (l : List α) (p q : α → Bool)
    (h : ∀ x, q x = false → p x = false) :
    l.any p = (l.filter q).any p := by
  induction l with
  | nil => rfl
  | cons a t ih =>
    rw [List.filter_cons]
    cases hq : q a with
    | true => rw [if_pos rfl, List.any_cons, List.any_cons, ih]
    | false =>
      rw [if_neg (by simp), List.any_cons, h a hq, Bool.false_or, ih]

theorem map_timestamp_filter_isSome (l : List Tx) :
    (l.filter (fun tx => tx.timestamp.isSome)).map (fun tx => tx.timestamp) =
      (l.map (fun tx => tx.timestamp)).filter Option.isSome := by
  induction l with
  | nil => rfl
  | cons a t ih =>
    rw [List.map_cons, List.filter_cons, List.filter_cons]
    cases ha : a.timestamp.isSome with
    | true => rw [if_pos rfl, if_pos rfl, List.map_cons, ih]
    | false => rw [if_neg (by simp), if_neg (by simp), ih]

/-- A `NaN`-timestamped transaction can neither anchor nor populate a
72-hour window: the clustering scan ignores it entirely. -/
theorem temporalClusterB_filter_isSome (l : List Tx) (party : Tx → String) :
    temporalClusterB l party =
      temporalClusterB (l.filter (fun tx => tx.timestamp.isSome)) party := by
  unfold temporalClusterB
  have hinner : ∀ t : Option ℤ,
      l.filter (fun tx2 => inWindow tx2.timestamp t) =
      (l.filter (fun tx => tx.timestamp.isSome)).filter
        (fun tx2 => inWindow tx2.timestamp t) := by
    intro t
    rw [List.filter_filter]
    apply List.filter_congr
    intro x _
    cases hw : inWindow x.timestamp t with
    | false => simp [hw]
    | true => simp [hw, inWindow_isSome _ _ hw]
  have hmapfil := map_timestamp_filter_isSome l
  have hpred : ∀ t : Option ℤ,
      (decide (MIN_CONNECTIONS ≤
        (listToSet ((l.filter (fun tx2 => inWindow tx2.timestamp t)).map
          party)).length)) =
      (decide (MIN_CONNECTIONS ≤
        (listToSet (((l.filter (fun tx => tx.timestamp.isSome)).filter
          (fun tx2 => inWindow tx2.timestamp t)).map party)).length)) := by
    intro t
    rw [hinner t]
  have hfun : (fun t => decide (MIN_CONNECTIONS ≤
        (listToSet ((l.filter (fun tx2 => inWindow tx2.timestamp t)).map
          party)).length)) =
      (fun t => decide (MIN_CONNECTIONS ≤
        (listToSet (((l.filter (fun tx => tx.timestamp.isSome)).filter
          (fun tx2 => inWindow tx2.timestamp t)).map party)).length)) :=
    funext hpred
  rw [hfun, hmapfil]
  apply any_filter_of_false
  intro t ht
  cases t with
  | some x => simp at ht
  | none =>
    have hnil : (l.filter (fun tx => tx.timestamp.isSome)).filter
        (fun tx2 => inWindow tx2.timestamp none) = [] := by
      rw [List.filter_eq_nil]
      intro x _
      rw [inWindow_none_anchor]
      exact Bool.false_ne_true
    rw [hnil]
    simp [listToSet, MIN_CONNECTIONS]

theorem filter_retime (g : Tx → Option ℤ) (txs : List Tx) (p : Tx → Bool)
    (hp : ∀ tx, p (retime g tx) = p tx) :
    (txs.map (retime g)).filter p = (txs.filter p).map (retime g) := by
  induction txs with
  | nil => rfl
  | cons t ts ih =>
    rw [List.map_cons, List.filter_cons, List.filter_cons]
    cases hpt : p t with
    | true =>
      rw [if_pos (by rw [hp t, hpt]), if_pos rfl, List.map_cons, ih]
    | false =>
      rw [if_neg (by rw [hp t, hpt]; exact Bool.false_ne_true),
        if_neg (by simp), ih]

theorem sentSum_retime (g : Tx → Option ℤ) (txs : List Tx) (a : String) :
    sentSum (txs.map (retime g)) a = sentSum txs a := by
  unfold sentSum
  rw [filter_retime g txs (fun t => decide (t.sender_id = a)) (fun tx => rfl), List.map_map]
  rfl

theorem receivedSum_retime (g : Tx → Option ℤ) (txs : List Tx) (a : String) :
    receivedSum (txs.map (retime g)) a = receivedSum txs a := by
  unfold receivedSum
  rw [filter_retime g txs (fun t => decide (t.receiver_id = a)) (fun tx => rfl), List.map_map]
  rfl

theorem sentCount_retime (g : Tx → Option ℤ) (txs : List Tx) (a : String) :
    sentCount (txs.map (retime g)) a = sentCount txs a := by
  unfold sentCount
  rw [filter_retime g txs (fun t => decide (t.sender_id = a)) (fun tx => rfl), List.length_map]

theorem receivedCount_retime (g : Tx → Option ℤ) (txs : List Tx) (a : String) :
    receivedCount (txs.map (retime g)) a = receivedCount txs a := by
  unfold receivedCount
  rw [filter_retime g txs (fun t => decide (t.receiver_id = a)) (fun tx => rfl), List.length_map]

theorem incomingSenders_retime (g : Tx → Option ℤ) (txs : List Tx) (a : String) :
    incomingSenders (txs.map (retime g)) a = incomingSenders txs a := by
  unfold incomingSenders
  rw [filter_retime g txs (fun t => decide (t.receiver_id = a)) (fun tx => rfl), List.map_map]
  rfl

theorem outgoingReceivers_retime (g : Tx → Option ℤ) (txs : List Tx)
    (a : String) :
    outgoingReceivers (txs.map (retime g)) a = outgoingReceivers txs a := by
  unfold outgoingReceivers
  rw [filter_retime g txs (fun t => decide (t.sender_id = a)) (fun tx => rfl), List.map_map]
  rfl

theorem fan_fold_senders (g : Tx → Option ℤ) :
    ∀ (l : List (String × List Tx)) (acc acc' : List (String × FanInData)),
      acc'.map (fun p => (p.1, p.2.senders)) =
        acc.map (fun p => (p.1, p.2.senders)) →
      ((l.foldl (fun acc q =>
          let u := listToSet ((q.2.map (retime g)).map (fun x => x.sender_id))
          if MIN_CONNECTIONS ≤ u.length then
            acc ++ [(q.1, ⟨u, temporalClusterB (q.2.map (retime g))
              (fun x => x.sender_id)⟩)]
          else acc) acc').map (fun p => (p.1, p.2.senders))) =
      ((l.foldl (fun acc q =>
          let u := listToSet (q.2.map (fun x => x.sender_id))
          if MIN_CONNECTIONS ≤ u.length then
            acc ++ [(q.1, ⟨u, temporalClusterB q.2 (fun x => x.sender_id)⟩)]
          else acc) acc).map (fun p => (p.1, p.2.senders))) := by
  intro l
  induction l with
  | nil => intro acc acc' h; exact h
  | cons q t ih =>
    intro acc acc' h
    rw [List.foldl_cons, List.foldl_cons]
    apply ih
    have hu : listToSet ((q.2.map (retime g)).map (fun x => x.sender_id)) =
        listToSet (q.2.map (fun x => x.sender_id)) := by
      rw [List.map_map]
      rfl
    dsimp only
    rw [hu]
    split
    · rw [List.map_append, List.map_append, h]
      rfl
    · exact h

theorem fan_fold_receivers (g : Tx → Option ℤ) :
    ∀ (l : List (String × List Tx)) (acc acc' : List (String × FanOutData)),
      acc'.map (fun p => (p.1, p.2.receivers)) =
        acc.map (fun p => (p.1, p.2.receivers)) →
      ((l.foldl (fun acc q =>
          let u := listToSet ((q.2.map (retime g)).map (fun x => x.receiver_id))
          if MIN_CONNECTIONS ≤ u.length then
            acc ++ [(q.1, ⟨u, temporalClusterB (q.2.map (retime g))
              (fun x => x.receiver_id)⟩)]
          else acc) acc').map (fun p => (p.1, p.2.receivers))) =
      ((l.foldl (fun acc q =>
          let u := listToSet (q.2.map (fun x => x.receiver_id))
          if MIN_CONNECTIONS ≤ u.length then
            acc ++ [(q.1, ⟨u, temporalClusterB q.2 (fun x => x.receiver_id)⟩)]
          else acc) acc).map (fun p => (p.1, p.2.receivers))) := by
  intro l
  induction l with
  | nil => intro acc acc' h; exact h
  | cons q t ih =>
    intro acc acc' h
    rw [List.foldl_cons, List.foldl_cons]
    apply ih
    have hu : listToSet ((q.2.map (retime g)).map (fun x => x.receiver_id)) =
        listToSet (q.2.map (fun x => x.receiver_id)) := by
      rw [List.map_map]
      rfl
    dsimp only
    rw [hu]
    split
    · rw [List.map_append, List.map_append, h]
      rfl
    · exact h

theorem byReceiver_retime (g : Tx → Option ℤ) (txs : List Tx) :
    (txs.map (retime g)).foldl
      (fun m tx => updA m tx.receiver_id [] (fun l => l ++ [tx])) [] =
      mapVal (List.map (retime g)) (txs.foldl
        (fun m tx => updA m tx.receiver_id [] (fun l => l ++ [tx])) []) :=
  groupFold_retime g (fun tx => tx.receiver_id) (fun tx => rfl) txs

theorem bySender_retime (g : Tx → Option ℤ) (txs : List Tx) :
    (txs.map (retime g)).foldl
      (fun m tx => updA m tx.sender_id [] (fun l => l ++ [tx])) [] =
      mapVal (List.map (retime g)) (txs.foldl
        (fun m tx => updA m tx.sender_id [] (fun l => l ++ [tx])) []) :=
  groupFold_retime g (fun tx => tx.sender_id) (fun tx => rfl) txs

/-- The fan-in hubs and their distinct-sender lists ignore timestamps. -/
theorem detectSmurfing_fanIn_retime (g : Tx → Option ℤ) (txs : List Tx) :
    (detectSmurfing (txs.map (retime g))).1.map (fun p => (p.1, p.2.senders)) =
      (detectSmurfing txs).1.map (fun p => (p.1, p.2.senders)) := by
  simp only [detectSmurfing]
  rw [byReceiver_retime g txs]
  simp only [mapVal]
  rw [List.foldl_map]
  exact fan_fold_senders g _ [] [] rfl

/-- The fan-out hubs and their distinct-receiver lists ignore
timestamps. -/
theorem detectSmurfing_fanOut_retime (g : Tx → Option ℤ) (txs : List Tx) :
    (detectSmurfing (txs.map (retime g))).2.map (fun p => (p.1, p.2.receivers)) =
      (detectSmurfing txs).2.map (fun p => (p.1, p.2.receivers)) := by
  simp only [detectSmurfing]
  rw [bySender_retime g txs]
  simp only [mapVal]
  rw [List.foldl_map]
  exact fan_fold_receivers g _ [] [] rfl

/-- C9: a transaction with an unparseable (`NaN`, modelled `none`)
timestamp still feeds the adjacency index (which records exactly the
sender-to-receiver edges), the aggregate statistics (equal, under any
retiming, to the timestamp-free sums, counts and distinct-counterparty
formulas over the original batch), and the fan-in / fan-out hub and
counterparty lists; but the 72-hour clustering scan computes the same
flag after such transactions are removed, so they can never satisfy a
temporal window. -/
theorem c9_nan_timestamps (transactions : List Tx) (g : Tx → Option ℤ) :
    (∀ a b : String,
      b ∈ adjNeighbors (buildAdjacencyList transactions) a ↔
        ∃ t ∈ transactions, a = t.sender_id ∧ b = t.receiver_id) ∧
    (∀ a : String,
      (statOf (computeAccountStats (transactions.map (retime g))) a).totalSent =
        sentSum transactions a ∧
      (statOf (computeAccountStats (transactions.map (retime g))) a).totalReceived =
        receivedSum transactions a ∧
      (statOf (computeAccountStats (transactions.map (retime g))) a).sendCount =
        sentCount transactions a ∧
      (statOf (computeAccountStats (transactions.map (retime g))) a).receiveCount =
        receivedCount transactions a ∧
      (statOf (computeAccountStats (transactions.map (retime g))) a).totalTransactions =
        endpointCount transactions a ∧
      (statOf (computeAccountStats (transactions.map (retime g))) a).senders =
        incomingSenders transactions a ∧
      (statOf (computeAccountStats (transactions.map (retime g))) a).receivers =
        outgoingReceivers transactions a) ∧
    ((detectSmurfing (transactions.map (retime g))).1.map
        (fun p => (p.1, p.2.senders)) =
      (detectSmurfing transactions).1.map (fun p => (p.1, p.2.senders))) ∧
    ((detectSmurfing (transactions.map (retime g))).2.map
        (fun p => (p.1, p.2.receivers)) =
      (detectSmurfing transactions).2.map (fun p => (p.1, p.2.receivers))) ∧
    (∀ (l : List Tx) (party : Tx → String),
      temporalClusterB l party =
        temporalClusterB (l.filter (fun tx => tx.timestamp.isSome)) party) := by
  refine ⟨buildAdjacencyList_char transactions, ?_,
    detectSmurfing_fanIn_retime g transactions,
    detectSmurfing_fanOut_retime g transactions,
    temporalClusterB_filter_isSome⟩
  intro a
  refine ⟨?_, ?_, ?_, ?_, ?_, ?_, ?_⟩
  · rw [computeAccountStats_totalSent, sentSum_retime]
  · rw [computeAccountStats_totalReceived, receivedSum_retime]
  · rw [computeAccountStats_sendCount, sentCount_retime]
  · rw [computeAccountStats_receiveCount, receivedCount_retime]
  · rw [computeAccountStats_totalTransactions]
    show endpointCount (transactions.map (retime g)) a = endpointCount transactions a
    unfold endpointCount
    rw [sentCount_retime, receivedCount_retime]
  · rw [computeAccountStats_senders, incomingSenders_retime]
  · rw [computeAccountStats_receivers, outgoingReceivers_retime]


-- Claim C3: canonical cycles

theorem charListLt_irrefl : ∀ a, charListLt a a = false := by
  intro a
  induction a with
  | nil => rfl
  | cons c t ih => simp [charListLt, ih]

theorem charListLt_trans : ∀ a b c, charListLt a b = true →
    charListLt b c = true → charListLt a c = true := by
  intro a
  induction a with
  | nil =>
    intro b c hab hbc
    cases b with
    | nil => simp [charListLt] at hab
    | cons y bs =>
      cases c with
      | nil => simp [charListLt] at hbc
      | cons z cs => rfl
  | cons x as ih =>
    intro b c hab hbc
    cases b with
    | nil => simp [charListLt] at hab
    | cons y bs =>
      cases c with
      | nil => simp [charListLt] at hbc
      | cons z cs =>
        simp only [charListLt] at hab hbc ⊢
        rcases lt_trichotomy x y with hxy | hxy | hxy
        · rcases lt_trichotomy y z with hyz | hyz | hyz
          · rw [if_pos (lt_trans hxy hyz)]
          · rw [if_pos (hyz ▸ hxy)]
          · rw [if_neg (lt_asymm hyz), if_pos hyz] at hbc
            exact absurd hbc Bool.false_ne_true
        · rw [if_neg (hxy ▸ lt_irrefl y), if_neg (hxy ▸ lt_irrefl y)] at hab
          rcases lt_trichotomy y z with hyz | hyz | hyz
          · rw [if_pos (hxy ▸ hyz)]
          · rw [if_neg (hxy ▸ hyz ▸ lt_irrefl z), if_neg (hxy ▸ hyz ▸ lt_irrefl z)]
            rw [if_neg (hyz ▸ lt_irrefl z), if_neg (hyz ▸ lt_irrefl z)] at hbc
            exact ih bs cs hab hbc
          · rw [if_neg (lt_asymm hyz), if_pos hyz] at hbc
            exact absurd hbc Bool.false_ne_true
        · rw [if_neg (lt_asymm hxy), if_pos hxy] at hab
          exact absurd hab Bool.false_ne_true

theorem charListLt_connex : ∀ a b, a ≠ b →
    charListLt a b = true ∨ charListLt b a = true := by
  intro a
  induction a with
  | nil =>
    intro b hne
    cases b with
    | nil => exact absurd rfl hne
    | cons y bs => exact Or.inl rfl
  | cons x as ih =>
    intro b hne
    cases b with
    | nil => exact Or.inr rfl
    | cons y bs =>
      rcases lt_trichotomy x y with hxy | hxy | hxy
      · exact Or.inl (by simp [charListLt, hxy])
      · have htl : as ≠ bs := by
          intro h
          exact hne (by rw [hxy, h])
        rcases ih bs htl with h | h
        · refine Or.inl ?_
          simp only [charListLt]
          rw [if_neg (hxy ▸ lt_irrefl y), if_neg (hxy ▸ lt_irrefl y)]
          exact h
        · refine Or.inr ?_
          simp only [charListLt]
          rw [if_neg (hxy ▸ lt_irrefl y), if_neg (hxy ▸ lt_irrefl y)]
          exact h
      · exact Or.inr (by simp [charListLt, hxy])

theorem strLt_irrefl (a : String) : strLt a a = false :=
  charListLt_irrefl a.data

theorem strLt_trans (a b c : String) (hab : strLt a b = true)
    (hbc : strLt b c = true) : strLt a c = true :=
  charListLt_trans a.data b.data c.data hab hbc

theorem strLt_connex (a b : String) (hne : a ≠ b) :
    strLt a b = true ∨ strLt b a = true := by
  refine charListLt_connex a.data b.data ?_
  intro h
  exact hne (String.ext h)

/-- `a` is at most `b` in the JS string order. -/
def leS (a b : String) : Prop := a = b ∨ strLt a b = true

theorem leS_trans (a b c : String) (hab : leS a b) (hbc : leS b c) : leS a c := by
  rcases hab with rfl | hab
  · exact hbc
  · rcases hbc with rfl | hbc
    · exact Or.inr hab
    · exact Or.inr (strLt_trans _ _ _ hab hbc)

theorem leS_antisymm (a b : String) (hab : leS a b) (hba : leS b a) : a = b := by
  rcases hab with rfl | hab
  · rfl
  · rcases hba with rfl | hba
    · rfl
    · have := strLt_trans _ _ _ hab hba
      rw [strLt_irrefl] at this
      exact absurd this Bool.false_ne_true

theorem fold_min_spec :
    ∀ (t : List String) (h : String),
      (t.foldl (fun a b => if strLt a b then a else b) h = h ∨
        t.foldl (fun a b => if strLt a b then a else b) h ∈ t) ∧
      leS (t.foldl (fun a b => if strLt a b then a else b) h) h ∧
      (∀ x ∈ t, leS (t.foldl (fun a b => if strLt a b then a else b) h) x) := by
  intro t
  induction t with
  | nil => intro h; exact ⟨Or.inl rfl, Or.inl rfl, fun x hx => by simp at hx⟩
  | cons b t ih =>
    intro h
    rw [List.foldl_cons]
    by_cases hhb : strLt h b = true
    · rw [if_pos hhb]
      obtain ⟨ihmem, ihacc, ihall⟩ := ih h
      refine ⟨?_, ?_, ?_⟩
      · rcases ihmem with hm | hm
        · exact Or.inl hm
        · exact Or.inr (List.mem_cons_of_mem _ hm)
      · exact ihacc
      · intro x hx
        rcases List.mem_cons.mp hx with hx | hx
        · exact hx ▸ leS_trans _ _ _ ihacc (Or.inr hhb)
        · exact ihall x hx
    · rw [if_neg hhb]
      obtain ⟨ihmem, ihacc, ihall⟩ := ih b
      have hbh : leS b h := by
        by_cases heq : h = b
        · exact Or.inl heq.symm
        · rcases strLt_connex h b heq with hc | hc
          · exact absurd hc hhb
          · exact Or.inr hc
      refine ⟨?_, ?_, ?_⟩
      · rcases ihmem with hm | hm
        · exact Or.inr (by rw [hm]; exact List.mem_cons_self _ _)
        · exact Or.inr (List.mem_cons_of_mem _ hm)
      · exact leS_trans _ _ _ ihacc hbh
      · intro x hx
        rcases List.mem_cons.mp hx with hx | hx
        · exact hx ▸ ihacc
        · exact ihall x hx

theorem minString_spec (L : List String) (hne : L ≠ []) :
    minString L ∈ L ∧ ∀ x ∈ L, leS (minString L) x := by
  cases L with
  | nil => exact absurd rfl hne
  | cons h t =>
    obtain ⟨hmem, hacc, hall⟩ := fold_min_spec t h
    have hdef : minString (h :: t) =
        t.foldl (fun a b => if strLt a b then a else b) h := rfl
    refine ⟨?_, ?_⟩
    · rw [hdef]
      rcases hmem with hm | hm
      · rw [hm]; exact List.mem_cons_self _ _
      · exact List.mem_cons_of_mem _ hm
    · intro x hx
      rw [hdef]
      rcases List.mem_cons.mp hx with hx | hx
      · rw [hx]; exact hacc
      · exact hall x hx

theorem minString_congr (L₁ L₂ : List String)
    (hmem : ∀ x, x ∈ L₁ ↔ x ∈ L₂) (h₁ : L₁ ≠ []) (h₂ : L₂ ≠ []) :
    minString L₁ = minString L₂ := by
  obtain ⟨hm1, ha1⟩ := minString_spec L₁ h₁
  obtain ⟨hm2, ha2⟩ := minString_spec L₂ h₂
  exact leS_antisymm _ _ (ha1 _ ((hmem _).mpr hm2)) (ha2 _ ((hmem _).mp hm1))

theorem headD_eq_get (l : List α) (d : α) (h : l ≠ []) :
    l.headD d = l.get ⟨0, List.length_pos.mpr h⟩ := by
  cases l with
  | nil => exact absurd rfl h
  | cons a t => rfl

theorem normalizeCycle_eq_rotate (L : List String) (hne : L ≠ []) :
    normalizeCycle L =
      L.rotate (L.findIdx (fun x => decide (x = minString L))) ∧
      L.findIdx (fun x => decide (x = minString L)) < L.length := by
  have hmem := (minString_spec L hne).1
  have hlt : L.findIdx (fun x => decide (x = minString L)) < L.length :=
    List.findIdx_lt_length_of_exists ⟨minString L, hmem, by simp⟩
  refine ⟨?_, hlt⟩
  unfold normalizeCycle
  rw [List.rotate_eq_drop_append_take (le_of_lt hlt)]

theorem normalizeCycle_isRotated (L : List String) (hne : L ≠ []) :
    L.IsRotated (normalizeCycle L) := by
  obtain ⟨heq, _⟩ := normalizeCycle_eq_rotate L hne
  exact ⟨_, heq.symm⟩

theorem normalizeCycle_length (L : List String) (hne : L ≠ []) :
    (normalizeCycle L).length = L.length := by
  obtain ⟨heq, _⟩ := normalizeCycle_eq_rotate L hne
  rw [heq, List.length_rotate]

theorem rotate_headD (L : List α) (d : α) (n : ℕ) (hn : n < L.length) :
    (L.rotate n).headD d = L.get ⟨n, hn⟩ := by
  have hlen : (L.rotate n).length = L.length := List.length_rotate L n
  have hne : L.rotate n ≠ [] := by
    intro h
    rw [h] at hlen
    simp at hlen
    omega
  rw [headD_eq_get _ d hne]
  rw [List.get_rotate]
  congr 1
  exact Fin.ext (by simp [Nat.mod_eq_of_lt hn])

theorem normalizeCycle_head (L : List String) (hne : L ≠ []) :
    (normalizeCycle L).headD "" = minString L := by
  obtain ⟨heq, hlt⟩ := normalizeCycle_eq_rotate L hne
  rw [heq, rotate_headD L "" _ hlt]
  have := @List.findIdx_getElem _ (fun x => decide (x = minString L)) L hlt
  simp only [decide_eq_true_eq] at this
  exact this

theorem rotate_head_inj (L : List String) (hnd : L.Nodup) (hne : L ≠ [])
    (i j : ℕ) (hh : (L.rotate i).headD "" = (L.rotate j).headD "") :
    L.rotate i = L.rotate j := by
  have hlen : 0 < L.length := List.length_pos.mpr hne
  have hi : i % L.length < L.length := Nat.mod_lt _ hlen
  have hj : j % L.length < L.length := Nat.mod_lt _ hlen
  rw [← List.rotate_mod L i, ← List.rotate_mod L j] at hh ⊢
  rw [rotate_headD L "" _ hi, rotate_headD L "" _ hj] at hh
  have := (List.Nodup.get_inj_iff hnd).mp hh
  rw [Fin.mk.injEq] at this
  rw [this]

theorem normalizeCycle_congr (L M : List String) (h : L.IsRotated M)
    (hnd : L.Nodup) (hne : L ≠ []) :
    normalizeCycle L = normalizeCycle M := by
  obtain ⟨k, hk⟩ := h
  have hMne : M ≠ [] := by
    intro hm
    rw [hm] at hk
    have := congrArg List.length hk
    rw [List.length_rotate] at this
    simp at this
    exact hne this
  have hmemLM : ∀ x, x ∈ L ↔ x ∈ M := by
    intro x
    rw [← hk, List.mem_rotate]
  have hmin : minString L = minString M := minString_congr L M hmemLM hne hMne
  obtain ⟨heqL, _⟩ := normalizeCycle_eq_rotate L hne
  obtain ⟨heqM, _⟩ := normalizeCycle_eq_rotate M hMne
  rw [heqL, heqM, ← hk, List.rotate_rotate]
  apply rotate_head_inj L hnd hne
  rw [← List.rotate_rotate, hk, ← heqL, ← heqM]
  rw [normalizeCycle_head L hne, normalizeCycle_head M hMne, hmin]

theorem normalizeCycle_idem (L : List String) (hnd : L.Nodup) (hne : L ≠ []) :
    normalizeCycle (normalizeCycle L) = normalizeCycle L :=
  (normalizeCycle_congr L (normalizeCycle L)
    (normalizeCycle_isRotated L hne) hnd hne).symm

/-- The account name contains no `"|"` (the cycle dedup separator). -/
def pipeFree (s : String) : Prop := ¬ ('|' ∈ s.data)

instance (s : String) : Decidable (pipeFree s) := by
  unfold pipeFree
  infer_instance

theorem intercalate_go_nil (acc s : String) :
    String.intercalate.go acc s [] = acc := rfl

theorem intercalate_go_cons (acc s a : String) (as : List String) :
    String.intercalate.go acc s (a :: as) =
      String.intercalate.go (acc ++ s ++ a) s as := rfl

theorem intercalate_go_data (as : List String) :
    ∀ acc : String, (String.intercalate.go acc "|" as).data =
      acc.data ++ as.flatMap (fun b => '|' :: b.data) := by
  induction as with
  | nil => intro acc; simp [intercalate_go_nil]
  | cons b bs ih =>
    intro acc
    rw [intercalate_go_cons, ih, List.flatMap_cons]
    rw [String.data_append, String.data_append]
    simp

theorem intercalate_pipe_data (l : List String) (a : String) :
    (String.intercalate "|" (a :: l)).data =
      a.data ++ l.flatMap (fun b => '|' :: b.data) := by
  show (String.intercalate.go a "|" l).data = _
  exact intercalate_go_data l a

theorem pipe_prefix_split :
    ∀ (a b p q : List Char), '|' ∉ a → '|' ∉ b →
      (∀ c, p.head? = some c → c = '|') → (∀ c, q.head? = some c → c = '|') →
      a ++ p = b ++ q → a = b ∧ p = q := by
  intro a
  induction a with
  | nil =>
    intro b p q _ hb hp _ heq
    cases b with
    | nil => exact ⟨rfl, heq⟩
    | cons c b' =>
      simp only [List.nil_append] at heq
      have hc : c = '|' := hp c (by rw [heq]; rfl)
      exact absurd (by rw [← hc]; exact List.mem_cons_self _ _) hb
  | cons c a' ih =>
    intro b p q ha hb hp hq heq
    cases b with
    | nil =>
      simp only [List.nil_append] at heq
      have hc : c = '|' := hq c (by rw [← heq]; rfl)
      exact absurd (by rw [← hc]; exact List.mem_cons_self _ _) ha
    | cons c' b' =>
      simp only [List.cons_append, List.cons.injEq] at heq
      obtain ⟨hcc, htl⟩ := heq
      have ha' : '|' ∉ a' := fun h => ha (List.mem_cons_of_mem _ h)
      have hb' : '|' ∉ b' := fun h => hb (List.mem_cons_of_mem _ h)
      obtain ⟨h1, h2⟩ := ih b' p q ha' hb' hp hq htl
      exact ⟨by rw [hcc, h1], h2⟩

theorem pipe_flat_head :
    ∀ (xs : List (List Char)) (c : Char),
      (xs.flatMap (fun b => '|' :: b)).head? = some c → c = '|' := by
  intro xs c h
  cases xs with
  | nil => simp at h
  | cons x xs' =>
    simp only [List.flatMap_cons, List.cons_append, List.head?_cons,
      Option.some.injEq] at h
    exact h.symm

theorem pipe_flat_inj :
    ∀ (as bs : List (List Char)), (∀ a ∈ as, '|' ∉ a) → (∀ a ∈ bs, '|' ∉ a) →
      as.flatMap (fun b => '|' :: b) = bs.flatMap (fun b => '|' :: b) →
      as = bs := by
  intro as
  induction as with
  | nil =>
    intro bs _ _ heq
    cases bs with
    | nil => rfl
    | cons b bs' => simp at heq
  | cons a as' ih =>
    intro bs ha hb heq
    cases bs with
    | nil => simp at heq
    | cons b bs' =>
      simp only [List.flatMap_cons, List.cons_append, List.cons.injEq] at heq
      obtain ⟨ha2, hflat⟩ := pipe_prefix_split a b _ _
        (ha a (List.mem_cons_self _ _)) (hb b (List.mem_cons_self _ _))
        (pipe_flat_head as') (pipe_flat_head bs') heq.2
      rw [ha2, ih bs'
        (fun x hx => ha x (List.mem_cons_of_mem _ hx))
        (fun x hx => hb x (List.mem_cons_of_mem _ hx)) hflat]

theorem flatMap_pipe_data (xs : List String) :
    xs.flatMap (fun b => '|' :: b.data) =
      (xs.map String.data).flatMap (fun b => '|' :: b) := by
  induction xs with
  | nil => rfl
  | cons x t ih => simp [ih]

theorem map_data_inj :
    ∀ (xs ys : List String), xs.map String.data = ys.map String.data →
      xs = ys := by
  intro xs
  induction xs with
  | nil =>
    intro ys h
    cases ys with
    | nil => rfl
    | cons y u => simp at h
  | cons x t ih =>
    intro ys h
    cases ys with
    | nil => simp at h
    | cons y u =>
      simp only [List.map_cons, List.cons.injEq] at h
      rw [String.ext h.1, ih u h.2]

theorem intercalate_pipe_inj (l₁ l₂ : List String)
    (h₁ : ∀ x ∈ l₁, pipeFree x) (h₂ : ∀ x ∈ l₂, pipeFree x)
    (hne₁ : l₁ ≠ []) (hne₂ : l₂ ≠ [])
    (heq : String.intercalate "|" l₁ = String.intercalate "|" l₂) :
    l₁ = l₂ := by
  cases l₁ with
  | nil => exact absurd rfl hne₁
  | cons a as =>
    cases l₂ with
    | nil => exact absurd rfl hne₂
    | cons b bs =>
      have hdata := congrArg String.data heq
      rw [intercalate_pipe_data, intercalate_pipe_data,
        flatMap_pipe_data, flatMap_pipe_data] at hdata
      obtain ⟨hab, hflat⟩ := pipe_prefix_split a.data b.data _ _
        (h₁ a (List.mem_cons_self _ _)) (h₂ b (List.mem_cons_self _ _))
        (pipe_flat_head (as.map String.data)) (pipe_flat_head (bs.map String.data))
        hdata
      have htails : as = bs := map_data_inj as bs
        (pipe_flat_inj (as.map String.data) (bs.map String.data)
          (by
            intro x hx
            rcases List.mem_map.mp hx with ⟨u, hu, hux⟩
            rw [← hux]
            exact h₁ u (List.mem_cons_of_mem _ hu))
          (by
            intro x hx
            rcases List.mem_map.mp hx with ⟨u, hu, hux⟩
            rw [← hux]
            exact h₂ u (List.mem_cons_of_mem _ hu))
          hflat)
      rw [String.ext hab, htails]

theorem dedup_fold_char :
    ∀ (cycles : List (List String)) (ks : List String)
      (out : List (List String)),
      ks = out.map (String.intercalate "|") →
      ks.Nodup →
      (∀ M ∈ out, (∀ x ∈ M, pipeFree x) ∧ M ≠ []) →
      (∀ c ∈ cycles, (∀ x ∈ normalizeCycle c, pipeFree x) ∧
        normalizeCycle c ≠ []) →
      (cycles.foldl (fun (acc : List String × List (List String)) cycle =>
        let normalized := normalizeCycle cycle
        let key := String.intercalate "|" normalized
        if key ∈ acc.1 then acc
        else (acc.1 ++ [key], acc.2 ++ [normalized])) (ks, out)).1 =
        ((cycles.foldl (fun (acc : List String × List (List String)) cycle =>
          let normalized := normalizeCycle cycle
          let key := String.intercalate "|" normalized
          if key ∈ acc.1 then acc
          else (acc.1 ++ [key], acc.2 ++ [normalized])) (ks, out)).2).map
          (String.intercalate "|") ∧
      ((cycles.foldl (fun (acc : List String × List (List String)) cycle =>
        let normalized := normalizeCycle cycle
        let key := String.intercalate "|" normalized
        if key ∈ acc.1 then acc
        else (acc.1 ++ [key], acc.2 ++ [normalized])) (ks, out)).1).Nodup ∧
      (∀ M ∈ (cycles.foldl (fun (acc : List String × List (List String)) cycle =>
        let normalized := normalizeCycle cycle
        let key := String.intercalate "|" normalized
        if key ∈ acc.1 then acc
        else (acc.1 ++ [key], acc.2 ++ [normalized])) (ks, out)).2,
        (∀ x ∈ M, pipeFree x) ∧ M ≠ []) ∧
      (∀ M, (M ∈ (cycles.foldl
          (fun (acc : List String × List (List String)) cycle =>
          let normalized := normalizeCycle cycle
          let key := String.intercalate "|" normalized
          if key ∈ acc.1 then acc
          else (acc.1 ++ [key], acc.2 ++ [normalized])) (ks, out)).2) ↔
        (M ∈ out ∨ ∃ c ∈ cycles, normalizeCycle c = M)) := by
  intro cycles
  induction cycles with
  | nil =>
    intro ks out hmap hnd hout _
    refine ⟨hmap, hnd, hout, ?_⟩
    intro M
    simp only [List.foldl_nil]
    constructor
    · exact fun h => Or.inl h
    · intro h
      rcases h with h | ⟨c, hc, _⟩
      · exact h
      · simp at hc
  | cons c cs ih =>
    intro ks out hmap hnd hout hcyc
    rw [List.foldl_cons]
    have hcycc := hcyc c (List.mem_cons_self _ _)
    by_cases hk : String.intercalate "|" (normalizeCycle c) ∈ ks
    · dsimp only
      rw [if_pos hk]
      have hcin : normalizeCycle c ∈ out := by
        rw [hmap] at hk
        rcases List.mem_map.mp hk with ⟨M', hM', hkey⟩
        have := intercalate_pipe_inj M' (normalizeCycle c)
          (hout M' hM').1 hcycc.1 (hout M' hM').2 hcycc.2 hkey
        rw [← this]
        exact hM'
      obtain ⟨i1, i2, i3, i4⟩ := ih ks out hmap hnd hout
        (fun c' hc' => hcyc c' (List.mem_cons_of_mem _ hc'))
      refine ⟨i1, i2, i3, ?_⟩
      intro M
      rw [i4 M]
      constructor
      · intro h
        rcases h with h | ⟨c', hc', hn⟩
        · exact Or.inl h
        · exact Or.inr ⟨c', List.mem_cons_of_mem _ hc', hn⟩
      · intro h
        rcases h with h | ⟨c', hc', hn⟩
        · exact Or.inl h
        · rcases List.mem_cons.mp hc' with hc' | hc'
          · refine Or.inl ?_
            rw [← hn, hc']
            exact hcin
          · exact Or.inr ⟨c', hc', hn⟩
    · dsimp only
      rw [if_neg hk]
      obtain ⟨i1, i2, i3, i4⟩ := ih
        (ks ++ [String.intercalate "|" (normalizeCycle c)])
        (out ++ [normalizeCycle c])
        (by rw [hmap, List.map_append, List.map_cons, List.map_nil])
        (by
          rw [List.nodup_append]
          exact ⟨hnd, List.nodup_singleton _, by
            intro x hx hx2
            simp only [List.mem_singleton] at hx2
            rw [hx2] at hx
            exact hk hx⟩)
        (by
          intro M hM
          rcases List.mem_append.mp hM with hM | hM
          · exact hout M hM
          · simp only [List.mem_singleton] at hM
            rw [hM]
            exact hcycc)
        (fun c' hc' => hcyc c' (List.mem_cons_of_mem _ hc'))
      refine ⟨i1, i2, i3, ?_⟩
      intro M
      rw [i4 M]
      constructor
      · intro h
        rcases h with h | ⟨c', hc', hn⟩
        · rcases List.mem_append.mp h with h | h
          · exact Or.inl h
          · simp only [List.mem_singleton] at h
            exact Or.inr ⟨c, List.mem_cons_self _ _, h.symm⟩
        · exact Or.inr ⟨c', List.mem_cons_of_mem _ hc', hn⟩
      · intro h
        rcases h with h | ⟨c', hc', hn⟩
        · exact Or.inl (List.mem_append.mpr (Or.inl h))
        · rcases List.mem_cons.mp hc' with hc' | hc'
          · refine Or.inl (List.mem_append.mpr (Or.inr ?_))
            rw [← hn, hc']
            exact List.mem_singleton.mpr rfl
          · exact Or.inr ⟨c', hc', hn⟩

theorem dedupCycles_char (cycles : List (List String))
    (hc : ∀ c ∈ cycles, (∀ x ∈ normalizeCycle c, pipeFree x) ∧
      normalizeCycle c ≠ []) :
    (∀ M, M ∈ dedupCycles cycles ↔ ∃ c ∈ cycles, normalizeCycle c = M) ∧
    (dedupCycles cycles).Nodup ∧
    (∀ M ∈ dedupCycles cycles, (∀ x ∈ M, pipeFree x) ∧ M ≠ []) := by
  obtain ⟨h1, h2, h3, h4⟩ := dedup_fold_char cycles [] []
    rfl List.nodup_nil (by simp) hc
  refine ⟨?_, ?_, h3⟩
  · intro M
    rw [show (M ∈ dedupCycles cycles) ↔ _ from Iff.rfl]
    unfold dedupCycles
    rw [h4 M]
    simp
  · unfold dedupCycles
    rw [h1] at h2
    exact List.Nodup.of_map _ h2

/-- A length 3-to-5 duplicate-free closed walk from `s`: the raw shape
returned by the cycle DFS started at `s`. -/
def isCycleFrom (adj : List (String × List (String × List Tx)))
    (s : String) (L : List String) : Prop :=
  3 ≤ L.length ∧ L.length ≤ 5 ∧ L.Nodup ∧
  List.Chain' (fun a b => b ∈ adjNeighbors adj a) (L ++ [s]) ∧
  L.headD "" = s

/-- A simple directed cycle of length 3 to 5, written as the member list
starting anywhere; the closing edge returns to the first member. -/
def isSimpleCycle (adj : List (String × List (String × List Tx)))
    (L : List String) : Prop :=
  isCycleFrom adj (L.headD "") L

instance (adj : List (String × List (String × List Tx))) (s : String)
    (L : List String) : Decidable (isCycleFrom adj s L) :=
  inferInstanceAs (Decidable (3 ≤ L.length ∧ L.length ≤ 5 ∧ L.Nodup ∧
    List.Chain' (fun a b => b ∈ adjNeighbors adj a) (L ++ [s]) ∧
    L.headD "" = s))

instance (adj : List (String × List (String × List Tx))) (L : List String) :
    Decidable (isSimpleCycle adj L) :=
  inferInstanceAs (Decidable (isCycleFrom adj (L.headD "") L))

theorem chain'_concat_edge {R : α → α → Prop} (l : List α) (x y : α)
    (hch : List.Chain' R (l ++ [x])) (hr : R x y) :
    List.Chain' R ((l ++ [x]) ++ [y]) := by
  rw [List.chain'_append]
  refine ⟨hch, List.chain'_singleton y, ?_⟩
  intro a ha b hb
  rw [List.getLast?_concat] at ha
  simp only [Option.mem_def, Option.some.injEq] at ha
  simp only [List.head?_cons, Option.mem_def, Option.some.injEq] at hb
  rw [← ha, ← hb]
  exact hr

theorem headD_append_left (l l' : List α) (d : α) (h : l ≠ []) :
    (l ++ l').headD d = l.headD d := by
  cases l with
  | nil => exact absurd rfl h
  | cons a t => rfl

theorem cycleDfs_sound (adj : List (String × List (String × List Tx)))
    (s : String) :
    ∀ (fuel : ℕ) (current : String) (visited path : List String) (depth : ℕ),
      depth = path.length + 1 →
      (∀ x, x ∈ visited ↔ x ∈ path) →
      List.Chain' (fun a b => b ∈ adjNeighbors adj a) (path ++ [current]) →
      (path ++ [current]).Nodup →
      (path ++ [current]).headD "" = s →
      ∀ L ∈ cycleDfs adj s fuel current visited path depth,
        isCycleFrom adj s L := by
  intro fuel
  induction fuel with
  | zero =>
    intro current visited path depth _ _ _ _ _ L hL
    simp [cycleDfs] at hL
  | succ fuel ih =>
    intro current visited path depth hdepth hvis hchain hnodup hhead L hL
    unfold cycleDfs at hL
    split at hL
    · simp at hL
    · rename_i hdle
      dsimp only at hL
      rw [List.mem_flatMap] at hL
      obtain ⟨nb, hnb, hL⟩ := hL
      split at hL
      · rename_i hcond
        simp only [List.mem_singleton] at hL
        rw [hL]
        have hlen : (path ++ [current]).length = depth := by
          rw [List.length_append, List.length_singleton, hdepth]
        refine ⟨?_, ?_, hnodup, ?_, hhead⟩
        · rw [hlen]; exact hcond.2
        · rw [hlen]; omega
        · rw [← hcond.1]
          exact chain'_concat_edge path current nb hchain hnb
      · split at hL
        · rename_i hrec
          refine ih nb (insertSet visited current) (path ++ [current])
            (depth + 1) ?_ ?_ ?_ ?_ ?_ L hL
          · rw [List.length_append, List.length_singleton, hdepth]
          · intro x
            rw [mem_insertSet, hvis x, List.mem_append, List.mem_singleton]
          · exact chain'_concat_edge path current nb hchain hnb
          · rw [List.nodup_append]
            refine ⟨hnodup, List.nodup_singleton _, ?_⟩
            intro x hx hx2
            simp only [List.mem_singleton] at hx2
            rw [hx2] at hx
            exact hrec.1 ((mem_insertSet _ _ _).mpr (by
              rcases List.mem_append.mp hx with hx | hx
              · exact Or.inl ((hvis nb).mpr hx)
              · exact Or.inr (List.mem_singleton.mp hx)))
          · rw [headD_append_left _ _ _ (by simp)]
            exact hhead
        · simp at hL

theorem headD_mem (l : List α) (d : α) (h : l ≠ []) : l.headD d ∈ l := by
  cases l with
  | nil => exact absurd rfl h
  | cons a t => exact List.mem_cons_self _ _

theorem cycleDfs_complete (adj : List (String × List (String × List Tx)))
    (s : String) (L : List String) (hcyc : isCycleFrom adj s L) :
    ∀ (fuel : ℕ) (current : String) (visited path : List String) (depth : ℕ),
      depth = path.length + 1 →
      fuel + depth = 7 →
      (∀ x, x ∈ visited ↔ x ∈ path) →
      (path ++ [current]) <+: L →
      L ∈ cycleDfs adj s fuel current visited path depth := by
  obtain ⟨h3, h5, hnd, hch, hhd⟩ := hcyc
  intro fuel
  induction fuel with
  | zero =>
    intro current visited path depth hdepth hfuel _ hpre
    have hplen := hpre.length_le
    rw [List.length_append, List.length_singleton] at hplen
    omega
  | succ fuel ih =>
    intro current visited path depth hdepth hfuel hvis hpre
    have hplen := hpre.length_le
    have hlen2 : (path ++ [current]).length = path.length + 1 := by
      rw [List.length_append, List.length_singleton]
    have hnat : path.length + 1 ≤ L.length := hlen2 ▸ hplen
    have hdle : ¬ 5 < depth := by omega
    unfold cycleDfs
    rw [if_neg hdle]
    dsimp only
    rw [List.mem_flatMap]
    by_cases hfull : (path ++ [current]).length = L.length
    · have heq : path ++ [current] = L := hpre.eq_of_length hfull
      rw [hlen2] at hfull
      have hedge : s ∈ adjNeighbors adj current := by
        rw [List.chain'_append] at hch
        refine hch.2.2 current ?_ s rfl
        rw [← heq, List.getLast?_concat]
        rfl
      refine ⟨s, hedge, ?_⟩
      rw [if_pos ⟨rfl, by omega⟩]
      rw [heq]
      exact List.mem_singleton.mpr rfl
    · have hlt : (path ++ [current]).length < L.length :=
        lt_of_le_of_ne hplen hfull
      have hltn : path.length + 1 < L.length := hlen2 ▸ hlt
      obtain ⟨rest, hrest⟩ := hpre
      have hrestne : rest ≠ [] := by
        intro h
        rw [h, List.append_nil] at hrest
        exact hfull (by rw [hrest])
      obtain ⟨nb, rest', hnbrest⟩ := List.exists_cons_of_ne_nil hrestne
      have hLeq : L = (path ++ [current]) ++ nb :: rest' := by
        rw [← hrest, hnbrest]
      have hedge : nb ∈ adjNeighbors adj current := by
        have hch2 : List.Chain' (fun a b => b ∈ adjNeighbors adj a)
            ((path ++ [current]) ++ (nb :: rest' ++ [s])) := by
          rw [← List.append_assoc, ← hLeq]
          exact hch
        rw [List.chain'_append] at hch2
        refine hch2.2.2 current ?_ nb rfl
        rw [List.getLast?_concat]
        rfl
      have hnbnotin : nb ∉ path ++ [current] := by
        have hnd2 := hnd
        rw [hLeq, List.nodup_append] at hnd2
        intro h
        exact hnd2.2.2 h (List.mem_cons_self _ _)
      have hp2ne : path ++ [current] ≠ [] := by simp
      have hnbs : nb ≠ s := by
        intro h
        apply hnbnotin
        have hLhead : L.headD "" = (path ++ [current]).headD "" := by
          rw [hLeq]
          exact headD_append_left _ _ _ hp2ne
        rw [h, ← hhd, hLhead]
        exact headD_mem _ _ hp2ne
      refine ⟨nb, hedge, ?_⟩
      rw [if_neg (by intro hcon; exact hnbs hcon.1)]
      have hnotvis : nb ∉ insertSet visited current := by
        intro hmem
        rcases (mem_insertSet _ _ _).mp hmem with hmem | hmem
        · exact hnbnotin (List.mem_append.mpr (Or.inl ((hvis nb).mp hmem)))
        · exact hnbnotin (List.mem_append.mpr (Or.inr
            (List.mem_singleton.mpr hmem)))
      rw [if_pos ⟨hnotvis, by omega⟩]
      refine ih nb (insertSet visited current) (path ++ [current])
        (depth + 1) ?_ (by omega) ?_ ?_
      · omega
      · intro x
        rw [mem_insertSet, hvis x, List.mem_append, List.mem_singleton]
      · refine ⟨rest', ?_⟩
        rw [List.append_assoc]
        exact hLeq.symm

theorem detectCycles_raw_mem (adj : List (String × List (String × List Tx)))
    (accounts : List String) (L : List String) :
    L ∈ accounts.flatMap
      (fun startNode => cycleDfs adj startNode 6 startNode [] [] 1) ↔
      (isCycleFrom adj (L.headD "") L ∧ L.headD "" ∈ accounts) := by
  rw [List.mem_flatMap]
  constructor
  · intro h
    obtain ⟨s, hs, hL⟩ := h
    have hsound := cycleDfs_sound adj s 6 s [] [] 1 rfl
      (fun x => Iff.rfl) (List.chain'_singleton s) (List.nodup_singleton s)
      rfl L hL
    have hhd : L.headD "" = s := hsound.2.2.2.2
    rw [hhd]
    exact ⟨hsound, hhd ▸ hs⟩
  · intro h
    obtain ⟨hcyc, hmem⟩ := h
    refine ⟨L.headD "", hmem, ?_⟩
    refine cycleDfs_complete adj (L.headD "") L hcyc 6 (L.headD "") [] [] 1
      rfl rfl (fun x => Iff.rfl) ?_
    have hne : L ≠ [] := by
      intro h0
      rw [h0] at hcyc
      simp [isCycleFrom] at hcyc
    cases L with
    | nil => exact absurd rfl hne
    | cons a t => exact ⟨t, rfl⟩

theorem detectCycles_pre (adj : List (String × List (String × List Tx)))
    (accounts : List String)
    (hacc : ∀ x ∈ accounts, pipeFree x)
    (hadj : ∀ x ∈ adjNodes adj, pipeFree x) :
    ∀ c ∈ accounts.flatMap
      (fun startNode => cycleDfs adj startNode 6 startNode [] [] 1),
      (∀ x ∈ c, pipeFree x) ∧ 3 ≤ c.length ∧ c.Nodup := by
  intro c hc
  have hmem := (detectCycles_raw_mem adj accounts c).mp hc
  refine ⟨?_, hmem.1.1, hmem.1.2.2.1⟩
  have hsub : ∀ x ∈ c, x ∈ accounts ++ adjNodes adj := by
    rw [List.mem_flatMap] at hc
    obtain ⟨s, hs, hcs⟩ := hc
    exact cycleDfs_members_sub adj (accounts ++ adjNodes adj)
      (fun x hx => List.mem_append.mpr (Or.inr hx)) s 6 s [] [] 1
      (by simp) (List.mem_append.mpr (Or.inl hs)) c hcs
  intro x hx
  rcases List.mem_append.mp (hsub x hx) with h | h
  · exact hacc x h
  · exact hadj x h

/-- Emitted cycles are exactly the canonical forms: one per simple cycle. -/
theorem detectCycles_canonical (adj : List (String × List (String × List Tx)))
    (accounts : List String)
    (hacc : ∀ x ∈ accounts, pipeFree x)
    (hadj : ∀ x ∈ adjNodes adj, pipeFree x) :
    (∀ M, M ∈ detectCycles adj accounts ↔
      ∃ c, (isCycleFrom adj (c.headD "") c ∧ c.headD "" ∈ accounts) ∧
        normalizeCycle c = M) ∧
    (detectCycles adj accounts).Nodup := by
  have hpre := detectCycles_pre adj accounts hacc hadj
  have hdc : ∀ c ∈ accounts.flatMap
      (fun startNode => cycleDfs adj startNode 6 startNode [] [] 1),
      (∀ x ∈ normalizeCycle c, pipeFree x) ∧ normalizeCycle c ≠ [] := by
    intro c hc
    obtain ⟨hpf, h3, _⟩ := hpre c hc
    have hne : c ≠ [] := by
      intro h0
      rw [h0] at h3
      simp at h3
    refine ⟨?_, ?_⟩
    · intro x hx
      exact hpf x (mem_normalizeCycle_sub c x hx)
    · intro h0
      have := normalizeCycle_length c hne
      rw [h0] at this
      simp at this
      rw [← this] at h3
      simp at h3
  obtain ⟨hmem, hnd, _⟩ := dedupCycles_char _ hdc
  constructor
  · intro M
    unfold detectCycles
    rw [hmem M]
    constructor
    · intro ⟨c, hc, hn⟩
      exact ⟨c, (detectCycles_raw_mem adj accounts c).mp hc, hn⟩
    · intro ⟨c, hc, hn⟩
      exact ⟨c, (detectCycles_raw_mem adj accounts c).mpr hc, hn⟩
  · exact hnd

theorem isRotated_mem_iff {l l' : List α} (h : l.IsRotated l') :
    ∀ x, x ∈ l ↔ x ∈ l' := by
  obtain ⟨n, hn⟩ := h
  intro x
  rw [← hn, List.mem_rotate]

theorem isCycleFrom_ne_nil (adj : List (String × List (String × List Tx)))
    (s : String) (L : List String) (h : isCycleFrom adj s L) : L ≠ [] := by
  intro h0
  rw [h0] at h
  simp [isCycleFrom] at h

/-- C3 (amended): when no account identifier contains the pipe
character, the cycle detector emits, for every simple directed cycle of
length 3-5 whose members are all known accounts, exactly one ring: the
rotation of the cycle placing the lexicographically smallest member
first; distinct canonical cycles (in particular a cycle and its
direction-reversal) are all retained, and nothing is emitted twice. -/
theorem c3_cycle_rings (adj : List (String × List (String × List Tx)))
    (accounts : List String)
    (hacc : ∀ x ∈ accounts, pipeFree x)
    (hadj : ∀ x ∈ adjNodes adj, pipeFree x) :
    (∀ M ∈ detectCycles adj accounts,
      3 ≤ M.length ∧ M.length ≤ 5 ∧ M.headD "" = minString M ∧
      ∃ c, isCycleFrom adj (c.headD "") c ∧ c.headD "" ∈ accounts ∧
        M = normalizeCycle c ∧ c.IsRotated M) ∧
    (detectCycles adj accounts).Nodup ∧
    (∀ L, isSimpleCycle adj L → (∀ x ∈ L, x ∈ accounts) →
      ∃ M ∈ detectCycles adj accounts, M.IsRotated L ∧
        ∀ M' ∈ detectCycles adj accounts, M'.IsRotated L → M' = M) := by
  obtain ⟨hmem, hnd⟩ := detectCycles_canonical adj accounts hacc hadj
  refine ⟨?_, hnd, ?_⟩
  · intro M hM
    obtain ⟨c, ⟨hcyc, hcacc⟩, hn⟩ := (hmem M).mp hM
    have hcne : c ≠ [] := isCycleFrom_ne_nil adj _ c hcyc
    have hrot : c.IsRotated M := hn ▸ normalizeCycle_isRotated c hcne
    have hlen : M.length = c.length := by
      rw [← hn]
      exact normalizeCycle_length c hcne
    have hMne : M ≠ [] := by
      intro h0
      rw [h0] at hlen
      simp at hlen
      have := hcyc.1
      omega
    refine ⟨?_, ?_, ?_, c, hcyc, hcacc, hn.symm, hrot⟩
    · rw [hlen]; exact hcyc.1
    · rw [hlen]; exact hcyc.2.1
    · rw [← hn, normalizeCycle_head c hcne]
      rw [hn] at *
      exact minString_congr c M (isRotated_mem_iff hrot) hcne hMne
  · intro L hL hLacc
    have hLne : L ≠ [] := isCycleFrom_ne_nil adj _ L hL
    have hLraw : isCycleFrom adj (L.headD "") L ∧ L.headD "" ∈ accounts :=
      ⟨hL, hLacc _ (headD_mem L "" hLne)⟩
    have hMmem : normalizeCycle L ∈ detectCycles adj accounts :=
      (hmem (normalizeCycle L)).mpr ⟨L, hLraw, rfl⟩
    refine ⟨normalizeCycle L, hMmem,
      (normalizeCycle_isRotated L hLne).symm, ?_⟩
    intro M' hM' hrot'
    obtain ⟨c', ⟨hcyc', _⟩, hn'⟩ := (hmem M').mp hM'
    have hcne' : c' ≠ [] := isCycleFrom_ne_nil adj _ c' hcyc'
    have hM'nd : M'.Nodup := by
      rw [← hn']
      obtain ⟨heq, _⟩ := normalizeCycle_eq_rotate c' hcne'
      rw [heq]
      exact List.nodup_rotate.mpr hcyc'.2.2.1
    have hM'ne : M' ≠ [] := by
      intro h0
      have := normalizeCycle_length c' hcne'
      rw [hn', h0] at this
      have h3 := hcyc'.1
      simp at this
      omega
    have hfix : normalizeCycle M' = M' := by
      rw [← hn']
      exact normalizeCycle_idem c' hcyc'.2.2.1 hcne'
    rw [← hfix, normalizeCycle_congr M' L hrot' hM'nd hM'ne]

/-- Two 3-cycles A-(B|C)-D-A and A-B-(C|D)-A whose canonical member
lists collide on the pipe-joined dedup key. -/
def c3FailingInput : List Tx :=
  [⟨"T1", "A", "B|C", 100, some 0⟩,
   ⟨"T2", "B|C", "D", 100, some 1⟩,
   ⟨"T3", "D", "A", 100, some 2⟩,
   ⟨"T4", "A", "B", 100, some 3⟩,
   ⟨"T5", "B", "C|D", 100, some 4⟩,
   ⟨"T6", "C|D", "A", 100, some 5⟩]

set_option maxRecDepth 100000 in
/-- The cycle detector drops the simple cycle A-B-(C|D) entirely: both
canonical cycles join to the dedup key `"A|B|C|D"`, so only the first
discovered one is emitted — refuting the unconditional claim. -/
theorem c3_counterexample :
    detectCycles (buildAdjacencyList c3FailingInput)
      (getAllAccounts c3FailingInput) = [["A", "B|C", "D"]] ∧
    isSimpleCycle (buildAdjacencyList c3FailingInput) ["A", "B", "C|D"] ∧
    (∀ x ∈ (["A", "B", "C|D"] : List String),
      x ∈ getAllAccounts c3FailingInput) ∧
    String.intercalate "|" ["A", "B|C", "D"] =
      String.intercalate "|" ["A", "B", "C|D"] ∧
    ¬ (["A", "B|C", "D"] : List String).IsRotated ["A", "B", "C|D"] := by
  refine ⟨by decide, ?_, by decide, by decide, ?_⟩
  · refine ⟨by decide, by decide, by decide, ?_, by decide⟩
    simp only [List.cons_append, List.nil_append, List.chain'_cons,
      List.chain'_singleton, and_true]
    exact ⟨by decide, by decide, by decide⟩
  · intro h
    obtain ⟨n, hnle, hn⟩ := List.isRotated_iff_mod.mp h
    simp only [List.length_cons, List.length_nil] at hnle
    interval_cases n <;> exact absurd hn (by decide)

/-- Witness for `c3_cycle_rings` on the pure 3-cycle scenario, whose
account names contain no pipe. -/
theorem c3_cycle_rings_witness :
    (∀ M ∈ detectCycles (buildAdjacencyList pure3CycleInput)
        (getAllAccounts pure3CycleInput),
      3 ≤ M.length ∧ M.length ≤ 5 ∧ M.headD "" = minString M ∧
      ∃ c, isCycleFrom (buildAdjacencyList pure3CycleInput) (c.headD "") c ∧
        c.headD "" ∈ getAllAccounts pure3CycleInput ∧
        M = normalizeCycle c ∧ c.IsRotated M) ∧
    (detectCycles (buildAdjacencyList pure3CycleInput)
      (getAllAccounts pure3CycleInput)).Nodup ∧
    (∀ L, isSimpleCycle (buildAdjacencyList pure3CycleInput) L →
      (∀ x ∈ L, x ∈ getAllAccounts pure3CycleInput) →
      ∃ M ∈ detectCycles (buildAdjacencyList pure3CycleInput)
        (getAllAccounts pure3CycleInput), M.IsRotated L ∧
        ∀ M' ∈ detectCycles (buildAdjacencyList pure3CycleInput)
          (getAllAccounts pure3CycleInput), M'.IsRotated L → M' = M) :=
  c3_cycle_rings (buildAdjacencyList pure3CycleInput)
    (getAllAccounts pure3CycleInput) (by decide) (by decide)
